import Mathlib

/-!
# Verification of the `memcomparable` serialization codec

A shallow embedding of the `memcomparable` Rust crate (files `src/ser.rs`,
`src/de.rs`, `src/decimal.rs`) together with proofs about its ordering,
round-trip, framing and error-handling properties.

Bytes are modelled as natural numbers kept below 256 by construction
(`% 256` at every point the Rust code performs a `u8` coercion).  The
serializer state is the output byte list plus the flip bit of the
`MaybeFlip` wrapper; the deserializer state is the remaining input plus its
flip bit.  Running out of input — which panics in the Rust `bytes::Buf`
methods — is modelled by a distinguished `eof` outcome, kept separate from
the error values the library itself returns.
-/

namespace Memcomparable

/-! ## Byte-level helpers -/

/-- Lexicographic comparison of byte lists, the order `memcmp` induces
(shorter prefixes compare smaller). -/
def lexCmp : List Nat → List Nat → Ordering
  | [], [] => .eq
  | [], _ :: _ => .lt
  | _ :: _, [] => .gt
  | a :: as, b :: bs =>
    match compare a b with
    | .eq => lexCmp as bs
    | o => o

/-- Big-endian byte list of `v` in `n` bytes (most significant first). -/
def toBE (n : Nat) (v : Nat) : List Nat :=
  match n with
  | 0 => []
  | m + 1 => v / 256 ^ m % 256 :: toBE m (v % 256 ^ m)

/-- Read a big-endian byte list back as a natural number. -/
def fromBE : List Nat → Nat
  | [] => 0
  | b :: bs => b * 256 ^ bs.length + fromBE bs

/-- One byte through the flip wrapper: complemented iff the flip bit is set
(`!value` on `u8` is `255 - value`). -/
def flipByte (f : Bool) (b : Nat) : Nat :=
  if f then 255 - b % 256 else b % 256

/-! ## Serializer state (`Serializer` + `MaybeFlip` of `ser.rs`) -/

/-- The serializer: the `MaybeFlip`-wrapped output buffer.  `output` is the
byte sink, `flip` the bit toggled by `set_reverse`. -/
structure SerState where
  output : List Nat
  flip : Bool
deriving Repr, DecidableEq

/-- `Serializer::new`: empty buffer, flip off. -/
def SerState.new : SerState := ⟨[], false⟩

/-- `Serializer::set_reverse`. -/
def SerState.set_reverse (s : SerState) (reverse : Bool) : SerState :=
  { s with flip := reverse }

/-- `MaybeFlip::put_u8`. -/
def put_u8 (s : SerState) (v : Nat) : SerState :=
  { s with output := s.output ++ [flipByte s.flip v] }

/-- `MaybeFlip::put_u16/u32/u64/u128` generalized to `n` bytes: the whole
value is complemented when the flip bit is set, then written big-endian
(flipping the composed integer complements each byte). -/
def put_uN (n : Nat) (s : SerState) (v : Nat) : SerState :=
  { s with output :=
      s.output ++ toBE n (if s.flip then 256 ^ n - 1 - v % 256 ^ n else v % 256 ^ n) }

/-- `MaybeFlip::put_slice`: each byte flipped individually. -/
def put_slice (s : SerState) (src : List Nat) : SerState :=
  { s with output := s.output ++ src.map (flipByte s.flip) }

/-- `MaybeFlip::put_bytes`: `cnt` copies of the (flipped) byte. -/
def put_bytes (s : SerState) (v : Nat) (cnt : Nat) : SerState :=
  { s with output := s.output ++ List.replicate cnt (flipByte s.flip v) }

/-! ## Scalar serialization (`impl ser::Serializer`, `ser.rs`) -/

/-- `serialize_u8`. -/
def serialize_u8 (s : SerState) (v : Nat) : SerState := put_u8 s v

/-- `serialize_u16/u32/u64/u128`, by byte width `n ∈ {2,4,8,16}`. -/
def serialize_uN (n : Nat) (s : SerState) (v : Nat) : SerState := put_uN n s v

/-- `serialize_bool` (`v as u8`). -/
def serialize_bool (s : SerState) (v : Bool) : SerState :=
  serialize_u8 s (if v then 1 else 0)

/-- `serialize_i8/i16/i32/i64/i128` for width `n` bytes: the two's-complement
bit pattern (`v as uN`, i.e. `v mod 2^(8n)`) with the sign bit toggled. -/
def serialize_iN (n : Nat) (s : SerState) (v : Int) : SerState :=
  serialize_uN n s ((v.emod (2 ^ (8 * n))).toNat ^^^ 2 ^ (8 * n - 1))

/-- `serialize_char`: the Unicode scalar value through the `u32` rule. -/
def serialize_char (s : SerState) (v : Nat) : SerState :=
  serialize_uN 4 s v

/-- The chunk loop of `serialize_bytes`: 8-byte chunks, zero padding for the
final partial chunk, trailer `1..=8` on the final chunk and `9` otherwise.
Only ever invoked with nonempty `v` (the empty case emits just `0x00`). -/
def serialize_bytes_chunks (s : SerState) (v : List Nat) : SerState :=
  if h : v.length ≤ 8 then
    put_u8 (put_bytes (put_slice s v) 0 (8 - v.length)) v.length
  else
    serialize_bytes_chunks (put_u8 (put_slice s (v.take 8)) 9) (v.drop 8)
termination_by v.length
decreasing_by
  simp only [List.length_drop]
  omega

/-- `serialize_bytes`: prefix byte `!v.is_empty()`, then the chunk loop
(which runs zero times when `v` is empty). -/
def serialize_bytes (s : SerState) (v : List Nat) : SerState :=
  if v.isEmpty then put_u8 s 0
  else serialize_bytes_chunks (put_u8 s 1) v

/-- `serialize_none` / the `None` tag. -/
def serialize_none (s : SerState) : SerState := serialize_u8 s 0

/-- The tag byte of `serialize_some` (the payload follows separately). -/
def serialize_some_tag (s : SerState) : SerState := serialize_u8 s 1

/-! ## Errors

Modelled from the spec: the error taxonomy of §7 (`Message`, `NotSupported`,
the `Invalid*Encoding` family, `Utf8`, `TrailingCharacters`).  The file
`error.rs` declaring the Rust `Error` enum is not among the provided
sources; only its variant names and payloads, as documented in §7 and used
throughout `ser.rs`/`de.rs`, are reproduced here. -/
inductive Err where
  | Message (s : String)
  | NotSupported (what : String)
  | InvalidBoolEncoding (v : Nat)
  | InvalidCharEncoding (v : Nat)
  | InvalidTagEncoding (t : Nat)
  | InvalidSeqEncoding (v : Nat)
  | InvalidBytesEncoding (v : Nat)
  | InvalidDecimalEncoding (v : Nat)
  | Utf8
  | TrailingCharacters
deriving Repr, DecidableEq

/-- Outcome of a serializer entry point that can refuse input: either a new
state, a returned `Err`, or a panic (`assert!` failure / process abort). -/
inductive SerOut where
  | ok (s : SerState)
  | err (e : Err)
  | panic
deriving Repr, DecidableEq

/-- `serialize_unit_variant`: `assert!(variant_index <= u8::MAX)` panics for
indices above 255, otherwise the index is written as one byte. -/
def serialize_unit_variant (s : SerState) (variant_index : Nat) : SerOut :=
  if variant_index ≤ 255 then .ok (serialize_u8 s variant_index)
  else .panic

/-- The tag byte of `serialize_tuple_variant` (fields follow separately);
the same `assert!` guards the index. -/
def serialize_tuple_variant_tag (s : SerState) (variant_index : Nat) : SerOut :=
  if variant_index ≤ 255 then .ok (serialize_u8 s variant_index)
  else .panic

/-! ## Deserializer state (`Deserializer` + `MaybeFlip` of `de.rs`) -/

/-- The deserializer: remaining input bytes and the flip bit. -/
structure DeState where
  input : List Nat
  flip : Bool
deriving Repr, DecidableEq

/-- `Deserializer::new`: flip off. -/
def DeState.new (input : List Nat) : DeState := ⟨input, false⟩

/-- `Deserializer::set_reverse`. -/
def DeState.set_reverse (s : DeState) (reverse : Bool) : DeState :=
  { s with flip := reverse }

/-- Outcome of a deserializer operation: a value plus the advanced state, a
returned `Err`, or `eof` — the panic a `bytes::Buf` raises when asked for
more bytes than remain. -/
inductive DeOut (α : Type) where
  | ok (a : α) (s : DeState)
  | err (e : Err)
  | eof
deriving Repr, DecidableEq

/-- Sequencing of deserializer outcomes. -/
def DeOut.bind {α β : Type} : DeOut α → (α → DeState → DeOut β) → DeOut β
  | .ok a s, f => f a s
  | .err e, _ => .err e
  | .eof, _ => .eof

/-- `MaybeFlip::get_u8`. -/
def get_u8 (s : DeState) : DeOut Nat :=
  match s.input with
  | [] => .eof
  | b :: rest => .ok (flipByte s.flip b) ⟨rest, s.flip⟩

/-- `MaybeFlip::get_u16/u32/u64/u128` generalized to `n` bytes: read
big-endian, then complement the composed value when the flip bit is set. -/
def get_uN (n : Nat) (s : DeState) : DeOut Nat :=
  if n ≤ s.input.length then
    let raw := fromBE (s.input.take n)
    .ok (if s.flip then 256 ^ n - 1 - raw else raw) ⟨s.input.drop n, s.flip⟩
  else .eof

/-- `MaybeFlip::copy_to_slice` into an `n`-byte buffer: each byte flipped
individually. -/
def copy_to_slice (n : Nat) (s : DeState) : DeOut (List Nat) :=
  if n ≤ s.input.length then
    .ok ((s.input.take n).map (flipByte s.flip)) ⟨s.input.drop n, s.flip⟩
  else .eof

/-- `Deserializer::advance`: raw cursor advance, bypassing the flip wrapper
(panics when fewer than `cnt` bytes remain). -/
def DeState.advance (s : DeState) (cnt : Nat) : DeOut Unit :=
  if cnt ≤ s.input.length then .ok () ⟨s.input.drop cnt, s.flip⟩ else .eof

/-! ## Scalar deserialization (`impl de::Deserializer`, `de.rs`) -/

/-- `deserialize_bool`. -/
def deserialize_bool (s : DeState) : DeOut Bool :=
  (get_u8 s).bind fun b s1 =>
    match b with
    | 1 => .ok true s1
    | 0 => .ok false s1
    | v => .err (.InvalidBoolEncoding v)

/-- `deserialize_u8/u16/u32/u64/u128`, by byte width. -/
def deserialize_uN (n : Nat) (s : DeState) : DeOut Nat := get_uN n s

/-- Reinterpret an unsigned `8n`-bit pattern as a signed value (`as iN`). -/
def asIntN (n : Nat) (u : Nat) : Int :=
  if u < 2 ^ (8 * n - 1) then (u : Int) else (u : Int) - 2 ^ (8 * n)

/-- `deserialize_i8/i16/i32/i64/i128`: read unsigned, toggle the sign bit,
reinterpret as signed. -/
def deserialize_iN (n : Nat) (s : DeState) : DeOut Int :=
  (get_uN n s).bind fun u s1 => .ok (asIntN n (u ^^^ 2 ^ (8 * n - 1))) s1

/-- `deserialize_char`: a `u32`, validated as a Unicode scalar value. -/
def deserialize_char (s : DeState) : DeOut Nat :=
  (get_uN 4 s).bind fun u s1 =>
    if u < 0xD800 ∨ (0xE000 ≤ u ∧ u < 0x110000) then .ok u s1
    else .err (.InvalidCharEncoding u)

/-! ## Byte strings: `read_bytes` and `skip_bytes` (`de.rs`) -/

/-- The loop of `read_bytes`: copy a 9-byte group, then dispatch on its
trailer byte. -/
def read_bytes_loop (s : DeState) (acc : List Nat) : DeOut (List Nat) :=
  if _h : 9 ≤ s.input.length then
    let chunk := (s.input.take 9).map (flipByte s.flip)
    let s1 : DeState := ⟨s.input.drop 9, s.flip⟩
    let t := chunk.getD 8 0
    if 1 ≤ t ∧ t ≤ 8 then .ok (acc ++ chunk.take t) s1
    else if t = 9 then read_bytes_loop s1 (acc ++ chunk.take 8)
    else .err (.InvalidBytesEncoding t)
  else .eof
termination_by s.input.length
decreasing_by
  simp only [List.length_drop]
  omega

/-- `read_bytes`: the byte-string decoder. -/
def read_bytes (s : DeState) : DeOut (List Nat) :=
  (get_u8 s).bind fun b s1 =>
    match b with
    | 0 => .ok [] s1
    | 1 => read_bytes_loop s1 []
    | v => .err (.InvalidBytesEncoding v)

/-- The loop of `skip_bytes`: advance over 8 payload bytes, then read the
trailer byte. -/
def skip_bytes_loop (s : DeState) (total : Nat) : DeOut Nat :=
  if _h : 8 ≤ s.input.length then
    match hm : s.input.drop 8 with
    | [] => .eof
    | b :: rest =>
      let t := flipByte s.flip b
      if 1 ≤ t ∧ t ≤ 8 then .ok (total + t) ⟨rest, s.flip⟩
      else if t = 9 then skip_bytes_loop ⟨rest, s.flip⟩ (total + 8)
      else .err (.InvalidBytesEncoding t)
  else .eof
termination_by s.input.length
decreasing_by
  have hl : (s.input.drop 8).length = s.input.length - 8 := List.length_drop 8 s.input
  rw [hm] at hl
  simp only [List.length_cons] at hl
  omega

/-- `skip_bytes`: advance past a byte string, returning its length. -/
def skip_bytes (s : DeState) : DeOut Nat :=
  (get_u8 s).bind fun b s1 =>
    match b with
    | 0 => .ok 0 s1
    | 1 => skip_bytes_loop s1 0
    | v => .err (.InvalidBytesEncoding v)

/-! ## The decimal codec (`decimal.rs`, `serialize_decimal`, `decimal_e_m`,
`deserialize_decimal`)

`rust_decimal::Decimal` is represented by its observable interface (spec
§9): a signed mantissa (96-bit magnitude in the real library) and a
non-negative scale, the value being `mantissa / 10^scale`. -/

/-- The extended decimal (`decimal.rs`), `rust_decimal::Decimal` flattened
into its mantissa/scale pair. -/
inductive Decimal where
  | NegInf
  | Normalized (mantissa : Int) (scale : Nat)
  | Inf
  | NaN
deriving Repr, DecidableEq

/-- `rust_decimal`'s invariant: 96-bit mantissa magnitude and scale ≤ 28. -/
def Decimal.valid : Decimal → Prop
  | .Normalized m sc => m.natAbs < 2 ^ 96 ∧ sc ≤ 28
  | _ => True

instance : DecidablePred Decimal.valid := by
  intro d
  cases d <;> simp only [Decimal.valid] <;> infer_instance

/-- Bit-not on `u8` (`!b`). -/
def notU8 (b : Nat) : Nat := 255 - b % 256

/-- Reinterpret a `u8` as an `i8` (`b as i8`). -/
def asI8 (b : Nat) : Int := if b % 256 < 128 then (b % 256 : Nat) else (b % 256 : Nat) - 256

/-- Bit-not on `i8` (`!x = -x - 1`). -/
def notI8 (x : Int) : Int := -x - 1

/-- Truncate an integer to `u8` (`x as u8`). -/
def u8ofI8 (x : Int) : Nat := (x.emod 256).toNat

/-- The `POW10` table of `decimal_e_m`. -/
def POW10 : List Nat :=
  [1, 10, 100, 1000, 10000, 100000, 1000000, 10000000, 100000000, 1000000000,
   10000000000, 100000000000, 1000000000000, 10000000000000, 100000000000000,
   1000000000000000, 10000000000000000, 100000000000000000, 1000000000000000000,
   10000000000000000000, 100000000000000000000, 1000000000000000000000,
   10000000000000000000000, 100000000000000000000000, 1000000000000000000000000,
   10000000000000000000000000, 100000000000000000000000000,
   1000000000000000000000000000, 10000000000000000000000000000,
   100000000000000000000000000000]

/-- The trailing-zero-stripping loop of `decimal_e_m`
(`while mantissa % 10 == 0 && mantissa != 0`), carrying `digit_num`. -/
def strip_zeros (m : Nat) (dn : Nat) : Nat × Nat :=
  if m % 10 = 0 ∧ m ≠ 0 then strip_zeros (m / 10) (dn - 1) else (m, dn)
termination_by m
decreasing_by
  rename_i h
  exact Nat.div_lt_self (Nat.pos_of_ne_zero h.2) (by omega)

/-- Base-100 digits of `m`, least significant first (the division loop of
`decimal_e_m`; the source splits it into a `u128` and a `u64` phase purely
as a division optimization). -/
def digits100LE (m : Nat) : List Nat :=
  if h : m = 0 then [] else m % 100 :: digits100LE (m / 100)
termination_by m
decreasing_by
  exact Nat.div_lt_self (Nat.pos_of_ne_zero h) (by omega)

/-- The significand bytes of `decimal_e_m`: every base-100 digit as
`2·d + 1`, pushed least significant first; then `byte_array[0] -= 1`
(clearing the continuation bit of the least significant digit); then
reversed into big-endian order. -/
def encSig (m1 : Nat) : List Nat :=
  match (digits100LE m1).map (fun d => 2 * d + 1) with
  | [] => []
  | b :: bs => ((b - 1) :: bs).reverse

/-- Truncating cast to `i8` (`e100 as i8`). -/
def toI8 (x : Int) : Int := (x + 128).emod 256 - 128

/-- `decimal_e_m`: base-100 exponent and significand bytes of a nonzero
decimal given by absolute mantissa `m` and scale.  `prec` counts the
entries of `POW10` that are `≤ m` (the `partition_point` on the sorted
table); `e10`/`e100` are the base-10 and base-100 scientific exponents;
trailing base-10 zeros are stripped and one is re-introduced when the
digit count is odd. -/
def decimal_e_m (m : Nat) (scale : Nat) : Int × List Nat :=
  if m = 0 then (0, []) else
  let prec : Nat := POW10.countP (fun p => decide (p ≤ m))
  let e10 : Int := (prec : Int) - (scale : Int)
  let e100 : Int := if 0 ≤ e10 then (e10 + 1).tdiv 2 else e10.tdiv 2
  let dn0 : Nat := if e10 = 2 * e100 then prec else prec + 1
  let md := strip_zeros m dn0
  let m1 := if md.2 % 2 = 1 then md.1 * 10 else md.1
  (toI8 e100, encSig m1)

/-- `serialize_decimal`: flag byte (and exponent byte for the out-of-range
exponent buckets), then the significand, complemented bytewise for
negative values.  All bytes go through the `MaybeFlip` output (`self.output`
is the flip wrapper). -/
def serialize_decimal (s : SerState) (d : Decimal) : SerState :=
  match d with
  | .NaN => put_u8 s 0x06
  | .NegInf => put_u8 s 0x07
  | .Inf => put_u8 s 0x23
  | .Normalized m sc =>
    if m = 0 then put_u8 s 0x15 else
    let em := decimal_e_m m.natAbs sc
    let exponent := em.1
    let significand := em.2
    if 0 ≤ m then
      let s1 :=
        if 11 ≤ exponent then put_u8 (put_u8 s 0x22) (u8ofI8 exponent)
        else if 0 ≤ exponent then put_u8 s (0x17 + exponent.toNat)
        else put_u8 (put_u8 s 0x16) (u8ofI8 (notI8 (-exponent)))
      put_slice s1 significand
    else
      let s1 :=
        if 11 ≤ exponent then put_u8 (put_u8 s 0x8) (u8ofI8 (notI8 exponent))
        else if 0 ≤ exponent then put_u8 s (0x13 - exponent.toNat)
        else put_u8 (put_u8 s 0x14) (u8ofI8 (-exponent))
      significand.foldl (fun st b => put_u8 st (notU8 b)) s1

/-- The mantissa loop of `deserialize_decimal`: read bytes (complemented
for negative values), each contributing its half as one base-100 digit,
until a byte with clear continuation bit.  Returns `(mantissa, mlen)`;
`mlen` is an `i8` in the source, modelled unbounded here. -/
def read_mantissa (s : DeState) (neg : Bool) (mantissa : Int) (mlen : Int) :
    DeOut (Int × Int) :=
  match hin : s.input with
  | [] => .eof
  | b0 :: rest =>
    let braw := flipByte s.flip b0
    let b := if neg then notU8 braw else braw
    let x := b / 2
    let mantissa1 := mantissa * 100 + x
    let mlen1 := mlen + 1
    if b &&& 1 = 0 then .ok (mantissa1, mlen1) ⟨rest, s.flip⟩
    else read_mantissa ⟨rest, s.flip⟩ neg mantissa1 mlen1
termination_by s.input.length
decreasing_by
  simp [hin]

/-- The tail of `deserialize_decimal` after the exponent is known: mantissa
loop, scale reconstruction `(mlen − exponent)·2` with the non-positive case
padding the mantissa and the one-trailing-zero removal, then the sign. -/
def decode_mantissa_scale (s : DeState) (neg : Bool) (exponent : Int) :
    DeOut Decimal :=
  (read_mantissa s neg 0 0).bind fun p s3 =>
    let scale0 := (p.2 - exponent) * 2
    let ms : Int × Int :=
      if scale0 ≤ 0 then (p.1 * 10 ^ (-scale0).toNat, 0)
      else if p.1 % 10 = 0 then (p.1 / 10, scale0 - 1)
      else (p.1, scale0)
    .ok (.Normalized (if neg then -ms.1 else ms.1) ms.2.toNat) s3

/-- `deserialize_decimal`: flag byte dispatch, exponent reconstruction (with
the `u8`/`i8` casts of the source made explicit), then the mantissa. -/
def deserialize_decimal (s : DeState) : DeOut Decimal :=
  (get_u8 s).bind fun flag s1 =>
    let neg : Bool := decide (0x07 ≤ flag ∧ flag < 0x15)
    if flag = 0x06 then .ok .NaN s1
    else if flag = 0x07 then .ok .NegInf s1
    else if flag = 0x08 then
      (get_u8 s1).bind fun b s2 => decode_mantissa_scale s2 neg (asI8 (notU8 b))
    else if 0x09 ≤ flag ∧ flag ≤ 0x13 then
      decode_mantissa_scale s1 neg ((0x13 : Int) - (flag : Int))
    else if flag = 0x14 then
      (get_u8 s1).bind fun b s2 => decode_mantissa_scale s2 neg (-(asI8 b))
    else if flag = 0x15 then .ok (.Normalized 0 0) s1
    else if flag = 0x16 then
      (get_u8 s1).bind fun b s2 => decode_mantissa_scale s2 neg (-(notI8 (asI8 b)))
    else if 0x17 ≤ flag ∧ flag ≤ 0x21 then
      decode_mantissa_scale s1 neg ((flag : Int) - 0x17)
    else if flag = 0x22 then
      (get_u8 s1).bind fun b s2 => decode_mantissa_scale s2 neg (asI8 b)
    else if flag = 0x23 then .ok .Inf s1
    else .err (.InvalidDecimalEncoding flag)

/-! ## IEEE-754 floats (`serialize_f32/f64`, `deserialize_f32/f64`)

A float is its bit pattern, a natural number below `2^w`.  The two formats
are binary32 (`mb = 23`, `eb = 8`) and binary64 (`mb = 52`, `eb = 11`). -/

/-- An IEEE-754 binary format: mantissa bits and exponent bits. -/
structure FloatFmt where
  mb : Nat
  eb : Nat
deriving Repr, DecidableEq

/-- binary32 (`f32`). -/
def f32fmt : FloatFmt := ⟨23, 8⟩

/-- binary64 (`f64`). -/
def f64fmt : FloatFmt := ⟨52, 11⟩

/-- Total width in bits. -/
def FloatFmt.w (fmt : FloatFmt) : Nat := fmt.mb + fmt.eb + 1

/-- Exponent field of a pattern. -/
def FloatFmt.expF (fmt : FloatFmt) (p : Nat) : Nat := p / 2 ^ fmt.mb % 2 ^ fmt.eb

/-- Mantissa field of a pattern. -/
def FloatFmt.manF (fmt : FloatFmt) (p : Nat) : Nat := p % 2 ^ fmt.mb

/-- All-ones exponent field (infinities and NaNs). -/
def FloatFmt.maxExp (fmt : FloatFmt) : Nat := 2 ^ fmt.eb - 1

/-- Exponent bias. -/
def FloatFmt.bias (fmt : FloatFmt) : Nat := 2 ^ (fmt.eb - 1) - 1

/-- `v.is_nan()` on the pattern. -/
def FloatFmt.isNanP (fmt : FloatFmt) (p : Nat) : Prop :=
  fmt.expF p = fmt.maxExp ∧ fmt.manF p ≠ 0

instance (fmt : FloatFmt) : DecidablePred fmt.isNanP := by
  intro p
  unfold FloatFmt.isNanP
  infer_instance

/-- `v == 0.0` on the pattern (either signed zero). -/
def FloatFmt.isZeroP (fmt : FloatFmt) (p : Nat) : Prop :=
  fmt.expF p = 0 ∧ fmt.manF p = 0

instance (fmt : FloatFmt) : DecidablePred fmt.isZeroP := by
  intro p
  unfold FloatFmt.isZeroP
  infer_instance

/-- The pattern is finite (not an infinity or NaN). -/
def FloatFmt.isFiniteP (fmt : FloatFmt) (p : Nat) : Prop :=
  fmt.expF p ≠ fmt.maxExp

/-- The canonical quiet NaN pattern (`f32::NAN = 0x7FC0_0000`,
`f64::NAN = 0x7FF8_0000_0000_0000`): all-ones exponent, top mantissa bit. -/
def FloatFmt.nanPat (fmt : FloatFmt) : Nat :=
  fmt.maxExp * 2 ^ fmt.mb + 2 ^ (fmt.mb - 1)

/-- The normalization `serialize_f32/f64` performs before encoding: any NaN
becomes the canonical NaN, any zero becomes `+0.0`. -/
def FloatFmt.normalize (fmt : FloatFmt) (p : Nat) : Nat :=
  if fmt.isNanP p then fmt.nanPat else if fmt.isZeroP p then 0 else p

/-- The bit-pattern transform of `serialize_f32/f64`: after normalization,
sign-positive patterns get the top bit set, negative patterns are fully
complemented. -/
def FloatFmt.fenc (fmt : FloatFmt) (p : Nat) : Nat :=
  let p1 := fmt.normalize p
  if p1 < 2 ^ (fmt.w - 1) then p1 ||| 2 ^ (fmt.w - 1) else 2 ^ fmt.w - 1 - p1

/-- `serialize_f32/f64`: the transformed pattern, written big-endian. -/
def serialize_f (fmt : FloatFmt) (s : SerState) (p : Nat) : SerState :=
  put_uN (fmt.w / 8) s (fmt.fenc p)

/-- `deserialize_f32/f64`: read `w/8` bytes; if the top bit is set clear it,
else complement the whole pattern. -/
def deserialize_f (fmt : FloatFmt) (s : DeState) : DeOut Nat :=
  (get_uN (fmt.w / 8) s).bind fun u s1 =>
    .ok (if u &&& 2 ^ (fmt.w - 1) ≠ 0 then u &&& (2 ^ (fmt.w - 1) - 1)
         else 2 ^ fmt.w - 1 - u) s1

/-- The real value of a finite pattern, as a rational: the standard IEEE-754
interpretation (subnormals for zero exponent field). -/
def FloatFmt.fVal (fmt : FloatFmt) (p : Nat) : ℚ :=
  (if 2 ^ (fmt.mb + fmt.eb) ≤ p then -1 else 1) *
    (if fmt.expF p = 0 then
      (fmt.manF p : ℚ) * (2 : ℚ) ^ ((1 : Int) - fmt.bias - fmt.mb)
    else
      ((2 : ℚ) ^ fmt.mb + fmt.manF p) * (2 : ℚ) ^ ((fmt.expF p : Int) - fmt.bias - fmt.mb))

/-- The magnitude a sign-cleared pattern denotes (the IEEE-754 value of the
pattern with the sign bit ignored, subnormal interpretation for a zero
exponent field): the key used to state monotonicity of the float
transform. -/
def FloatFmt.mag (fmt : FloatFmt) (u : Nat) : ℚ :=
  if u / 2 ^ fmt.mb = 0 then
    ((u % 2 ^ fmt.mb : Nat) : ℚ) * (2 : ℚ) ^ ((1 : Int) - fmt.bias - fmt.mb)
  else
    ((2 : ℚ) ^ fmt.mb + ((u % 2 ^ fmt.mb : Nat) : ℚ)) *
      (2 : ℚ) ^ (((u / 2 ^ fmt.mb : Nat) : Int) - fmt.bias - fmt.mb)

/-! ## Pure (flip = false) encoders, for stating order properties -/

/-- All entries are bytes. -/
def Bytes (l : List Nat) : Prop := ∀ b ∈ l, b < 256

instance : DecidablePred Bytes := by
  intro l
  unfold Bytes
  infer_instance

/-- The chunk groups of a nonempty byte string, as a pure list. -/
def encGroups (v : List Nat) : List Nat :=
  if v.length ≤ 8 then v ++ List.replicate (8 - v.length) 0 ++ [v.length]
  else v.take 8 ++ [9] ++ encGroups (v.drop 8)
termination_by v.length
decreasing_by
  simp only [List.length_drop]
  omega

/-- The byte-string encoding, as a pure list (flip off). -/
def encBytes (v : List Nat) : List Nat :=
  if v = [] then [0] else 1 :: encGroups v

/-! ## The field model for tuple ordering (claim C1)

A tuple is a list of fields; each field is one of the orderable leaf types:
fixed-width unsigned/signed integers (width in bytes), finite floats, or
byte strings (the `String` case is its UTF-8 bytes). -/

/-- One field of a tuple. -/
inductive Field where
  | uint (n : Nat) (v : Nat)
  | sint (n : Nat) (v : Int)
  | flt (fmt : FloatFmt) (p : Nat)
  | bytes (v : List Nat)
deriving Repr, DecidableEq

/-- Validity: the value inhabits its Rust type, and floats are finite
patterns of one of the two supported formats. -/
def Field.valid : Field → Prop
  | .uint n v => 1 ≤ n ∧ v < 2 ^ (8 * n)
  | .sint n v => 1 ≤ n ∧ -(2 ^ (8 * n - 1) : Int) ≤ v ∧ v < 2 ^ (8 * n - 1)
  | .flt fmt p => (fmt = f32fmt ∨ fmt = f64fmt) ∧ p < 2 ^ fmt.w ∧ fmt.isFiniteP p
  | .bytes v => Bytes v

/-- Two fields of the same static type. -/
def Field.sameShape : Field → Field → Prop
  | .uint n _, .uint n' _ => n = n'
  | .sint n _, .sint n' _ => n = n'
  | .flt fmt _, .flt fmt' _ => fmt = fmt'
  | .bytes _, .bytes _ => True
  | _, _ => False

/-- Rational comparison as an `Ordering`. -/
def cmpQ (a b : ℚ) : Ordering :=
  if a < b then .lt else if b < a then .gt else .eq

/-- Value comparison of two same-shaped fields: the Rust `Ord`/`PartialOrd`
of the underlying type (numeric for integers and finite floats,
lexicographic for byte strings). -/
def Field.cmp : Field → Field → Ordering
  | .uint _ a, .uint _ b => compare a b
  | .sint _ a, .sint _ b => compare a b
  | .flt fmt p, .flt _ q => cmpQ (fmt.fVal p) (fmt.fVal q)
  | .bytes a, .bytes b => lexCmp a b
  | _, _ => .eq

/-- Serialize one field (dispatch to the scalar serializers). -/
def serializeField (s : SerState) : Field → SerState
  | .uint n v => serialize_uN n s v
  | .sint n v => serialize_iN n s v
  | .flt fmt p => serialize_f fmt s p
  | .bytes v => serialize_bytes s v

/-- Serialize a tuple: its fields in order, no framing. -/
def serializeFields (s : SerState) (xs : List Field) : SerState :=
  xs.foldl serializeField s

/-- The encoding of one field from a fresh ascending serializer. -/
def encodeField (x : Field) : List Nat := (serializeField ⟨[], false⟩ x).output

/-- The encoding of a tuple from a fresh ascending serializer. -/
def encodeFields (xs : List Field) : List Nat := (serializeFields ⟨[], false⟩ xs).output

/-- Lexicographic (fieldwise) comparison of two tuples — the Rust tuple
`Ord`. -/
def fieldsCmp : List Field → List Field → Ordering
  | [], [] => .eq
  | [], _ :: _ => .lt
  | _ :: _, [] => .gt
  | x :: xs, y :: ys =>
    match Field.cmp x y with
    | .eq => fieldsCmp xs ys
    | o => o

/-! ## Spec-side definitions (only for stating refinement/correctness and
counterexamples; written from the specification's words, not the source) -/

/-- The §4.2 byte-string layout, written as the spec states it: empty `→`
`[0]`; otherwise `0x01` then `ceil(|v|/8)` nine-byte groups, each 8 payload
bytes zero-padded on the right plus one trailer, `9` on every non-final
group and the significant-byte count on the final one. -/
def specGroup (v : List Nat) (n i : Nat) : List Nat :=
  (v.drop (8 * i)).take 8 ++ List.replicate (8 - (v.drop (8 * i)).length) 0 ++
    [if i = n - 1 then v.length - 8 * i else 9]

/-- The full spec-side byte-string encoding. -/
def specEncodeBytes (v : List Nat) : List Nat :=
  if v = [] then [0]
  else 1 :: ((List.range ((v.length + 7) / 8)).map (specGroup v ((v.length + 7) / 8))).flatten

/-- The value of a normalized decimal, as a rational. -/
def decVal (m : Int) (sc : Nat) : ℚ := (m : ℚ) / 10 ^ sc

/-- The total order claim C3 asserts (spec §4.5 domain paragraph):
`NegInf < negatives < Zero < positives < Inf < NaN`, numeric within
`Normalized`. -/
def cmpDecimalClaimed : Decimal → Decimal → Ordering
  | .NaN, .NaN => .eq
  | .NaN, _ => .gt
  | _, .NaN => .lt
  | .NegInf, .NegInf => .eq
  | .NegInf, _ => .lt
  | _, .NegInf => .gt
  | .Inf, .Inf => .eq
  | .Inf, _ => .gt
  | _, .Inf => .lt
  | .Normalized m sc, .Normalized m' sc' => cmpQ (decVal m sc) (decVal m' sc')

/-- The order the encoding actually realizes: as claimed, except that NaN
is the least element rather than the greatest. -/
def cmpDecimal : Decimal → Decimal → Ordering
  | .NaN, .NaN => .eq
  | .NaN, _ => .lt
  | _, .NaN => .gt
  | .NegInf, .NegInf => .eq
  | .NegInf, _ => .lt
  | _, .NegInf => .gt
  | .Inf, .Inf => .eq
  | .Inf, _ => .gt
  | _, .Inf => .lt
  | .Normalized m sc, .Normalized m' sc' => cmpQ (decVal m sc) (decVal m' sc')

/-- The decimal encoding from a fresh ascending serializer. -/
def encodeDecimal (d : Decimal) : List Nat := (serialize_decimal ⟨[], false⟩ d).output

/-- Significand bytes of a big-endian base-100 digit list: continuation bit
set on every digit but the last (the closed form of `encSig` after the
`byte_array[0] -= 1` and the reversal). -/
def sigOfBE : List Nat → List Nat
  | [] => []
  | [d] => [2 * d]
  | d :: rest => (2 * d + 1) :: sigOfBE rest

/-- The value of a little-endian base-100 digit list. -/
def valD : List Nat → Nat
  | [] => 0
  | d :: rest => d + 100 * valD rest

/-- The base-100 fraction `0.d₁d₂…` denoted by a big-endian digit list. -/
def fracVal : List Nat → ℚ
  | [] => 0
  | d :: rest => ((d : ℚ) + fracVal rest) / 100

/-- The last entry of a digit list is nonzero (trivially true of `[]`). -/
def lastNZ : List Nat → Prop
  | [] => True
  | [d] => d ≠ 0
  | _ :: rest => lastNZ rest

/-- The header bytes `serialize_decimal` writes for a positive decimal of
base-100 exponent `e` (closed form for `e ∈ [-13, 15]`). -/
def decHeadPos (e : Int) : List Nat :=
  if 11 ≤ e then [0x22, e.toNat]
  else if 0 ≤ e then [0x17 + e.toNat]
  else [0x16, (255 + e).toNat]

/-- The header bytes for a negative decimal of base-100 exponent `e`. -/
def decHeadNeg (e : Int) : List Nat :=
  if 11 ≤ e then [0x8, (255 - e).toNat]
  else if 0 ≤ e then [0x13 - e.toNat]
  else [0x14, (-e).toNat]

/-- `a` is an initial segment of `b`. -/
def initSeg (a b : List Nat) : Prop := ∃ c, a ++ c = b

/-! # Lemmas and theorems -/

/-! ## `lexCmp` and `toBE` basics -/

theorem compare_self_nat (x : Nat) : compare x x = Ordering.eq :=
  Nat.compare_eq_eq.mpr rfl

theorem lexCmp_self (a : List Nat) : lexCmp a a = .eq := by
  induction a with
  | nil => rfl
  | cons x xs ih => simp [lexCmp, compare_self_nat, ih]

theorem lexCmp_eq_iff {a b : List Nat} : lexCmp a b = .eq ↔ a = b := by
  induction a generalizing b with
  | nil => cases b <;> simp [lexCmp]
  | cons x xs ih =>
    cases b with
    | nil => simp [lexCmp]
    | cons y ys =>
      simp only [lexCmp]
      rcases Nat.lt_trichotomy x y with h | h | h
      · simp [Nat.compare_eq_lt.mpr h]
        omega
      · subst h
        simp [compare_self_nat, ih]
      · simp [Nat.compare_eq_gt.mpr h]
        omega

theorem lexCmp_swap (a b : List Nat) : lexCmp b a = (lexCmp a b).swap := by
  induction a generalizing b with
  | nil => cases b <;> rfl
  | cons x xs ih =>
    cases b with
    | nil => rfl
    | cons y ys =>
      simp only [lexCmp]
      rcases Nat.lt_trichotomy x y with h | h | h
      · simp [Nat.compare_eq_lt.mpr h, Nat.compare_eq_gt.mpr h, Ordering.swap]
      · subst h
        simp [compare_self_nat, ih]
      · simp [Nat.compare_eq_lt.mpr h, Nat.compare_eq_gt.mpr h, Ordering.swap]

theorem lexCmp_append_same {a b : List Nat} (p : List Nat) :
    lexCmp (p ++ a) (p ++ b) = lexCmp a b := by
  induction p with
  | nil => rfl
  | cons x xs ih => simp [lexCmp, compare_self_nat, ih]

theorem lexCmp_append_of_lt {a b : List Nat} (h : lexCmp a b = .lt)
    (hc : ¬ initSeg a b) (c d : List Nat) : lexCmp (a ++ c) (b ++ d) = .lt := by
  induction a generalizing b with
  | nil => exact absurd ⟨b, rfl⟩ hc
  | cons x xs ih =>
    cases b with
    | nil => simp [lexCmp] at h
    | cons y ys =>
      simp only [lexCmp] at h ⊢
      rcases Nat.lt_trichotomy x y with hxy | hxy | hxy
      · simp [Nat.compare_eq_lt.mpr hxy]
      · subst hxy
        simp only [compare_self_nat] at h ⊢
        refine ih h ?_
        rintro ⟨e, he⟩
        exact hc ⟨e, by simp [he]⟩
      · simp [Nat.compare_eq_gt.mpr hxy] at h

theorem lexCmp_append_of_gt {a b : List Nat} (h : lexCmp a b = .gt)
    (hc : ¬ initSeg b a) (c d : List Nat) : lexCmp (a ++ c) (b ++ d) = .gt := by
  have h1 : lexCmp b a = .lt := by
    rw [lexCmp_swap] at h
    cases hba : lexCmp b a <;> simp [hba, Ordering.swap] at h ⊢
  have := lexCmp_append_of_lt h1 hc d c
  rw [lexCmp_swap, this]
  rfl

/-- Initial segments of equal-length lists are equal. -/
theorem initSeg_of_length_eq {a b : List Nat} (hl : a.length = b.length)
    (h : initSeg a b) : a = b := by
  obtain ⟨c, hc⟩ := h
  have : c.length = 0 := by
    have := congrArg List.length hc
    simp at this
    omega
  have hc0 : c = [] := List.eq_nil_of_length_eq_zero this
  simpa [hc0] using hc

theorem toBE_length (n v : Nat) : (toBE n v).length = n := by
  induction n generalizing v with
  | zero => rfl
  | succ m ih => simp [toBE, ih]

theorem toBE_bytes (n v : Nat) : ∀ b ∈ toBE n v, b < 256 := by
  induction n generalizing v with
  | zero => simp [toBE]
  | succ m ih =>
    intro b hb
    simp only [toBE, List.mem_cons] at hb
    rcases hb with h | h
    · omega
    · exact ih _ b h

theorem toBE_bytes_lt (n v : Nat) : ∀ b ∈ toBE n v, b < 256 := toBE_bytes n v

theorem fromBE_toBE {n v : Nat} (h : v < 256 ^ n) : fromBE (toBE n v) = v := by
  induction n generalizing v with
  | zero =>
    simp [toBE, fromBE]
    omega
  | succ m ih =>
    have hm : v % 256 ^ m < 256 ^ m := Nat.mod_lt _ (Nat.pos_pow_of_pos m (by omega))
    simp only [toBE, fromBE, toBE_length, ih hm]
    have := Nat.div_add_mod v (256 ^ m)
    have hdiv : v / 256 ^ m < 256 := by
      rw [Nat.div_lt_iff_lt_mul (Nat.pos_pow_of_pos m (by omega))]
      rw [Nat.pow_succ] at h
      omega
    rw [Nat.mod_eq_of_lt hdiv]
    exact Nat.div_add_mod' v (256 ^ m)

theorem lexCmp_toBE {n x y : Nat} (hx : x < 256 ^ n) (hy : y < 256 ^ n) :
    lexCmp (toBE n x) (toBE n y) = compare x y := by
  induction n generalizing x y with
  | zero =>
    have : x = 0 := by omega
    have : y = 0 := by omega
    subst_vars
    rfl
  | succ m ih =>
    have hpos : 0 < 256 ^ m := Nat.pos_pow_of_pos m (by omega)
    have hxm : x % 256 ^ m < 256 ^ m := Nat.mod_lt _ hpos
    have hym : y % 256 ^ m < 256 ^ m := Nat.mod_lt _ hpos
    have hxs := Nat.div_add_mod x (256 ^ m)
    have hys := Nat.div_add_mod y (256 ^ m)
    simp only [toBE, lexCmp]
    have hxd : x / 256 ^ m < 256 := by
      rw [Nat.div_lt_iff_lt_mul hpos]
      rw [Nat.pow_succ] at hx
      omega
    have hyd : y / 256 ^ m < 256 := by
      rw [Nat.div_lt_iff_lt_mul hpos]
      rw [Nat.pow_succ] at hy
      omega
    rw [Nat.mod_eq_of_lt hxd, Nat.mod_eq_of_lt hyd]
    rcases Nat.lt_trichotomy (x / 256 ^ m) (y / 256 ^ m) with h | h | h
    · rw [Nat.compare_eq_lt.mpr h, Nat.compare_eq_lt.mpr (Nat.lt_of_div_lt_div h)]
    · rw [h, compare_self_nat, ih hxm hym]
      rw [h] at hxs
      have : compare x y = compare (x % 256 ^ m) (y % 256 ^ m) := by
        rcases Nat.lt_trichotomy (x % 256 ^ m) (y % 256 ^ m) with hc | hc | hc
        · have : x < y := by omega
          rw [Nat.compare_eq_lt.mpr this, Nat.compare_eq_lt.mpr hc]
        · have : x = y := by omega
          rw [this, compare_self_nat, compare_self_nat]
        · have : y < x := by omega
          rw [Nat.compare_eq_gt.mpr this, Nat.compare_eq_gt.mpr hc]
      rw [this]
    · rw [Nat.compare_eq_gt.mpr h, Nat.compare_eq_gt.mpr (Nat.lt_of_div_lt_div h)]

/-! ## Bridging the stateful serializer to pure byte lists (flip = false) -/

theorem bytes_map_mod {v : List Nat} (hB : Bytes v) :
    v.map (flipByte false) = v := by
  conv_rhs => rw [← List.map_id v]
  refine List.map_congr_left fun b hb => ?_
  simp only [flipByte, if_false, Bool.false_eq_true, id]
  exact Nat.mod_eq_of_lt (hB b hb)

theorem put_u8_false (out : List Nat) (v : Nat) :
    put_u8 ⟨out, false⟩ v = ⟨out ++ [v % 256], false⟩ := rfl

theorem serialize_bytes_chunks_false :
    ∀ (k : Nat) (v out : List Nat), v.length ≤ k → Bytes v →
      serialize_bytes_chunks ⟨out, false⟩ v = ⟨out ++ encGroups v, false⟩ := by
  intro k
  induction k with
  | zero =>
    intro v out hk hB
    have hv : v = [] := List.eq_nil_of_length_eq_zero (by omega)
    subst hv
    rw [serialize_bytes_chunks, encGroups]
    simp [put_u8, put_bytes, put_slice, flipByte]
  | succ k ih =>
    intro v out hk hB
    rw [serialize_bytes_chunks, encGroups]
    by_cases h : v.length ≤ 8
    · simp only [h, if_true, dif_pos]
      simp only [put_u8, put_bytes, put_slice]
      rw [bytes_map_mod hB]
      simp only [flipByte, if_false, Bool.false_eq_true]
      rw [Nat.mod_eq_of_lt (show v.length < 256 by omega)]
      simp
    · simp only [h, if_false, dif_neg, not_false_iff]
      have hB8 : Bytes (v.take 8) := fun b hb => hB b (List.mem_of_mem_take hb)
      have hBd : Bytes (v.drop 8) := fun b hb => hB b (List.mem_of_mem_drop hb)
      have hstate : put_u8 (put_slice ⟨out, false⟩ (v.take 8)) 9 =
          ⟨out ++ v.take 8 ++ [9], false⟩ := by
        simp only [put_u8, put_slice]
        rw [bytes_map_mod hB8]
        simp [flipByte]
      rw [hstate, ih (v.drop 8) _ (by simp [List.length_drop]; omega) hBd]
      simp

theorem serialize_bytes_false {v : List Nat} (out : List Nat) (hB : Bytes v) :
    serialize_bytes ⟨out, false⟩ v = ⟨out ++ encBytes v, false⟩ := by
  rw [serialize_bytes, encBytes]
  by_cases h : v = []
  · subst h
    simp [put_u8, flipByte]
  · rw [if_neg (by simpa using h), if_neg h]
    rw [show put_u8 ⟨out, false⟩ 1 = ⟨out ++ [1], false⟩ from rfl]
    rw [serialize_bytes_chunks_false v.length v (out ++ [1]) le_rfl hB]
    simp

/-! ## Claim C4: the byte-string layout -/

theorem specGroup_shift {v : List Nat} {m : Nat} (i : Nat) (hm : 1 ≤ m)
    (_hv : 8 < v.length) :
    specGroup v (m + 1) (i + 1) = specGroup (v.drop 8) m i := by
  have h1 : v.drop (8 * (i + 1)) = (v.drop 8).drop (8 * i) := by
    rw [List.drop_drop]
    congr 1
    omega
  have h2 : (if i + 1 = m + 1 - 1 then v.length - 8 * (i + 1) else 9) =
      (if i = m - 1 then (v.drop 8).length - 8 * i else 9) := by
    by_cases hc : i + 1 = m
    · rw [if_pos (by omega), if_pos (by omega)]
      simp only [List.length_drop]
      omega
    · rw [if_neg (by omega), if_neg (by omega)]
  simp only [specGroup, h1, h2]

theorem encGroups_eq_spec :
    ∀ (k : Nat) (v : List Nat), v.length ≤ k → v ≠ [] →
      encGroups v =
        ((List.range ((v.length + 7) / 8)).map
          (specGroup v ((v.length + 7) / 8))).flatten := by
  intro k
  induction k with
  | zero =>
    intro v hk hne
    exact absurd (List.eq_nil_of_length_eq_zero (by omega)) hne
  | succ k ih =>
    intro v hk hne
    have hlen : 1 ≤ v.length := by
      cases v with
      | nil => exact absurd rfl hne
      | cons a l => simp
    rw [encGroups]
    by_cases h : v.length ≤ 8
    · have hn : (v.length + 7) / 8 = 1 := by omega
      rw [if_pos h, hn]
      show _ = (List.map (specGroup v 1) [0]).flatten
      simp only [List.map_cons, List.map_nil, List.flatten_cons, List.flatten_nil,
        List.append_nil]
      simp only [specGroup, Nat.mul_zero, List.drop_zero, Nat.sub_zero, if_pos rfl]
      rw [List.take_of_length_le h]
      simp
    · have hm : 1 ≤ (v.drop 8).length := by
        simp only [List.length_drop]
        omega
      obtain ⟨m, hmeq⟩ : ∃ m, (v.length + 7) / 8 = m + 1 := ⟨(v.length + 7) / 8 - 1, by omega⟩
      have hm1 : 1 ≤ m := by omega
      have hmd : ((v.drop 8).length + 7) / 8 = m := by
        simp only [List.length_drop]
        omega
      rw [if_neg h, hmeq, List.range_succ_eq_map]
      simp only [List.map_cons, List.flatten_cons, List.map_map]
      have hg0 : specGroup v (m + 1) 0 = v.take 8 ++ [9] := by
        simp only [specGroup, Nat.mul_zero, List.drop_zero]
        rw [if_neg (by omega)]
        rw [show 8 - v.length = 0 by omega]
        simp
      have hgs : List.map (specGroup v (m + 1) ∘ Nat.succ) (List.range m) =
          List.map (specGroup (v.drop 8) m) (List.range m) := by
        refine List.map_congr_left fun i _ => ?_
        show specGroup v (m + 1) (i + 1) = specGroup (v.drop 8) m i
        exact specGroup_shift i hm1 (by omega)
      have hdne : v.drop 8 ≠ [] := by
        intro hx
        rw [hx] at hm
        simp at hm
      have hdk : (v.drop 8).length ≤ k := by
        simp only [List.length_drop]
        omega
      rw [hg0, hgs, ← hmd, ← ih (v.drop 8) hdk hdne]

/-- **C4.**  For every byte string `v`: the empty string encodes as the
single byte `0x00`; a nonempty string encodes as the prefix byte `0x01`
followed by `⌈|v|/8⌉` nine-byte groups of 8 right-zero-padded payload bytes
plus a trailer — `9` on every non-final group, the significant-byte count
(1..8) on the final one; in particular `encode("123")` is
`[1, b1, b2, b3, 0, 0, 0, 0, 0, 3]`. -/
theorem C4_serialize_bytes_layout (v : List Nat) (hB : Bytes v) :
    (serialize_bytes ⟨[], false⟩ v).output = specEncodeBytes v ∧
    (serialize_bytes ⟨[], false⟩ [49, 50, 51]).output =
      [1, 49, 50, 51, 0, 0, 0, 0, 0, 3] := by
  have hgen : ∀ w : List Nat, Bytes w →
      (serialize_bytes ⟨[], false⟩ w).output = specEncodeBytes w := by
    intro w hw
    rw [serialize_bytes_false [] hw]
    show encBytes w = specEncodeBytes w
    rw [encBytes, specEncodeBytes]
    by_cases h : w = []
    · rw [if_pos h, if_pos h]
    · rw [if_neg h, if_neg h, encGroups_eq_spec w.length w le_rfl h]
  refine ⟨hgen v hB, ?_⟩
  rw [hgen [49, 50, 51] (by decide)]
  decide

/-- Witness for C4 at the concrete string `"123"`. -/
theorem C4_witness :
    Bytes [49, 50, 51] ∧
    ((serialize_bytes ⟨[], false⟩ [49, 50, 51]).output = specEncodeBytes [49, 50, 51] ∧
     (serialize_bytes ⟨[], false⟩ [49, 50, 51]).output =
       [1, 49, 50, 51, 0, 0, 0, 0, 0, 3]) :=
  ⟨by decide, C4_serialize_bytes_layout [49, 50, 51] (by decide)⟩

/-! ## Bit-level facts: xor / or with a single high bit -/

theorem xor_even_mod_two {x b : Nat} (hb : b % 2 = 0) : (x ^^^ b) % 2 = x % 2 := by
  rcases Nat.mod_two_eq_zero_or_one x with hx | hx
  · have hne : ¬ (x ^^^ b) % 2 = 1 := by
      rw [Nat.xor_mod_two_eq_one]
      intro hcon
      exact hcon (by omega)
    omega
  · have : (x ^^^ b) % 2 = 1 := by
      rw [Nat.xor_mod_two_eq_one]
      omega
    omega

theorem lor_even_mod_two {x b : Nat} (hb : b % 2 = 0) : (x ||| b) % 2 = x % 2 := by
  rcases Nat.mod_two_eq_zero_or_one x with hx | hx
  · have hne : ¬ (x ||| b) % 2 = 1 := by
      rw [Nat.or_mod_two_eq_one]
      omega
    omega
  · have : (x ||| b) % 2 = 1 := by
      rw [Nat.or_mod_two_eq_one]
      omega
    omega

theorem xor_two_pow_add {k x : Nat} (h : x < 2 ^ k) : x ^^^ 2 ^ k = x + 2 ^ k := by
  induction k generalizing x with
  | zero =>
    have : x = 0 := by omega
    subst this
    decide
  | succ k ih =>
    have hps : (2 : Nat) ^ (k + 1) = 2 ^ k * 2 := pow_succ 2 k
    have hx2 : x / 2 < 2 ^ k := by omega
    have h1 : (x ^^^ 2 ^ (k + 1)) / 2 = x / 2 ^^^ 2 ^ k := by
      rw [Nat.xor_div_two]
      congr 1
      omega
    have h3 : (x ^^^ 2 ^ (k + 1)) % 2 = x % 2 := xor_even_mod_two (by omega)
    have hdm := Nat.div_add_mod (x ^^^ 2 ^ (k + 1)) 2
    rw [h1, ih hx2, h3] at hdm
    omega

theorem xor_two_pow_sub {k x : Nat} (h1 : 2 ^ k ≤ x) (h2 : x < 2 ^ (k + 1)) :
    x ^^^ 2 ^ k = x - 2 ^ k := by
  have hlow : x - 2 ^ k < 2 ^ k := by
    have := pow_succ 2 k
    omega
  have := xor_two_pow_add hlow
  have hx : x - 2 ^ k + 2 ^ k = x := by omega
  rw [hx] at this
  calc x ^^^ 2 ^ k = (x - 2 ^ k ^^^ 2 ^ k) ^^^ 2 ^ k := by rw [this]
  _ = x - 2 ^ k ^^^ (2 ^ k ^^^ 2 ^ k) := Nat.xor_assoc _ _ _
  _ = x - 2 ^ k := by rw [Nat.xor_self, Nat.xor_zero]

theorem lor_two_pow_add {k x : Nat} (h : x < 2 ^ k) : x ||| 2 ^ k = x + 2 ^ k := by
  induction k generalizing x with
  | zero =>
    have : x = 0 := by omega
    subst this
    decide
  | succ k ih =>
    have hps : (2 : Nat) ^ (k + 1) = 2 ^ k * 2 := pow_succ 2 k
    have hx2 : x / 2 < 2 ^ k := by omega
    have h1 : (x ||| 2 ^ (k + 1)) / 2 = x / 2 ||| 2 ^ k := by
      rw [Nat.or_div_two]
      congr 1
      omega
    have h3 : (x ||| 2 ^ (k + 1)) % 2 = x % 2 := lor_even_mod_two (by omega)
    have hdm := Nat.div_add_mod (x ||| 2 ^ (k + 1)) 2
    rw [h1, ih hx2, h3] at hdm
    omega

/-! ## Round-trip lemmas for the scalar codec (claim C2) -/

theorem pow256_eq (n : Nat) : (256 : Nat) ^ n = 2 ^ (8 * n) := by
  rw [show (256 : Nat) = 2 ^ 8 from rfl, ← pow_mul]

theorem get_put_uN {n : Nat} (f : Bool) {v : Nat} (hv : v < 256 ^ n) (rest : List Nat) :
    get_uN n ⟨(put_uN n ⟨[], f⟩ v).output ++ rest, f⟩ = .ok v ⟨rest, f⟩ := by
  have hmod : v % 256 ^ n = v := Nat.mod_eq_of_lt hv
  have hVlt : (if f then 256 ^ n - 1 - v % 256 ^ n else v % 256 ^ n) < 256 ^ n := by
    have : 0 < (256 : Nat) ^ n := Nat.pos_pow_of_pos n (by omega)
    cases f <;> simp <;> omega
  simp only [put_uN, get_uN, List.nil_append]
  rw [List.take_append_of_le_length (by rw [toBE_length]),
    List.take_of_length_le (by rw [toBE_length]),
    List.drop_append_of_le_length (by rw [toBE_length]),
    List.drop_of_length_le (by rw [toBE_length])]
  rw [if_pos (by rw [List.length_append, toBE_length]; omega)]
  rw [fromBE_toBE hVlt]
  cases f
  · simp only [if_false, Bool.false_eq_true, hmod]
    rw [List.nil_append]
  · simp only [if_true]
    rw [hmod]
    have : 256 ^ n - 1 - (256 ^ n - 1 - v) = v := by omega
    rw [this, List.nil_append]

theorem roundtrip_uN {n v : Nat} (hv : v < 2 ^ (8 * n)) (rest : List Nat) :
    deserialize_uN n ⟨(serialize_uN n ⟨[], false⟩ v).output ++ rest, false⟩ =
      .ok v ⟨rest, false⟩ := by
  rw [deserialize_uN, serialize_uN]
  exact get_put_uN false (by rw [pow256_eq]; exact hv) rest

theorem roundtrip_bool (b : Bool) (rest : List Nat) :
    deserialize_bool ⟨(serialize_bool ⟨[], false⟩ b).output ++ rest, false⟩ =
      .ok b ⟨rest, false⟩ := by
  cases b <;>
    simp [serialize_bool, serialize_u8, put_u8, deserialize_bool, get_u8, flipByte,
      DeOut.bind]

theorem roundtrip_iN {n : Nat} (hn : 1 ≤ n) {v : Int}
    (hlo : -(2 ^ (8 * n - 1) : Int) ≤ v) (hhi : v < 2 ^ (8 * n - 1)) (rest : List Nat) :
    deserialize_iN n ⟨(serialize_iN n ⟨[], false⟩ v).output ++ rest, false⟩ =
      .ok v ⟨rest, false⟩ := by
  have hsplit : 8 * n = (8 * n - 1) + 1 := by omega
  have hpow : (2 : Int) ^ (8 * n) = 2 ^ (8 * n - 1) * 2 := by
    have := pow_succ (2 : Int) (8 * n - 1)
    rw [← hsplit] at this
    exact this
  have hpowN : (2 : Nat) ^ (8 * n) = 2 ^ (8 * n - 1) * 2 := by
    have := pow_succ (2 : Nat) (8 * n - 1)
    rw [← hsplit] at this
    exact this
  have hcast : ((2 ^ (8 * n - 1) : Nat) : Int) = (2 : Int) ^ (8 * n - 1) := by
    push_cast
    rfl
  -- the two's-complement pattern
  have hemod : v.emod (2 ^ (8 * n)) = if 0 ≤ v then v else v + 2 ^ (8 * n) := by
    by_cases h0 : 0 ≤ v
    · rw [if_pos h0]
      exact Int.emod_eq_of_lt h0 (by omega)
    · rw [if_neg h0]
      have h1 : (v + 2 ^ (8 * n)).emod (2 ^ (8 * n)) = v.emod (2 ^ (8 * n)) := by
        have h2 := Int.add_mul_emod_self_left v ((2 : Int) ^ (8 * n)) 1
        rw [mul_one] at h2
        exact h2
      rw [← h1]
      exact Int.emod_eq_of_lt (by omega) (by omega)
  set pat := (v.emod (2 ^ (8 * n))).toNat with hpat
  have hpatlt : pat < 2 ^ (8 * n) := by
    rw [hpat, hemod]
    by_cases h0 : 0 ≤ v
    · rw [if_pos h0]
      omega
    · rw [if_neg h0]
      omega
  have hu : pat ^^^ 2 ^ (8 * n - 1) < 2 ^ (8 * n) :=
    Nat.xor_lt_two_pow hpatlt (by rw [hpowN]; nlinarith [Nat.pos_pow_of_pos (8 * n - 1) (show 0 < 2 by omega)])
  rw [deserialize_iN, serialize_iN, serialize_uN]
  rw [show (put_uN n ⟨[], false⟩ (pat ^^^ 2 ^ (8 * n - 1))).output ++ rest =
    (put_uN n ⟨[], false⟩ (pat ^^^ 2 ^ (8 * n - 1))).output ++ rest from rfl]
  rw [get_put_uN false (by rw [pow256_eq]; exact hu) rest]
  rw [DeOut.bind]
  congr 1
  rw [Nat.xor_assoc, Nat.xor_self, Nat.xor_zero]
  -- `asIntN n pat = v`
  rw [asIntN]
  by_cases h0 : 0 ≤ v
  · have hpv : pat = v.toNat := by
      rw [hpat, hemod, if_pos h0]
    rw [if_pos (by omega)]
    omega
  · have hpv : (pat : Int) = v + 2 ^ (8 * n) := by
      rw [hpat, hemod, if_neg h0]
      omega
    rw [if_neg (by omega)]
    omega

theorem roundtrip_char {v : Nat} (hv : v < 0xD800 ∨ (0xE000 ≤ v ∧ v < 0x110000))
    (rest : List Nat) :
    deserialize_char ⟨(serialize_char ⟨[], false⟩ v).output ++ rest, false⟩ =
      .ok v ⟨rest, false⟩ := by
  rw [deserialize_char, serialize_char, serialize_uN]
  rw [get_put_uN false (show v < 256 ^ 4 by norm_num; omega) rest]
  rw [DeOut.bind, if_pos hv]

theorem getD_snoc (A : List Nat) (t d : Nat) : (A ++ [t]).getD A.length d = t := by
  induction A with
  | nil => rfl
  | cons a l ih => simpa using ih

theorem getD_snoc_idx {A : List Nat} {t d n : Nat} (h : A.length = n) :
    (A ++ [t]).getD n d = t := by
  subst h
  exact getD_snoc A t d

theorem encGroups_bytes {v : List Nat} (hB : Bytes v) : Bytes (encGroups v) := by
  have : ∀ (k : Nat) (w : List Nat), w.length ≤ k → Bytes w → Bytes (encGroups w) := by
    intro k
    induction k with
    | zero =>
      intro w hk hBw
      have hw : w = [] := List.eq_nil_of_length_eq_zero (by omega)
      subst hw
      rw [encGroups]
      intro b hb
      simp at hb
      omega
    | succ k ih =>
      intro w hk hBw
      rw [encGroups]
      by_cases h : w.length ≤ 8
      · intro b hb
        simp only [if_pos h, List.mem_append, List.mem_replicate, List.mem_cons] at hb
        rcases hb with (hb | hb) | hb
        · exact hBw b (by exact hb)
        · omega
        · simp at hb
          omega
      · intro b hb
        simp only [if_neg h, List.mem_append, List.mem_cons] at hb
        rcases hb with (hb | hb) | hb
        · exact hBw b (List.mem_of_mem_take hb)
        · simp at hb
          omega
        · exact ih (w.drop 8)
            (by simp only [List.length_drop]; omega)
            (fun c hc => hBw c (List.mem_of_mem_drop hc)) b hb
  exact this v.length v le_rfl hB

theorem read_bytes_loop_enc :
    ∀ (k : Nat) (v acc rest : List Nat), v.length ≤ k → Bytes v → v ≠ [] →
      read_bytes_loop ⟨encGroups v ++ rest, false⟩ acc = .ok (acc ++ v) ⟨rest, false⟩ := by
  intro k
  induction k with
  | zero =>
    intro v acc rest hk hB hne
    exact absurd (List.eq_nil_of_length_eq_zero (by omega)) hne
  | succ k ih =>
    intro v acc rest hk hB hne
    have hlen : 1 ≤ v.length := by
      cases v with
      | nil => exact absurd rfl hne
      | cons a l => simp
    rw [read_bytes_loop]
    by_cases h : v.length ≤ 8
    · -- final group
      have hG : encGroups v = v ++ List.replicate (8 - v.length) 0 ++ [v.length] := by
        rw [encGroups, if_pos h]
      have hGlen : (encGroups v).length = 9 := by
        rw [hG]
        simp
        omega
      have hBG : Bytes (encGroups v) := encGroups_bytes hB
      have htake : (encGroups v ++ rest).take 9 = encGroups v := by
        rw [List.take_append_of_le_length (by omega), List.take_of_length_le (by omega)]
      have hdrop : (encGroups v ++ rest).drop 9 = rest := by
        rw [List.drop_append_of_le_length (by omega), List.drop_of_length_le (by omega)]
        simp
      have hgetD : (encGroups v).getD 8 0 = v.length := by
        rw [hG]
        exact getD_snoc_idx (by simp; omega)
      have htakeLen : (encGroups v).take v.length = v := by
        rw [hG, List.append_assoc, List.take_append_of_le_length (by omega),
          List.take_of_length_le le_rfl]
      rw [dif_pos (by simp [hGlen])]
      simp only [htake, hdrop, bytes_map_mod hBG, hgetD]
      rw [if_pos (by omega), htakeLen]
    · -- intermediate group
      have hG : encGroups v = v.take 8 ++ [9] ++ encGroups (v.drop 8) := by
        rw [encGroups, if_neg h]
      have h8 : (v.take 8).length = 8 := by
        simp
        omega
      have hB8 : Bytes (v.take 8 ++ [9]) := by
        intro b hb
        simp only [List.mem_append, List.mem_cons] at hb
        rcases hb with hb | hb
        · exact hB b (List.mem_of_mem_take hb)
        · simp at hb
          omega
      have htake : ((v.take 8 ++ [9] ++ encGroups (v.drop 8)) ++ rest).take 9 =
          v.take 8 ++ [9] := by
        rw [List.append_assoc, List.take_append_of_le_length (by simp <;> omega),
          List.take_of_length_le (by simp <;> omega)]
      have hdrop : ((v.take 8 ++ [9] ++ encGroups (v.drop 8)) ++ rest).drop 9 =
          encGroups (v.drop 8) ++ rest := by
        rw [List.append_assoc, List.drop_append_of_le_length (by simp <;> omega),
          List.drop_of_length_le (by simp <;> omega)]
        simp
      have hgetD : (v.take 8 ++ [9] : List Nat).getD 8 0 = 9 :=
        getD_snoc_idx h8
      have htake8 : (v.take 8 ++ [9] : List Nat).take 8 = v.take 8 := by
        rw [List.take_append_of_le_length (by omega), List.take_of_length_le (by omega)]
      have hdne : v.drop 8 ≠ [] := by
        intro hx
        have := congrArg List.length hx
        simp at this
        omega
      rw [hG]
      rw [dif_pos (by simp; omega)]
      simp only [htake, hdrop, bytes_map_mod hB8, hgetD]
      rw [if_neg (by omega), if_pos trivial, htake8]
      rw [ih (v.drop 8) (acc ++ v.take 8) rest
        (by simp only [List.length_drop]; omega)
        (fun c hc => hB c (List.mem_of_mem_drop hc)) hdne]
      simp

theorem roundtrip_bytes {v : List Nat} (hB : Bytes v) (rest : List Nat) :
    read_bytes ⟨(serialize_bytes ⟨[], false⟩ v).output ++ rest, false⟩ =
      .ok v ⟨rest, false⟩ := by
  rw [serialize_bytes_false [] hB]
  show read_bytes ⟨encBytes v ++ rest, false⟩ = _
  rw [encBytes]
  by_cases h : v = []
  · subst h
    simp [read_bytes, get_u8, flipByte, DeOut.bind]
  · rw [if_neg h]
    show read_bytes ⟨1 :: (encGroups v ++ rest), false⟩ = _
    rw [read_bytes]
    show DeOut.bind (.ok (flipByte false 1) ⟨encGroups v ++ rest, false⟩) _ = _
    rw [DeOut.bind]
    show read_bytes_loop ⟨encGroups v ++ rest, false⟩ [] = _
    rw [read_bytes_loop_enc v.length v [] rest le_rfl hB h]
    simp

theorem and_two_pow_eq_zero_iff {u k : Nat} (hu : u < 2 ^ (k + 1)) :
    u &&& 2 ^ k = 0 ↔ u < 2 ^ k := by
  rw [Nat.and_two_pow, Nat.testBit_to_div_mod]
  have hps : (2 : Nat) ^ (k + 1) = 2 ^ k * 2 := pow_succ 2 k
  have hk0 : 0 < (2 : Nat) ^ k := Nat.pos_pow_of_pos k (by omega)
  by_cases h : u < 2 ^ k
  · rw [Nat.div_eq_of_lt h]
    simp [h]
  · have hd : u / 2 ^ k = 1 :=
      Nat.div_eq_of_lt_le (by omega) (by omega)
    rw [hd]
    simp [h]

theorem roundtrip_f (fmt : FloatFmt) (hfmt : fmt = f32fmt ∨ fmt = f64fmt) {p : Nat}
    (hp : p < 2 ^ fmt.w) (rest : List Nat) :
    deserialize_f fmt ⟨(serialize_f fmt ⟨[], false⟩ p).output ++ rest, false⟩ =
      .ok (fmt.normalize p) ⟨rest, false⟩ := by
  have hw8 : 8 * (fmt.w / 8) = fmt.w := by
    rcases hfmt with h | h <;> subst h <;> rfl
  have hw1 : 1 ≤ fmt.w := by
    rcases hfmt with h | h <;> subst h <;> decide
  have hsplit : fmt.w = (fmt.w - 1) + 1 := by omega
  have hhalf : (2 : Nat) ^ fmt.w = 2 ^ (fmt.w - 1) * 2 := by
    have := pow_succ (2 : Nat) (fmt.w - 1)
    rw [← hsplit] at this
    exact this
  have hnanlt : fmt.nanPat < 2 ^ (fmt.w - 1) := by
    rcases hfmt with h | h <;> subst h <;> decide
  have hp1 : fmt.normalize p < 2 ^ fmt.w := by
    rw [FloatFmt.normalize]
    split
    · omega
    · split
      · omega
      · exact hp
  set p1 := fmt.normalize p with hp1def
  have henc : fmt.fenc p =
      if p1 < 2 ^ (fmt.w - 1) then p1 + 2 ^ (fmt.w - 1) else 2 ^ fmt.w - 1 - p1 := by
    simp only [FloatFmt.fenc, ← hp1def]
    by_cases hc : p1 < 2 ^ (fmt.w - 1)
    · rw [if_pos hc, if_pos hc, lor_two_pow_add hc]
    · rw [if_neg hc, if_neg hc]
  have hpow256 : (256 : Nat) ^ (fmt.w / 8) = 2 ^ fmt.w := by
    rw [pow256_eq, hw8]
  rw [serialize_f, deserialize_f, henc]
  by_cases hc : p1 < 2 ^ (fmt.w - 1)
  · rw [if_pos hc]
    rw [get_put_uN false (by rw [hpow256]; omega) rest, DeOut.bind]
    have hnz : ¬ (p1 + 2 ^ (fmt.w - 1)) &&& 2 ^ (fmt.w - 1) = 0 := by
      rw [and_two_pow_eq_zero_iff (by rw [← hsplit]; omega)]
      omega
    rw [if_pos hnz]
    congr 1
    rw [Nat.and_pow_two_sub_one_eq_mod, Nat.add_mod_right, Nat.mod_eq_of_lt hc]
  · rw [if_neg hc]
    rw [get_put_uN false (by rw [hpow256]; omega) rest, DeOut.bind]
    have hz : (2 ^ fmt.w - 1 - p1) &&& 2 ^ (fmt.w - 1) = 0 := by
      rw [and_two_pow_eq_zero_iff (by rw [← hsplit]; omega)]
      omega
    rw [if_neg (by rw [hz]; simp)]
    congr 1
    omega

theorem normalize_eq_of_not_nan_zero {fmt : FloatFmt} {p : Nat} (h1 : ¬ fmt.isNanP p)
    (h2 : ¬ fmt.isZeroP p ∨ p = 0) : fmt.normalize p = p := by
  rw [FloatFmt.normalize, if_neg h1]
  rcases h2 with h2 | h2
  · rw [if_neg h2]
  · subst h2
    split <;> rfl

/-- **C2.**  For every scalar value — `bool`, `u8..u128`, `i8..i128`,
`char`, `String`/byte strings, `f32`/`f64` — decoding the encoding (both at
the initial flip = false) yields the value back; for floats, up to the
encoder's normalisation of signed zero to `+0.0` and of NaN to the
canonical NaN (and the normalisation changes nothing else). -/
theorem C2_roundtrip :
    (∀ (b : Bool) (rest : List Nat),
      deserialize_bool ⟨(serialize_bool ⟨[], false⟩ b).output ++ rest, false⟩ =
        .ok b ⟨rest, false⟩) ∧
    (∀ (n v : Nat) (rest : List Nat), v < 2 ^ (8 * n) →
      deserialize_uN n ⟨(serialize_uN n ⟨[], false⟩ v).output ++ rest, false⟩ =
        .ok v ⟨rest, false⟩) ∧
    (∀ (n : Nat) (v : Int) (rest : List Nat), 1 ≤ n →
      -(2 ^ (8 * n - 1) : Int) ≤ v → v < 2 ^ (8 * n - 1) →
      deserialize_iN n ⟨(serialize_iN n ⟨[], false⟩ v).output ++ rest, false⟩ =
        .ok v ⟨rest, false⟩) ∧
    (∀ (v : Nat) (rest : List Nat), v < 0xD800 ∨ (0xE000 ≤ v ∧ v < 0x110000) →
      deserialize_char ⟨(serialize_char ⟨[], false⟩ v).output ++ rest, false⟩ =
        .ok v ⟨rest, false⟩) ∧
    (∀ (v : List Nat) (rest : List Nat), Bytes v →
      read_bytes ⟨(serialize_bytes ⟨[], false⟩ v).output ++ rest, false⟩ =
        .ok v ⟨rest, false⟩) ∧
    (∀ (fmt : FloatFmt) (p : Nat) (rest : List Nat),
      fmt = f32fmt ∨ fmt = f64fmt → p < 2 ^ fmt.w →
      deserialize_f fmt ⟨(serialize_f fmt ⟨[], false⟩ p).output ++ rest, false⟩ =
        .ok (fmt.normalize p) ⟨rest, false⟩ ∧
      (¬ fmt.isNanP p → (¬ fmt.isZeroP p ∨ p = 0) → fmt.normalize p = p)) := by
  refine ⟨roundtrip_bool, ?_, ?_, ?_, ?_, ?_⟩
  · intro n v rest hv
    exact roundtrip_uN hv rest
  · intro n v rest hn hlo hhi
    exact roundtrip_iN hn hlo hhi rest
  · intro v rest hv
    exact roundtrip_char hv rest
  · intro v rest hB
    exact roundtrip_bytes hB rest
  · intro fmt p rest hfmt hp
    exact ⟨roundtrip_f fmt hfmt hp rest, fun h1 h2 => normalize_eq_of_not_nan_zero h1 h2⟩

/-- Witness for C2 at concrete values of each scalar type. -/
theorem C2_witness :
    deserialize_bool ⟨(serialize_bool ⟨[], false⟩ true).output ++ [7], false⟩ =
      .ok true ⟨[7], false⟩ ∧
    deserialize_uN 2 ⟨(serialize_uN 2 ⟨[], false⟩ 0x1234).output ++ [], false⟩ =
      .ok 0x1234 ⟨[], false⟩ ∧
    deserialize_iN 1 ⟨(serialize_iN 1 ⟨[], false⟩ (-3)).output ++ [], false⟩ =
      .ok (-3) ⟨[], false⟩ ∧
    deserialize_char ⟨(serialize_char ⟨[], false⟩ 65).output ++ [], false⟩ =
      .ok 65 ⟨[], false⟩ ∧
    read_bytes ⟨(serialize_bytes ⟨[], false⟩ [1, 2, 3]).output ++ [], false⟩ =
      .ok [1, 2, 3] ⟨[], false⟩ ∧
    (deserialize_f f32fmt
        ⟨(serialize_f f32fmt ⟨[], false⟩ 0x3F800000).output ++ [], false⟩ =
      .ok (f32fmt.normalize 0x3F800000) ⟨[], false⟩ ∧
     (¬ f32fmt.isNanP 0x3F800000 → (¬ f32fmt.isZeroP 0x3F800000 ∨ 0x3F800000 = 0) →
       f32fmt.normalize 0x3F800000 = 0x3F800000)) :=
  ⟨C2_roundtrip.1 true [7],
   C2_roundtrip.2.1 2 0x1234 [] (by decide),
   C2_roundtrip.2.2.1 1 (-3) [] (by decide) (by decide) (by decide),
   C2_roundtrip.2.2.2.1 65 [] (by decide),
   C2_roundtrip.2.2.2.2.1 [1, 2, 3] [] (by decide),
   C2_roundtrip.2.2.2.2.2 f32fmt 0x3F800000 [] (Or.inl rfl) (by decide)⟩

/-! ## Unfolded equations for the recursive loops (the `let`-bound chunk
variables of the source are inlined, which is definitional) -/

theorem read_bytes_loop_eq (s : DeState) (acc : List Nat) :
    read_bytes_loop s acc =
      if 9 ≤ s.input.length then
        if 1 ≤ ((s.input.take 9).map (flipByte s.flip)).getD 8 0 ∧
            ((s.input.take 9).map (flipByte s.flip)).getD 8 0 ≤ 8 then
          .ok (acc ++ ((s.input.take 9).map (flipByte s.flip)).take
                (((s.input.take 9).map (flipByte s.flip)).getD 8 0))
              ⟨s.input.drop 9, s.flip⟩
        else if ((s.input.take 9).map (flipByte s.flip)).getD 8 0 = 9 then
          read_bytes_loop ⟨s.input.drop 9, s.flip⟩
            (acc ++ ((s.input.take 9).map (flipByte s.flip)).take 8)
        else .err (.InvalidBytesEncoding (((s.input.take 9).map (flipByte s.flip)).getD 8 0))
      else .eof := by
  rw [read_bytes_loop]
  split
  · rfl
  · rfl

theorem skip_bytes_loop_eq (s : DeState) (total : Nat) :
    skip_bytes_loop s total =
      if 8 ≤ s.input.length then
        match s.input.drop 8 with
        | [] => .eof
        | b :: rest =>
          if 1 ≤ flipByte s.flip b ∧ flipByte s.flip b ≤ 8 then
            .ok (total + flipByte s.flip b) ⟨rest, s.flip⟩
          else if flipByte s.flip b = 9 then
            skip_bytes_loop ⟨rest, s.flip⟩ (total + 8)
          else .err (.InvalidBytesEncoding (flipByte s.flip b))
      else .eof := by
  rw [skip_bytes_loop]
  split
  · cases hdrop : s.input.drop 8 with
    | nil => rfl
    | cons b rest => rfl
  · rfl

theorem read_mantissa_eq (s : DeState) (neg : Bool) (mantissa mlen : Int) :
    read_mantissa s neg mantissa mlen =
      match s.input with
      | [] => .eof
      | b0 :: rest =>
        if (if neg then notU8 (flipByte s.flip b0) else flipByte s.flip b0) &&& 1 = 0 then
          .ok (mantissa * 100 +
                ((if neg then notU8 (flipByte s.flip b0) else flipByte s.flip b0) / 2 : Nat),
               mlen + 1) ⟨rest, s.flip⟩
        else read_mantissa ⟨rest, s.flip⟩ neg
          (mantissa * 100 +
            ((if neg then notU8 (flipByte s.flip b0) else flipByte s.flip b0) / 2 : Nat))
          (mlen + 1) := by
  rw [read_mantissa]
  cases hin : s.input with
  | nil => rfl
  | cons b0 rest => rfl

/-! ## Frame lemmas: every operation preserves the flip bit (claim C10) -/

theorem serialize_bytes_chunks_frame :
    ∀ (k : Nat) (v : List Nat) (s : SerState), v.length ≤ k →
      ∃ t, serialize_bytes_chunks s v = ⟨s.output ++ t, s.flip⟩ := by
  intro k
  induction k with
  | zero =>
    intro v s hk
    have hv : v = [] := List.eq_nil_of_length_eq_zero (by omega)
    subst hv
    rw [serialize_bytes_chunks]
    exact ⟨_, by (simp [put_u8, put_bytes, put_slice, List.append_assoc]; try rfl)⟩
  | succ k ih =>
    intro v s hk
    rw [serialize_bytes_chunks]
    by_cases h : v.length ≤ 8
    · rw [dif_pos h]
      exact ⟨_, by (simp [put_u8, put_bytes, put_slice, List.append_assoc]; try rfl)⟩
    · rw [dif_neg h]
      obtain ⟨t, ht⟩ := ih (v.drop 8) (put_u8 (put_slice s (v.take 8)) 9)
        (by simp only [List.length_drop]; omega)
      refine ⟨(v.take 8).map (flipByte s.flip) ++ [flipByte s.flip 9] ++ t, ?_⟩
      rw [ht]
      simp [put_u8, put_slice]

theorem serialize_bytes_frame (s : SerState) (v : List Nat) :
    ∃ t, serialize_bytes s v = ⟨s.output ++ t, s.flip⟩ := by
  rw [serialize_bytes]
  by_cases h : v.isEmpty
  · rw [if_pos h]
    exact ⟨_, rfl⟩
  · rw [if_neg h]
    obtain ⟨t, ht⟩ := serialize_bytes_chunks_frame v.length v (put_u8 s 1) le_rfl
    refine ⟨flipByte s.flip 1 :: t, ?_⟩
    rw [ht]
    simp [put_u8]

theorem foldl_put_not_frame (l : List Nat) :
    ∀ s : SerState, ∃ t, l.foldl (fun st b => put_u8 st (notU8 b)) s =
      ⟨s.output ++ t, s.flip⟩ := by
  induction l with
  | nil =>
    intro s
    exact ⟨[], by simp⟩
  | cons b l ih =>
    intro s
    obtain ⟨t, ht⟩ := ih (put_u8 s (notU8 b))
    refine ⟨flipByte s.flip (notU8 b) :: t, ?_⟩
    rw [List.foldl_cons, ht]
    simp [put_u8]

theorem serialize_decimal_frame (s : SerState) (d : Decimal) :
    ∃ t, serialize_decimal s d = ⟨s.output ++ t, s.flip⟩ := by
  cases d with
  | NaN => exact ⟨_, rfl⟩
  | NegInf => exact ⟨_, rfl⟩
  | Inf => exact ⟨_, rfl⟩
  | Normalized m sc =>
    rw [serialize_decimal]
    by_cases hm : m = 0
    · rw [if_pos hm]
      exact ⟨_, rfl⟩
    · rw [if_neg hm]
      by_cases hsgn : 0 ≤ m
      · rw [if_pos hsgn]
        split
        · exact ⟨_, by (simp [put_u8, put_slice, List.append_assoc]; try rfl)⟩
        · split
          · exact ⟨_, by (simp [put_u8, put_slice, List.append_assoc]; try rfl)⟩
          · exact ⟨_, by (simp [put_u8, put_slice, List.append_assoc]; try rfl)⟩
      · rw [if_neg hsgn]
        split
        · obtain ⟨t, ht⟩ := foldl_put_not_frame (decimal_e_m m.natAbs sc).2
            (put_u8 (put_u8 s 0x8) (u8ofI8 (notI8 (decimal_e_m m.natAbs sc).1)))
          exact ⟨_, by (rw [ht]; simp [put_u8, List.append_assoc]; try rfl)⟩
        · split
          · obtain ⟨t, ht⟩ := foldl_put_not_frame (decimal_e_m m.natAbs sc).2
              (put_u8 s (0x13 - (decimal_e_m m.natAbs sc).1.toNat))
            exact ⟨_, by (rw [ht]; simp [put_u8, List.append_assoc]; try rfl)⟩
          · obtain ⟨t, ht⟩ := foldl_put_not_frame (decimal_e_m m.natAbs sc).2
              (put_u8 (put_u8 s 0x14) (u8ofI8 (-(decimal_e_m m.natAbs sc).1)))
            exact ⟨_, by (rw [ht]; simp [put_u8, List.append_assoc]; try rfl)⟩

theorem read_bytes_loop_flip :
    ∀ (k : Nat) (s : DeState) (acc a : List Nat) (s' : DeState), s.input.length ≤ k →
      read_bytes_loop s acc = .ok a s' → s'.flip = s.flip := by
  intro k
  induction k with
  | zero =>
    intro s acc a s' hk h
    rw [read_bytes_loop_eq, if_neg (by omega)] at h
    simp at h
  | succ k ih =>
    intro s acc a s' hk h
    rw [read_bytes_loop_eq] at h
    by_cases h9 : 9 ≤ s.input.length
    · rw [if_pos h9] at h
      by_cases h1 : 1 ≤ ((s.input.take 9).map (flipByte s.flip)).getD 8 0 ∧
          ((s.input.take 9).map (flipByte s.flip)).getD 8 0 ≤ 8
      · rw [if_pos h1] at h
        injection h with ha hs
        rw [← hs]
      · rw [if_neg h1] at h
        by_cases h2 : ((s.input.take 9).map (flipByte s.flip)).getD 8 0 = 9
        · rw [if_pos h2] at h
          exact ih ⟨s.input.drop 9, s.flip⟩ _ a s' (by simp <;> omega) h
        · rw [if_neg h2] at h
          simp at h
    · rw [if_neg h9] at h
      simp at h

theorem skip_bytes_loop_flip :
    ∀ (k : Nat) (s : DeState) (total a : Nat) (s' : DeState), s.input.length ≤ k →
      skip_bytes_loop s total = .ok a s' → s'.flip = s.flip := by
  intro k
  induction k with
  | zero =>
    intro s total a s' hk h
    rw [skip_bytes_loop_eq, if_neg (by omega)] at h
    simp at h
  | succ k ih =>
    intro s total a s' hk h
    rw [skip_bytes_loop_eq] at h
    by_cases h8 : 8 ≤ s.input.length
    · rw [if_pos h8] at h
      cases hdrop : s.input.drop 8 with
      | nil =>
        rw [hdrop] at h
        simp at h
      | cons b rest =>
        rw [hdrop] at h
        simp only [] at h
        by_cases h1 : 1 ≤ flipByte s.flip b ∧ flipByte s.flip b ≤ 8
        · rw [if_pos h1] at h
          injection h with ha hs
          rw [← hs]
        · rw [if_neg h1] at h
          by_cases h2 : flipByte s.flip b = 9
          · rw [if_pos h2] at h
            refine ih ⟨rest, s.flip⟩ _ a s' ?_ h
            have := congrArg List.length hdrop
            simp at this
            simp
            omega
          · rw [if_neg h2] at h
            simp at h
    · rw [if_neg h8] at h
      simp at h

theorem read_mantissa_flip :
    ∀ (k : Nat) (s : DeState) (neg : Bool) (m l : Int) (p : Int × Int) (s' : DeState),
      s.input.length ≤ k →
      read_mantissa s neg m l = .ok p s' → s'.flip = s.flip := by
  intro k
  induction k with
  | zero =>
    intro s neg m l p s' hk h
    rw [read_mantissa_eq] at h
    have : s.input = [] := List.eq_nil_of_length_eq_zero (by omega)
    rw [this] at h
    simp at h
  | succ k ih =>
    intro s neg m l p s' hk h
    rw [read_mantissa_eq] at h
    cases hin : s.input with
    | nil =>
      rw [hin] at h
      simp at h
    | cons b0 rest =>
      rw [hin] at h
      simp only [] at h
      by_cases hb : (if neg then notU8 (flipByte s.flip b0) else flipByte s.flip b0) &&& 1 = 0
      · rw [if_pos hb] at h
        injection h with ha hs
        rw [← hs]
      · rw [if_neg hb] at h
        refine ih ⟨rest, s.flip⟩ neg _ _ p s' ?_ h
        have := congrArg List.length hin
        simp at this
        simp
        omega

theorem decode_mantissa_scale_flip {s : DeState} {neg : Bool} {e : Int} {d : Decimal}
    {s' : DeState} (h : decode_mantissa_scale s neg e = .ok d s') : s'.flip = s.flip := by
  rw [decode_mantissa_scale] at h
  cases hrm : read_mantissa s neg 0 0 with
  | ok p s1 =>
    rw [hrm, DeOut.bind] at h
    injection h with hd hs
    rw [← hs]
    exact read_mantissa_flip s.input.length s neg 0 0 p s1 le_rfl hrm
  | err e1 =>
    rw [hrm] at h
    simp [DeOut.bind] at h
  | eof =>
    rw [hrm] at h
    simp [DeOut.bind] at h

/-- **C10.**  No serialize or deserialize operation modifies the flip bit:
a fresh serializer/deserializer starts with flip = false, `set_reverse`
sets exactly it, every serialize operation leaves the flip bit unchanged
and only appends to the output buffer, and every deserialize operation
that returns a value leaves the flip bit of the resulting state unchanged. -/
theorem C10_flip_frame :
    SerState.new.flip = false ∧
    (∀ (s : SerState) (b : Bool),
      (s.set_reverse b).flip = b ∧ (s.set_reverse b).output = s.output) ∧
    (∀ (s : SerState) (v : Nat), serialize_u8 s v = ⟨s.output ++ [flipByte s.flip v], s.flip⟩) ∧
    (∀ (n : Nat) (s : SerState) (v : Nat),
      (serialize_uN n s v).flip = s.flip ∧
      ∃ t, (serialize_uN n s v).output = s.output ++ t) ∧
    (∀ (n : Nat) (s : SerState) (v : Int),
      (serialize_iN n s v).flip = s.flip ∧
      ∃ t, (serialize_iN n s v).output = s.output ++ t) ∧
    (∀ (s : SerState) (v : Bool),
      (serialize_bool s v).flip = s.flip ∧
      ∃ t, (serialize_bool s v).output = s.output ++ t) ∧
    (∀ (s : SerState) (v : Nat),
      (serialize_char s v).flip = s.flip ∧
      ∃ t, (serialize_char s v).output = s.output ++ t) ∧
    (∀ (s : SerState) (v : List Nat),
      (serialize_bytes s v).flip = s.flip ∧
      ∃ t, (serialize_bytes s v).output = s.output ++ t) ∧
    (∀ (s : SerState) (d : Decimal),
      (serialize_decimal s d).flip = s.flip ∧
      ∃ t, (serialize_decimal s d).output = s.output ++ t) ∧
    (∀ (l : List Nat), (DeState.new l).flip = false) ∧
    (∀ (s : DeState) (b : Bool),
      (s.set_reverse b).flip = b ∧ (s.set_reverse b).input = s.input) ∧
    (∀ (s : DeState) (a : Bool) (s' : DeState),
      deserialize_bool s = .ok a s' → s'.flip = s.flip) ∧
    (∀ (n : Nat) (s : DeState) (a : Nat) (s' : DeState),
      deserialize_uN n s = .ok a s' → s'.flip = s.flip) ∧
    (∀ (n : Nat) (s : DeState) (a : Int) (s' : DeState),
      deserialize_iN n s = .ok a s' → s'.flip = s.flip) ∧
    (∀ (s : DeState) (a : Nat) (s' : DeState),
      deserialize_char s = .ok a s' → s'.flip = s.flip) ∧
    (∀ (fmt : FloatFmt) (s : DeState) (a : Nat) (s' : DeState),
      deserialize_f fmt s = .ok a s' → s'.flip = s.flip) ∧
    (∀ (s : DeState) (a : List Nat) (s' : DeState),
      read_bytes s = .ok a s' → s'.flip = s.flip) ∧
    (∀ (s : DeState) (a : Nat) (s' : DeState),
      skip_bytes s = .ok a s' → s'.flip = s.flip) ∧
    (∀ (s : DeState) (a : Decimal) (s' : DeState),
      deserialize_decimal s = .ok a s' → s'.flip = s.flip) := by
  have hgetu8 : ∀ (s : DeState) (a : Nat) (s' : DeState),
      get_u8 s = .ok a s' → s'.flip = s.flip := by
    intro s a s' h
    rw [get_u8] at h
    cases hin : s.input with
    | nil =>
      rw [hin] at h
      simp at h
    | cons b rest =>
      rw [hin] at h
      injection h with ha hs
      rw [← hs]
  have hgetuN : ∀ (n : Nat) (s : DeState) (a : Nat) (s' : DeState),
      get_uN n s = .ok a s' → s'.flip = s.flip := by
    intro n s a s' h
    rw [get_uN] at h
    by_cases hc : n ≤ s.input.length
    · rw [if_pos hc] at h
      injection h with ha hs
      rw [← hs]
    · rw [if_neg hc] at h
      simp at h
  refine ⟨rfl, fun s b => ⟨rfl, rfl⟩, fun s v => rfl, ?_, ?_, ?_, ?_, ?_, ?_,
    fun l => rfl, fun s b => ⟨rfl, rfl⟩, ?_, ?_, ?_, ?_, ?_, ?_, ?_, ?_⟩
  · intro n s v
    exact ⟨rfl, ⟨_, rfl⟩⟩
  · intro n s v
    exact ⟨rfl, ⟨_, rfl⟩⟩
  · intro s v
    exact ⟨rfl, ⟨_, rfl⟩⟩
  · intro s v
    exact ⟨rfl, ⟨_, rfl⟩⟩
  · intro s v
    obtain ⟨t, ht⟩ := serialize_bytes_frame s v
    rw [ht]
    exact ⟨rfl, ⟨t, rfl⟩⟩
  · intro s d
    obtain ⟨t, ht⟩ := serialize_decimal_frame s d
    rw [ht]
    exact ⟨rfl, ⟨t, rfl⟩⟩
  · -- deserialize_bool
    intro s a s' h
    rw [deserialize_bool] at h
    cases hg : get_u8 s with
    | ok b s1 =>
      rw [hg, DeOut.bind] at h
      have h1 := hgetu8 s b s1 hg
      match b, h with
      | 1, h =>
        injection h with ha hs
        rw [← hs]
        exact h1
      | 0, h =>
        injection h with ha hs
        rw [← hs]
        exact h1
    | err e =>
      rw [hg] at h
      simp [DeOut.bind] at h
    | eof =>
      rw [hg] at h
      simp [DeOut.bind] at h
  · -- deserialize_uN
    intro n s a s' h
    exact hgetuN n s a s' h
  · -- deserialize_iN
    intro n s a s' h
    rw [deserialize_iN] at h
    cases hg : get_uN n s with
    | ok u s1 =>
      rw [hg, DeOut.bind] at h
      injection h with ha hs
      rw [← hs]
      exact hgetuN n s u s1 hg
    | err e =>
      rw [hg] at h
      simp [DeOut.bind] at h
    | eof =>
      rw [hg] at h
      simp [DeOut.bind] at h
  · -- deserialize_char
    intro s a s' h
    rw [deserialize_char] at h
    cases hg : get_uN 4 s with
    | ok u s1 =>
      rw [hg, DeOut.bind] at h
      split_ifs at h
      injection h with ha hs
      rw [← hs]
      exact hgetuN 4 s u s1 hg
    | err e =>
      rw [hg] at h
      simp [DeOut.bind] at h
    | eof =>
      rw [hg] at h
      simp [DeOut.bind] at h
  · -- deserialize_f
    intro fmt s a s' h
    rw [deserialize_f] at h
    cases hg : get_uN (fmt.w / 8) s with
    | ok u s1 =>
      rw [hg, DeOut.bind] at h
      injection h with ha hs
      rw [← hs]
      exact hgetuN _ s u s1 hg
    | err e =>
      rw [hg] at h
      simp [DeOut.bind] at h
    | eof =>
      rw [hg] at h
      simp [DeOut.bind] at h
  · -- read_bytes
    intro s a s' h
    rw [read_bytes] at h
    cases hg : get_u8 s with
    | ok b s1 =>
      rw [hg, DeOut.bind] at h
      have h1 := hgetu8 s b s1 hg
      match b, h with
      | 0, h =>
        injection h with ha hs
        rw [← hs]
        exact h1
      | 1, h =>
        rw [read_bytes_loop_flip s1.input.length s1 [] a s' le_rfl h]
        exact h1
    | err e =>
      rw [hg] at h
      simp [DeOut.bind] at h
    | eof =>
      rw [hg] at h
      simp [DeOut.bind] at h
  · -- skip_bytes
    intro s a s' h
    rw [skip_bytes] at h
    cases hg : get_u8 s with
    | ok b s1 =>
      rw [hg, DeOut.bind] at h
      have h1 := hgetu8 s b s1 hg
      match b, h with
      | 0, h =>
        injection h with ha hs
        rw [← hs]
        exact h1
      | 1, h =>
        rw [skip_bytes_loop_flip s1.input.length s1 0 a s' le_rfl h]
        exact h1
    | err e =>
      rw [hg] at h
      simp [DeOut.bind] at h
    | eof =>
      rw [hg] at h
      simp [DeOut.bind] at h
  · -- deserialize_decimal
    intro s a s' h
    have hbind : ∀ (s1 : DeState) (ng : Bool) (f : Nat → Int) (a1 : Decimal)
        (s2 : DeState),
        ((get_u8 s1).bind fun b sb => decode_mantissa_scale sb ng (f b)) = .ok a1 s2 →
        s2.flip = s1.flip := by
      intro s1 ng f a1 s2 hb
      cases hg2 : get_u8 s1 with
      | ok b sb =>
        rw [hg2, DeOut.bind] at hb
        rw [decode_mantissa_scale_flip hb, hgetu8 s1 b sb hg2]
      | err e =>
        rw [hg2] at hb
        simp [DeOut.bind] at hb
      | eof =>
        rw [hg2] at hb
        simp [DeOut.bind] at hb
    rw [deserialize_decimal] at h
    cases hg : get_u8 s with
    | ok flag s1 =>
      rw [hg, DeOut.bind] at h
      have h1 := hgetu8 s flag s1 hg
      simp only [] at h
      by_cases c1 : flag = 0x06
      · rw [if_pos c1] at h
        injection h with ha hs
        rw [← hs]
        exact h1
      · rw [if_neg c1] at h
        by_cases c2 : flag = 0x07
        · rw [if_pos c2] at h
          injection h with ha hs
          rw [← hs]
          exact h1
        · rw [if_neg c2] at h
          by_cases c3 : flag = 0x08
          · rw [if_pos c3] at h
            rw [hbind s1 _ _ a s' h]
            exact h1
          · rw [if_neg c3] at h
            by_cases c4 : 0x09 ≤ flag ∧ flag ≤ 0x13
            · rw [if_pos c4] at h
              rw [decode_mantissa_scale_flip h]
              exact h1
            · rw [if_neg c4] at h
              by_cases c5 : flag = 0x14
              · rw [if_pos c5] at h
                rw [hbind s1 _ _ a s' h]
                exact h1
              · rw [if_neg c5] at h
                by_cases c6 : flag = 0x15
                · rw [if_pos c6] at h
                  injection h with ha hs
                  rw [← hs]
                  exact h1
                · rw [if_neg c6] at h
                  by_cases c7 : flag = 0x16
                  · rw [if_pos c7] at h
                    rw [hbind s1 _ _ a s' h]
                    exact h1
                  · rw [if_neg c7] at h
                    by_cases c8 : 0x17 ≤ flag ∧ flag ≤ 0x21
                    · rw [if_pos c8] at h
                      rw [decode_mantissa_scale_flip h]
                      exact h1
                    · rw [if_neg c8] at h
                      by_cases c9 : flag = 0x22
                      · rw [if_pos c9] at h
                        rw [hbind s1 _ _ a s' h]
                        exact h1
                      · rw [if_neg c9] at h
                        by_cases c10 : flag = 0x23
                        · rw [if_pos c10] at h
                          injection h with ha hs
                          rw [← hs]
                          exact h1
                        · rw [if_neg c10] at h
                          simp at h
    | err e =>
      rw [hg] at h
      simp [DeOut.bind] at h
    | eof =>
      rw [hg] at h
      simp [DeOut.bind] at h

/-- Witness for C10: the universally quantified conjuncts instantiated at a
concrete state and operation. -/
theorem C10_witness :
    SerState.new.flip = false ∧
    (serialize_u8 ⟨[], true⟩ 5 =
      ⟨([] : List Nat) ++ [flipByte true 5], true⟩) := by
  have h := C10_flip_frame
  exact ⟨h.1, h.2.2.1 ⟨[], true⟩ 5⟩

/-! ## Claim C9: `deserialize_decimal` validates only the flag byte -/

theorem read_mantissa_no_err :
    ∀ (k : Nat) (s : DeState) (neg : Bool) (m l : Int) (e : Err),
      s.input.length ≤ k → read_mantissa s neg m l ≠ .err e := by
  intro k
  induction k with
  | zero =>
    intro s neg m l e hk h
    rw [read_mantissa_eq] at h
    have : s.input = [] := List.eq_nil_of_length_eq_zero (by omega)
    rw [this] at h
    simp at h
  | succ k ih =>
    intro s neg m l e hk h
    rw [read_mantissa_eq] at h
    cases hin : s.input with
    | nil =>
      rw [hin] at h
      simp at h
    | cons b0 rest =>
      rw [hin] at h
      simp only [] at h
      by_cases hb : (if neg then notU8 (flipByte s.flip b0) else flipByte s.flip b0) &&& 1 = 0
      · rw [if_pos hb] at h
        simp at h
      · rw [if_neg hb] at h
        refine ih ⟨rest, s.flip⟩ neg _ _ e ?_ h
        have := congrArg List.length hin
        simp at this
        simp
        omega

theorem decode_mantissa_scale_no_err (s : DeState) (neg : Bool) (ex : Int) (e : Err) :
    decode_mantissa_scale s neg ex ≠ .err e := by
  intro h
  rw [decode_mantissa_scale] at h
  cases hrm : read_mantissa s neg 0 0 with
  | ok p s1 =>
    rw [hrm, DeOut.bind] at h
    simp at h
  | err e1 =>
    exact read_mantissa_no_err s.input.length s neg 0 0 e1 le_rfl hrm
  | eof =>
    rw [hrm] at h
    simp [DeOut.bind] at h

/-- **C9.**  `deserialize_decimal` returns `InvalidDecimalEncoding` only for
the leading flag byte: an error return implies the first input byte decodes
(through the flip wrapper) to a byte outside `0x06..0x23`, and the error
names that byte.  Exponent and significand bytes are never validated — in
particular the significand byte 250 is accepted and contributes the
out-of-range base-100 digit 125, as the concrete run shows. -/
theorem C9_decimal_error_only_flag (s : DeState) :
    (∀ e : Err, deserialize_decimal s = .err e →
      ∃ b rest, s.input = b :: rest ∧
        e = .InvalidDecimalEncoding (flipByte s.flip b) ∧
        ¬ (0x06 ≤ flipByte s.flip b ∧ flipByte s.flip b ≤ 0x23)) ∧
    deserialize_decimal ⟨[0x17, 250], false⟩ =
      .ok (.Normalized 125 2) ⟨[], false⟩ := by
  constructor
  · intro e h
    rw [deserialize_decimal] at h
    cases hin : s.input with
    | nil =>
      have hg : get_u8 s = .eof := by
        rw [get_u8, hin]
      rw [hg] at h
      simp [DeOut.bind] at h
    | cons b rest =>
      have hg : get_u8 s = .ok (flipByte s.flip b) ⟨rest, s.flip⟩ := by
        rw [get_u8, hin]
      rw [hg, DeOut.bind] at h
      simp only [] at h
      refine ⟨b, rest, rfl, ?_⟩
      set f := flipByte s.flip b with hf
      by_cases c1 : f = 0x06
      · rw [if_pos c1] at h
        simp at h
      · rw [if_neg c1] at h
        by_cases c2 : f = 0x07
        · rw [if_pos c2] at h
          simp at h
        · rw [if_neg c2] at h
          by_cases c3 : f = 0x08
          · rw [if_pos c3] at h
            cases hg2 : get_u8 ⟨rest, s.flip⟩ with
            | ok b2 s2 =>
              rw [hg2, DeOut.bind] at h
              exact absurd h (decode_mantissa_scale_no_err _ _ _ _)
            | err e2 =>
              rw [hg2] at h
              rw [get_u8] at hg2
              cases rest <;> simp at hg2
            | eof =>
              rw [hg2] at h
              simp [DeOut.bind] at h
          · rw [if_neg c3] at h
            by_cases c4 : 0x09 ≤ f ∧ f ≤ 0x13
            · rw [if_pos c4] at h
              exact absurd h (decode_mantissa_scale_no_err _ _ _ _)
            · rw [if_neg c4] at h
              by_cases c5 : f = 0x14
              · rw [if_pos c5] at h
                cases hg2 : get_u8 ⟨rest, s.flip⟩ with
                | ok b2 s2 =>
                  rw [hg2, DeOut.bind] at h
                  exact absurd h (decode_mantissa_scale_no_err _ _ _ _)
                | err e2 =>
                  rw [hg2] at h
                  rw [get_u8] at hg2
                  cases rest <;> simp at hg2
                | eof =>
                  rw [hg2] at h
                  simp [DeOut.bind] at h
              · rw [if_neg c5] at h
                by_cases c6 : f = 0x15
                · rw [if_pos c6] at h
                  simp at h
                · rw [if_neg c6] at h
                  by_cases c7 : f = 0x16
                  · rw [if_pos c7] at h
                    cases hg2 : get_u8 ⟨rest, s.flip⟩ with
                    | ok b2 s2 =>
                      rw [hg2, DeOut.bind] at h
                      exact absurd h (decode_mantissa_scale_no_err _ _ _ _)
                    | err e2 =>
                      rw [hg2] at h
                      rw [get_u8] at hg2
                      cases rest <;> simp at hg2
                    | eof =>
                      rw [hg2] at h
                      simp [DeOut.bind] at h
                  · rw [if_neg c7] at h
                    by_cases c8 : 0x17 ≤ f ∧ f ≤ 0x21
                    · rw [if_pos c8] at h
                      exact absurd h (decode_mantissa_scale_no_err _ _ _ _)
                    · rw [if_neg c8] at h
                      by_cases c9 : f = 0x22
                      · rw [if_pos c9] at h
                        cases hg2 : get_u8 ⟨rest, s.flip⟩ with
                        | ok b2 s2 =>
                          rw [hg2, DeOut.bind] at h
                          exact absurd h (decode_mantissa_scale_no_err _ _ _ _)
                        | err e2 =>
                          rw [hg2] at h
                          rw [get_u8] at hg2
                          cases rest <;> simp at hg2
                        | eof =>
                          rw [hg2] at h
                          simp [DeOut.bind] at h
                      · rw [if_neg c9] at h
                        by_cases c10 : f = 0x23
                        · rw [if_pos c10] at h
                          simp at h
                        · rw [if_neg c10] at h
                          injection h with he
                          refine ⟨he.symm, ?_⟩
                          omega
  · have hg : get_u8 ⟨[0x17, 250], false⟩ = .ok 0x17 ⟨[250], false⟩ := rfl
    rw [deserialize_decimal, hg, DeOut.bind]
    norm_num
    have hrm : read_mantissa ⟨[250], false⟩ false 0 0 = .ok (125, 1) ⟨[], false⟩ := by
      rw [read_mantissa_eq]
      norm_num [flipByte]
    rw [decode_mantissa_scale, hrm, DeOut.bind]
    norm_num
    decide

/-- Witness for C9 at the concrete invalid flag byte 0x42. -/
theorem C9_witness :
    (∀ e : Err, deserialize_decimal ⟨[0x42], false⟩ = .err e →
      ∃ b rest, ([0x42] : List Nat) = b :: rest ∧
        e = .InvalidDecimalEncoding (flipByte false b) ∧
        ¬ (0x06 ≤ flipByte false b ∧ flipByte false b ≤ 0x23)) ∧
    deserialize_decimal ⟨[0x17, 250], false⟩ =
      .ok (.Normalized 125 2) ⟨[], false⟩ :=
  C9_decimal_error_only_flag ⟨[0x42], false⟩

/-! ## Claim C8: `skip_bytes` parses exactly what `read_bytes` parses -/

theorem chunk_split {s : DeState} {b : Nat} {rest : List Nat}
    (hd : s.input.drop 8 = b :: rest) :
    ((s.input.take 9).map (flipByte s.flip)).getD 8 0 = flipByte s.flip b ∧
    s.input.drop 9 = rest ∧
    (s.input.take 9).map (flipByte s.flip) =
      (s.input.take 8).map (flipByte s.flip) ++ [flipByte s.flip b] := by
  have h8 : 8 ≤ s.input.length := by
    by_contra hc
    rw [List.drop_of_length_le (by omega)] at hd
    cases hd
  have hget : s.input[8]? = some b := by
    have := List.getElem?_drop s.input 8 0
    rw [hd] at this
    simpa using this.symm
  have htake9 : s.input.take 9 = s.input.take 8 ++ [b] := by
    rw [List.take_succ, hget]
    rfl
  have hmap : (s.input.take 9).map (flipByte s.flip) =
      (s.input.take 8).map (flipByte s.flip) ++ [flipByte s.flip b] := by
    rw [htake9]
    simp
  refine ⟨?_, ?_, hmap⟩
  · rw [hmap]
    exact getD_snoc_idx (by simp; omega)
  · have := List.drop_drop 1 8 s.input
    rw [hd] at this
    simpa using this.symm

theorem loops_equiv :
    ∀ (k : Nat) (s : DeState) (acc : List Nat) (total : Nat), s.input.length ≤ k →
      (∀ v s1, read_bytes_loop s acc = .ok v s1 →
        acc.length ≤ v.length ∧
        skip_bytes_loop s total = .ok (total + (v.length - acc.length)) s1) ∧
      (∀ e, read_bytes_loop s acc = .err e →
        skip_bytes_loop s total = .err e ∧ ∃ b, e = .InvalidBytesEncoding b) ∧
      (read_bytes_loop s acc = .eof → skip_bytes_loop s total = .eof) := by
  intro k
  induction k with
  | zero =>
    intro s acc total hk
    have hnil : s.input = [] := List.eq_nil_of_length_eq_zero (by omega)
    rw [read_bytes_loop_eq, skip_bytes_loop_eq, hnil]
    rw [if_neg (show ¬ (9 : Nat) ≤ ([] : List Nat).length by simp),
      if_neg (show ¬ (8 : Nat) ≤ ([] : List Nat).length by simp)]
    refine ⟨?_, ?_, ?_⟩
    · intro v s1 hv
      cases hv
    · intro e he
      cases he
    · intro he
      rfl
  | succ k ih =>
    intro s acc total hk
    by_cases h9 : 9 ≤ s.input.length
    · obtain ⟨b, rest, hd⟩ : ∃ b rest, s.input.drop 8 = b :: rest := by
        cases hdrop : s.input.drop 8 with
        | nil =>
          have := congrArg List.length hdrop
          simp at this
          omega
        | cons b rest => exact ⟨b, rest, rfl⟩
      obtain ⟨htrail, hdrop9, hmap⟩ := chunk_split hd
      have hrest : rest.length = s.input.length - 9 := by
        have := congrArg List.length hdrop9
        simpa using this.symm
      rw [read_bytes_loop_eq, skip_bytes_loop_eq, if_pos h9,
        if_pos (show 8 ≤ s.input.length by omega), hd, htrail, hdrop9]
      simp only []
      set t := flipByte s.flip b with hft
      have hmlen9 : ((s.input.take 9).map (flipByte s.flip)).length = 9 := by
        rw [List.length_map, List.length_take]
        omega
      by_cases h1 : 1 ≤ t ∧ t ≤ 8
      · simp only [if_pos h1]
        have htakelen : (((s.input.take 9).map (flipByte s.flip)).take t).length = t := by
          rw [List.length_take, hmlen9]
          omega
        refine ⟨?_, ?_, ?_⟩
        · intro v s1 hv
          injection hv with hveq hseq
          refine ⟨?_, ?_⟩
          · rw [← hveq]
            simp
          · rw [← hveq, ← hseq]
            congr 1
            rw [List.length_append, htakelen]
            omega
        · intro e he
          cases he
        · intro he
          cases he
      · simp only [if_neg h1]
        by_cases h2 : t = 9
        · simp only [if_pos h2]
          have ihh := ih ⟨rest, s.flip⟩
            (acc ++ ((s.input.take 9).map (flipByte s.flip)).take 8) (total + 8)
            (by show rest.length ≤ k; omega)
          have hacclen :
              (acc ++ ((s.input.take 9).map (flipByte s.flip)).take 8).length =
                acc.length + 8 := by
            rw [List.length_append, List.length_take, hmlen9]
            omega
          refine ⟨?_, ihh.2.1, ihh.2.2⟩
          intro v s1 hv
          obtain ⟨hle, hskip⟩ := ihh.1 v s1 hv
          rw [hacclen] at hle
          refine ⟨by omega, ?_⟩
          have harith : (total + 8) + (v.length - (acc.length + 8)) =
              total + (v.length - acc.length) := by omega
          rw [hskip, hacclen, harith]
        · simp only [if_neg h2]
          refine ⟨?_, ?_, ?_⟩
          · intro v s1 hv
            cases hv
          · intro e he
            injection he with he1
            exact ⟨by rw [he1], t, he1.symm⟩
          · intro he
            cases he
    · rw [read_bytes_loop_eq, skip_bytes_loop_eq, if_neg h9]
      by_cases h8 : 8 ≤ s.input.length
      · rw [if_pos h8]
        have hd : s.input.drop 8 = [] := List.drop_of_length_le (by omega)
        rw [hd]
        refine ⟨?_, ?_, ?_⟩
        · intro v s1 hv
          cases hv
        · intro e he
          cases he
        · intro he
          rfl
      · rw [if_neg h8]
        refine ⟨?_, ?_, ?_⟩
        · intro v s1 hv
          cases hv
        · intro e he
          cases he
        · intro he
          rfl


/-- **C8.**  On every input, `skip_bytes` succeeds exactly when `read_bytes`
does; on success it returns the length of the byte string `read_bytes`
would produce and leaves the cursor in the same state; on error both
report the same `InvalidBytesEncoding` with the same offending byte; and
both run out of input together. -/
theorem C8_skip_read_equiv (s : DeState) :
    (∀ v s1, read_bytes s = .ok v s1 → skip_bytes s = .ok v.length s1) ∧
    (∀ e, read_bytes s = .err e →
      skip_bytes s = .err e ∧ ∃ b, e = .InvalidBytesEncoding b) ∧
    (read_bytes s = .eof → skip_bytes s = .eof) ∧
    (∀ n s1, skip_bytes s = .ok n s1 → ∃ v, read_bytes s = .ok v s1 ∧ n = v.length) ∧
    (∀ e, skip_bytes s = .err e → read_bytes s = .err e) ∧
    (skip_bytes s = .eof → read_bytes s = .eof) := by
  have hfwd :
      (∀ v s1, read_bytes s = .ok v s1 → skip_bytes s = .ok v.length s1) ∧
      (∀ e, read_bytes s = .err e →
        skip_bytes s = .err e ∧ ∃ b, e = .InvalidBytesEncoding b) ∧
      (read_bytes s = .eof → skip_bytes s = .eof) := by
    rw [read_bytes, skip_bytes]
    cases hg : get_u8 s with
    | ok b s1 =>
      rw [DeOut.bind, DeOut.bind]
      match b with
      | 0 =>
        refine ⟨?_, ?_, ?_⟩
        · intro v s2 hv
          injection hv with hveq hseq
          rw [← hveq, ← hseq]
          rfl
        · intro e he
          cases he
        · intro he
          cases he
      | 1 =>
        have := loops_equiv s1.input.length s1 [] 0 le_rfl
        refine ⟨?_, this.2.1, this.2.2⟩
        intro v s2 hv
        obtain ⟨_, hskip⟩ := this.1 v s2 hv
        rw [hskip]
        congr 1
        simp
      | (n + 2) =>
        refine ⟨?_, ?_, ?_⟩
        · intro v s2 hv
          cases hv
        · intro e he
          injection he with he1
          refine ⟨?_, n + 2, he1.symm⟩
          show DeOut.err (Err.InvalidBytesEncoding (n + 2)) = DeOut.err e
          rw [he1]
        · intro he
          cases he
    | err e =>
      rw [get_u8] at hg
      cases hin : s.input with
      | nil =>
        rw [hin] at hg
        cases hg
      | cons x xs =>
        rw [hin] at hg
        cases hg
    | eof =>
      rw [DeOut.bind, DeOut.bind]
      refine ⟨?_, ?_, ?_⟩
      · intro v s2 hv
        cases hv
      · intro e he
        cases he
      · intro he
        rfl
  refine ⟨hfwd.1, hfwd.2.1, hfwd.2.2, ?_, ?_, ?_⟩
  · intro n s1 hskip
    cases hr : read_bytes s with
    | ok v s2 =>
      have := hfwd.1 v s2 hr
      rw [this] at hskip
      injection hskip with h1 h2
      exact ⟨v, by rw [h2], h1.symm⟩
    | err e =>
      have := (hfwd.2.1 e hr).1
      rw [this] at hskip
      cases hskip
    | eof =>
      have := hfwd.2.2 hr
      rw [this] at hskip
      cases hskip
  · intro e hskip
    cases hr : read_bytes s with
    | ok v s2 =>
      have := hfwd.1 v s2 hr
      rw [this] at hskip
      cases hskip
    | err e2 =>
      have := (hfwd.2.1 e2 hr).1
      rw [this] at hskip
      injection hskip with h1
      rw [h1]
    | eof =>
      have := hfwd.2.2 hr
      rw [this] at hskip
      cases hskip
  · intro hskip
    cases hr : read_bytes s with
    | ok v s2 =>
      have := hfwd.1 v s2 hr
      rw [this] at hskip
      cases hskip
    | err e2 =>
      have := (hfwd.2.1 e2 hr).1
      rw [this] at hskip
      cases hskip
    | eof => rfl

/-- Witness for C8: its success arm applied at the concrete encoding of
`[1,2,3]` (whose `read_bytes` result is computed by the round-trip lemma). -/
theorem C8_witness :
    skip_bytes ⟨(serialize_bytes ⟨[], false⟩ [1, 2, 3]).output ++ [], false⟩ =
      .ok 3 ⟨[], false⟩ :=
  (C8_skip_read_equiv _).1 [1, 2, 3] ⟨[], false⟩ (roundtrip_bytes (by decide) [])

/-! ## Claim C7: variant indices above 255

The claim says an over-large variant index makes serialization "fail by
returning a defined error value … rather than succeeding or aborting the
process".  The source instead runs
`assert!(variant_index <= u8::MAX as u32, "too many variants")`, which
panics (aborts); no `Err` is returned on this path. -/

/-- **C7 counterexample.**  At the concrete variant index 256, both
`serialize_unit_variant` and `serialize_tuple_variant` panic via their
`assert!`; the outcome is the `panic` state, not an `err e` return. -/
theorem C7_counterexample :
    serialize_unit_variant ⟨[], false⟩ 256 = .panic ∧
    serialize_tuple_variant_tag ⟨[], false⟩ 256 = .panic ∧
    SerOut.panic ≠ SerOut.err (Err.Message "too many variants") := by
  refine ⟨rfl, rfl, ?_⟩
  intro h
  cases h

/-- **C7 amended.**  For every sum-type value whose variant index does not
fit in one byte (index > 255), serializing panics through the `assert!`
guard (a process abort), never returning an error value; for indices that
do fit, the index is written as one byte. -/
theorem C7_amended (s : SerState) (idx : Nat) :
    (255 < idx →
      serialize_unit_variant s idx = .panic ∧
      serialize_tuple_variant_tag s idx = .panic) ∧
    (idx ≤ 255 →
      serialize_unit_variant s idx = .ok (serialize_u8 s idx) ∧
      serialize_tuple_variant_tag s idx = .ok (serialize_u8 s idx)) := by
  constructor
  · intro h
    rw [serialize_unit_variant, serialize_tuple_variant_tag, if_neg (by omega)]
    exact ⟨rfl, rfl⟩
  · intro h
    rw [serialize_unit_variant, serialize_tuple_variant_tag, if_pos h]
    exact ⟨rfl, rfl⟩

/-- Witness for C7 (amended) at indices 256 and 3. -/
theorem C7_witness :
    (255 < 256 →
      serialize_unit_variant ⟨[], false⟩ 256 = .panic ∧
      serialize_tuple_variant_tag ⟨[], false⟩ 256 = .panic) ∧
    (256 ≤ 255 →
      serialize_unit_variant ⟨[], false⟩ 256 = .ok (serialize_u8 ⟨[], false⟩ 256) ∧
      serialize_tuple_variant_tag ⟨[], false⟩ 256 = .ok (serialize_u8 ⟨[], false⟩ 256)) :=
  C7_amended ⟨[], false⟩ 256

/-! ## Claim C6: decimal serialization and the flip bit

The claim says the decimal codec bypasses the flip wrapper and writes the
same bytes for either flip setting.  In the source, `serialize_decimal`
writes through `self.output.put_u8` — `self.output` *is* the `MaybeFlip`
wrapper — so with the flip bit set every byte comes out complemented. -/

/-- The output of the negative-significand loop, for either flip setting:
each significand byte is complemented (`!b`) and then passed through the
flip wrapper. -/
theorem foldl_put_not_output (l : List Nat) :
    ∀ s : SerState,
      (l.foldl (fun st b => put_u8 st (notU8 b)) s).output =
        s.output ++ l.map (fun b => flipByte s.flip (notU8 b)) := by
  induction l with
  | nil =>
    intro s
    simp
  | cons b l ih =>
    intro s
    rw [List.foldl_cons, ih]
    simp [put_u8]

/-- **C6 counterexample.**  The NaN flag byte `0x06` is complemented to
`0xF9` when the flip bit is set, so the decimal bytes are *not* independent
of the flip setting. -/
theorem C6_counterexample :
    (serialize_decimal ⟨[], true⟩ .NaN).output = [0xF9] ∧
    (serialize_decimal ⟨[], false⟩ .NaN).output = [0x06] ∧
    [0xF9] ≠ ([0x06] : List Nat) := by
  refine ⟨rfl, rfl, by decide⟩

/-- **C6 amended.**  `serialize_decimal` writes through the `MaybeFlip`
wrapper like every other type: with the flip bit set, each byte of the
flip-off encoding comes out complemented (`255 - b`). -/
theorem C6_amended (out : List Nat) (d : Decimal) :
    (serialize_decimal ⟨out, true⟩ d).output =
      out ++ ((serialize_decimal ⟨[], false⟩ d).output).map (fun b => 255 - b) := by
  cases d with
  | NaN => rfl
  | NegInf => rfl
  | Inf => rfl
  | Normalized m sc =>
    simp only [serialize_decimal]
    by_cases hm : m = 0
    · simp only [if_pos hm]
      rfl
    · simp only [if_neg hm]
      by_cases hsgn : 0 ≤ m
      · simp only [if_pos hsgn]
        by_cases h1 : 11 ≤ (decimal_e_m m.natAbs sc).1
        · simp only [if_pos h1]
          simp [put_u8, put_slice, flipByte, List.map_map, Function.comp]
        · simp only [if_neg h1]
          by_cases h2 : 0 ≤ (decimal_e_m m.natAbs sc).1
          · simp only [if_pos h2]
            simp [put_u8, put_slice, flipByte, List.map_map, Function.comp]
          · simp only [if_neg h2]
            simp [put_u8, put_slice, flipByte, List.map_map, Function.comp]
      · simp only [if_neg hsgn]
        by_cases h1 : 11 ≤ (decimal_e_m m.natAbs sc).1
        · simp only [if_pos h1]
          rw [foldl_put_not_output, foldl_put_not_output]
          simp [put_u8, flipByte, List.map_map, Function.comp]
        · simp only [if_neg h1]
          by_cases h2 : 0 ≤ (decimal_e_m m.natAbs sc).1
          · simp only [if_pos h2]
            rw [foldl_put_not_output, foldl_put_not_output]
            simp [put_u8, flipByte, List.map_map, Function.comp]
          · simp only [if_neg h2]
            rw [foldl_put_not_output, foldl_put_not_output]
            simp [put_u8, flipByte, List.map_map, Function.comp]

/-! ## Claim C1: order correspondence.  Part 1: byte-string encoding order.

The padded-group layout of §4.2 preserves the lexicographic order of the
underlying byte strings.  The proofs work over arbitrary pad budgets and
trailer bytes, with the trailer comparison mirroring the length
comparison. -/

theorem compare_succ_succ (a b : Nat) : compare (a + 1) (b + 1) = compare a b := by
  rcases Nat.lt_trichotomy a b with h | h | h
  · rw [Nat.compare_eq_lt.mpr h, Nat.compare_eq_lt.mpr (by omega)]
  · subst h
    rw [compare_self_nat, compare_self_nat]
  · rw [Nat.compare_eq_gt.mpr h, Nat.compare_eq_gt.mpr (by omega)]

theorem compare_add_right (a b c : Nat) : compare (a + c) (b + c) = compare a b := by
  rcases Nat.lt_trichotomy a b with h | h | h
  · rw [Nat.compare_eq_lt.mpr h, Nat.compare_eq_lt.mpr (by omega)]
  · subst h
    rw [compare_self_nat, compare_self_nat]
  · rw [Nat.compare_eq_gt.mpr h, Nat.compare_eq_gt.mpr (by omega)]

theorem lexCmp_singleton (x y : Nat) : lexCmp [x] [y] = compare x y := by
  cases h : compare x y <;> simp [lexCmp, h]

/-- Zero padding plus a trailer against a padded nonempty string: the
trailer comparison mirrors the length comparison. -/
theorem lexCmp_zeros_nil :
    ∀ (b : List Nat) (n ta tb : Nat), b.length ≤ n →
      compare ta tb = compare 0 b.length →
      lexCmp (List.replicate n 0 ++ [ta])
        (b ++ (List.replicate (n - b.length) 0 ++ [tb])) = lexCmp ([] : List Nat) b := by
  intro b
  induction b with
  | nil =>
    intro n ta tb hlb hcmp
    simp only [List.length_nil, Nat.sub_zero, List.nil_append]
    rw [lexCmp_append_same, lexCmp_singleton, hcmp]
    rfl
  | cons y ys ih =>
    intro n ta tb hlb hcmp
    obtain ⟨m, rfl⟩ : ∃ m, n = m + 1 := ⟨n - 1, by simp at hlb; omega⟩
    have hlt : compare ta tb = Ordering.lt := by
      rw [hcmp]
      exact Nat.compare_eq_lt.mpr (by simp)
    have hsub : m + 1 - (y :: ys).length = m - ys.length := by
      simp only [List.length_cons]
      omega
    rw [List.replicate_succ, hsub]
    show lexCmp (0 :: (List.replicate m 0 ++ [ta]))
        (y :: (ys ++ (List.replicate (m - ys.length) 0 ++ [tb]))) = Ordering.lt
    cases y with
    | zero =>
      simp only [lexCmp, compare_self_nat]
      cases ys with
      | nil =>
        simp only [List.nil_append, List.length_nil, Nat.sub_zero]
        rw [lexCmp_append_same, lexCmp_singleton, hlt]
      | cons z zs =>
        have h2 : compare ta tb = compare 0 (z :: zs).length := by
          rw [hlt]
          exact (Nat.compare_eq_lt.mpr (by simp)).symm
        have := ih m ta tb (by simp at hlb ⊢; omega) h2
        rw [this]
        rfl
    | succ y' =>
      have : compare 0 (y' + 1) = Ordering.lt := Nat.compare_eq_lt.mpr (by omega)
      simp [lexCmp, this]

/-- Two strings padded to the same budget, with trailers mirroring the
length comparison, compare exactly as the strings do. -/
theorem lexCmp_padded :
    ∀ (a b : List Nat) (n ta tb : Nat), a.length ≤ n → b.length ≤ n →
      compare ta tb = compare a.length b.length →
      lexCmp (a ++ (List.replicate (n - a.length) 0 ++ [ta]))
             (b ++ (List.replicate (n - b.length) 0 ++ [tb])) = lexCmp a b := by
  intro a
  induction a with
  | nil =>
    intro b n ta tb _ hlb hcmp
    exact lexCmp_zeros_nil b n ta tb hlb hcmp
  | cons x xs ih =>
    intro b n ta tb hla hlb hcmp
    cases b with
    | nil =>
      simp only [List.length_nil, Nat.sub_zero, List.nil_append]
      have hgt : tb < ta := Nat.compare_eq_gt.mp
        (by rw [hcmp]; simp only [List.length_cons, List.length_nil]
            exact Nat.compare_eq_gt.mpr (by omega))
      have h0 := lexCmp_zeros_nil (x :: xs) n tb ta hla
        (by rw [Nat.compare_eq_lt.mpr hgt]
            simp only [List.length_cons]
            rw [Nat.compare_eq_lt.mpr (show 0 < xs.length + 1 by omega)])
      rw [lexCmp_swap, h0]
      rfl
    | cons y ys =>
      obtain ⟨m, rfl⟩ : ∃ m, n = m + 1 := ⟨n - 1, by simp at hla; omega⟩
      have hsa : m + 1 - (x :: xs).length = m - xs.length := by
        simp only [List.length_cons]
        omega
      have hsb : m + 1 - (y :: ys).length = m - ys.length := by
        simp only [List.length_cons]
        omega
      rw [hsa, hsb]
      show lexCmp (x :: (xs ++ (List.replicate (m - xs.length) 0 ++ [ta])))
          (y :: (ys ++ (List.replicate (m - ys.length) 0 ++ [tb]))) =
          lexCmp (x :: xs) (y :: ys)
      simp only [lexCmp]
      cases hxy : compare x y with
      | lt => rfl
      | gt => rfl
      | eq =>
        exact ih ys m ta tb (by simp at hla; omega) (by simp at hlb; omega)
          (by rw [hcmp]; simp only [List.length_cons]; exact compare_succ_succ _ _)

/-- A short padded group against the head of a longer string's group chain:
the continuation trailer is larger than any final trailer, so the
comparison again mirrors the string comparison. -/
theorem lexCmp_pad_short :
    ∀ (a b : List Nat) (n ta tb : Nat) (v : List Nat), a.length ≤ n → n < b.length →
      ta < tb →
      lexCmp (a ++ (List.replicate (n - a.length) 0 ++ [ta])) (b.take n ++ tb :: v) =
        lexCmp a b := by
  intro a
  induction a with
  | nil =>
    intro b
    induction b with
    | nil =>
      intro n ta tb v _ h2 _
      simp at h2
    | cons y ys ihb =>
      intro n ta tb v _ h2 h3
      show lexCmp (List.replicate n 0 ++ [ta]) ((y :: ys).take n ++ tb :: v) =
        Ordering.lt
      cases n with
      | zero =>
        show lexCmp [ta] (tb :: v) = Ordering.lt
        have hc : compare ta tb = Ordering.lt := Nat.compare_eq_lt.mpr h3
        simp [lexCmp, hc]
      | succ m =>
        rw [List.replicate_succ, List.take_succ_cons]
        show lexCmp (0 :: (List.replicate m 0 ++ [ta])) (y :: (ys.take m ++ tb :: v)) =
          Ordering.lt
        cases y with
        | zero =>
          simp only [lexCmp, compare_self_nat]
          have hlen : m < ys.length := by simp at h2; omega
          have := ihb m ta tb v (by simp) hlen h3
          simp only [List.nil_append, List.length_nil, Nat.sub_zero] at this
          rw [this]
          cases ys with
          | nil => simp at hlen
          | cons z zs => rfl
        | succ y' =>
          have hc : compare 0 (y' + 1) = Ordering.lt := Nat.compare_eq_lt.mpr (by omega)
          simp [lexCmp, hc]
  | cons x xs ih =>
    intro b n ta tb v hla hlb hta
    cases b with
    | nil => simp at hlb
    | cons y ys =>
      cases n with
      | zero => simp at hla
      | succ m =>
        rw [List.take_succ_cons]
        have hsub : m + 1 - (x :: xs).length = m - xs.length := by
          simp only [List.length_cons]
          omega
        rw [hsub]
        show lexCmp (x :: (xs ++ (List.replicate (m - xs.length) 0 ++ [ta])))
            (y :: (ys.take m ++ tb :: v)) = lexCmp (x :: xs) (y :: ys)
        simp only [lexCmp]
        cases hxy : compare x y with
        | lt => rfl
        | gt => rfl
        | eq =>
          exact ih ys m ta tb v (by simp at hla; omega) (by simp at hlb; omega) hta

theorem encGroups_length :
    ∀ (k : Nat) (a : List Nat), a.length ≤ k → 9 ≤ (encGroups a).length := by
  intro k
  induction k with
  | zero =>
    intro a hk
    have ha : a = [] := List.eq_nil_of_length_eq_zero (by omega)
    subst ha
    rw [encGroups]
    simp
  | succ k ih =>
    intro a hk
    rw [encGroups]
    by_cases h : a.length ≤ 8
    · rw [if_pos h]
      simp only [List.length_append, List.length_replicate, List.length_cons,
        List.length_nil]
      omega
    · rw [if_neg h]
      have := ih (a.drop 8) (by simp only [List.length_drop]; omega)
      simp only [List.length_append, List.length_cons, List.length_nil]
      omega

/-- The mixed case of the group-chain order: one group against a chain. -/
theorem lexCmp_encGroups_mixed {a b : List Nat} (ha : a.length ≤ 8)
    (hb : ¬ b.length ≤ 8) :
    lexCmp (encGroups a) (encGroups b) = lexCmp a b := by
  have hea : encGroups a = a ++ List.replicate (8 - a.length) 0 ++ [a.length] := by
    rw [encGroups, if_pos ha]
  have heb : encGroups b = b.take 8 ++ [9] ++ encGroups (b.drop 8) := by
    rw [encGroups, if_neg hb]
  rw [hea, heb]
  rw [List.append_assoc, List.append_assoc]
  exact lexCmp_pad_short a b 8 a.length 9 (encGroups (b.drop 8)) ha (by omega)
    (by omega)

/-- The §4.2 group chains compare exactly as the underlying strings do. -/
theorem lexCmp_encGroups :
    ∀ (k : Nat) (a b : List Nat), a.length + b.length ≤ k →
      lexCmp (encGroups a) (encGroups b) = lexCmp a b := by
  intro k
  induction k with
  | zero =>
    intro a b hk
    have ha : a = [] := List.eq_nil_of_length_eq_zero (by omega)
    have hb : b = [] := List.eq_nil_of_length_eq_zero (by omega)
    subst ha
    subst hb
    rw [lexCmp_self]
    rfl
  | succ k ih =>
    intro a b hk
    by_cases ha : a.length ≤ 8 <;> by_cases hb : b.length ≤ 8
    · have hea : encGroups a = a ++ List.replicate (8 - a.length) 0 ++ [a.length] := by
        rw [encGroups, if_pos ha]
      have heb : encGroups b = b ++ List.replicate (8 - b.length) 0 ++ [b.length] := by
        rw [encGroups, if_pos hb]
      rw [hea, heb]
      rw [List.append_assoc, List.append_assoc]
      exact lexCmp_padded a b 8 a.length b.length ha hb rfl
    · exact lexCmp_encGroups_mixed ha hb
    · rw [lexCmp_swap, lexCmp_encGroups_mixed hb ha, ← lexCmp_swap]
    · have hea : encGroups a = a.take 8 ++ [9] ++ encGroups (a.drop 8) := by
        rw [encGroups, if_neg ha]
      have heb : encGroups b = b.take 8 ++ [9] ++ encGroups (b.drop 8) := by
        rw [encGroups, if_neg hb]
      rw [hea, heb]
      have hta : (a.take 8).length = 8 := by
        simp only [List.length_take]
        omega
      have htb : (b.take 8).length = 8 := by
        simp only [List.length_take]
        omega
      rcases hcmp : lexCmp (a.take 8) (b.take 8) with _ | _ | _
      · have hni : ¬ initSeg (a.take 8) (b.take 8) := by
          intro hseg
          have heq8 := initSeg_of_length_eq (by rw [hta, htb]) hseg
          rw [heq8, lexCmp_self] at hcmp
          cases hcmp
        rw [List.append_assoc, List.append_assoc]
        rw [lexCmp_append_of_lt hcmp hni]
        conv_rhs => rw [← List.take_append_drop 8 a, ← List.take_append_drop 8 b]
        rw [lexCmp_append_of_lt hcmp hni]
      · have heq8 : a.take 8 = b.take 8 := lexCmp_eq_iff.mp hcmp
        rw [List.append_assoc, List.append_assoc, heq8, lexCmp_append_same,
          lexCmp_append_same,
          ih (a.drop 8) (b.drop 8) (by simp only [List.length_drop]; omega)]
        conv_rhs => rw [← List.take_append_drop 8 a, ← List.take_append_drop 8 b]
        rw [heq8, lexCmp_append_same]
      · have hni : ¬ initSeg (b.take 8) (a.take 8) := by
          intro hseg
          have heq8 := initSeg_of_length_eq (by rw [hta, htb]) hseg
          rw [heq8, lexCmp_self] at hcmp
          cases hcmp
        rw [List.append_assoc, List.append_assoc]
        rw [lexCmp_append_of_gt hcmp hni]
        conv_rhs => rw [← List.take_append_drop 8 a, ← List.take_append_drop 8 b]
        rw [lexCmp_append_of_gt hcmp hni]

/-- The full byte-string encoding preserves lexicographic order. -/
theorem lexCmp_encBytes (a b : List Nat) :
    lexCmp (encBytes a) (encBytes b) = lexCmp a b := by
  rw [encBytes, encBytes]
  cases a with
  | nil =>
    cases b with
    | nil =>
      rw [if_pos rfl, lexCmp_self]
      rfl
    | cons y ys =>
      rw [if_pos rfl, if_neg (by simp)]
      have hc : compare 0 1 = Ordering.lt := by decide
      simp [lexCmp, hc]
  | cons x xs =>
    cases b with
    | nil =>
      rw [if_neg (by simp), if_pos rfl]
      have hc : compare 1 0 = Ordering.gt := by decide
      simp [lexCmp, hc]
    | cons y ys =>
      rw [if_neg (by simp), if_neg (by simp)]
      rw [show (1 : Nat) :: encGroups (x :: xs) = [1] ++ encGroups (x :: xs) from rfl,
        show (1 : Nat) :: encGroups (y :: ys) = [1] ++ encGroups (y :: ys) from rfl,
        lexCmp_append_same]
      exact lexCmp_encGroups ((x :: xs).length + (y :: ys).length) _ _ le_rfl

/-- The group chains are prefix-free: one chain is an initial segment of
another only when they are equal. -/
theorem encGroups_initSeg :
    ∀ (k : Nat) (a b : List Nat), a.length + b.length ≤ k →
      initSeg (encGroups a) (encGroups b) → encGroups a = encGroups b := by
  intro k
  induction k with
  | zero =>
    intro a b hk _
    have ha : a = [] := List.eq_nil_of_length_eq_zero (by omega)
    have hb : b = [] := List.eq_nil_of_length_eq_zero (by omega)
    subst ha
    subst hb
    rfl
  | succ k ih =>
    intro a b hk h
    by_cases ha : a.length ≤ 8 <;> by_cases hb : b.length ≤ 8
    · refine initSeg_of_length_eq ?_ h
      have hea : encGroups a = a ++ List.replicate (8 - a.length) 0 ++ [a.length] := by
        rw [encGroups, if_pos ha]
      have heb : encGroups b = b ++ List.replicate (8 - b.length) 0 ++ [b.length] := by
        rw [encGroups, if_pos hb]
      rw [hea, heb]
      simp only [List.length_append, List.length_replicate, List.length_cons,
        List.length_nil]
      omega
    · exfalso
      obtain ⟨c, hc⟩ := h
      have hea : encGroups a = a ++ List.replicate (8 - a.length) 0 ++ [a.length] := by
        rw [encGroups, if_pos ha]
      have heb : encGroups b = b.take 8 ++ [9] ++ encGroups (b.drop 8) := by
        rw [encGroups, if_neg hb]
      rw [hea, heb] at hc
      have h1 : ((a ++ List.replicate (8 - a.length) 0 ++ [a.length]) ++ c).getD 8 0 =
          a.length := by
        rw [List.getD_append _ _ _ _ (by simp only [List.length_append,
          List.length_replicate, List.length_cons, List.length_nil]; omega)]
        exact getD_snoc_idx (by simp only [List.length_append, List.length_replicate]
                                omega)
      have h2 : (b.take 8 ++ [9] ++ encGroups (b.drop 8)).getD 8 0 = 9 := by
        rw [List.getD_append _ _ _ _ (by simp only [List.length_append,
          List.length_take, List.length_cons, List.length_nil]; omega)]
        exact getD_snoc_idx (by simp only [List.length_take]; omega)
      rw [hc, h2] at h1
      omega
    · exfalso
      obtain ⟨c, hc⟩ := h
      have hea : encGroups a = a.take 8 ++ [9] ++ encGroups (a.drop 8) := by
        rw [encGroups, if_neg ha]
      have heb : encGroups b = b ++ List.replicate (8 - b.length) 0 ++ [b.length] := by
        rw [encGroups, if_pos hb]
      have hlen := congrArg List.length hc
      rw [hea, heb] at hlen
      have h9 := encGroups_length (a.drop 8).length (a.drop 8) le_rfl
      simp only [List.length_append, List.length_take, List.length_replicate,
        List.length_cons, List.length_nil] at hlen
      omega
    · obtain ⟨c, hc⟩ := h
      have hea : encGroups a = a.take 8 ++ [9] ++ encGroups (a.drop 8) := by
        rw [encGroups, if_neg ha]
      have heb : encGroups b = b.take 8 ++ [9] ++ encGroups (b.drop 8) := by
        rw [encGroups, if_neg hb]
      rw [hea, heb] at hc ⊢
      have hc' : (a.take 8 ++ [9]) ++ (encGroups (a.drop 8) ++ c) =
          (b.take 8 ++ [9]) ++ encGroups (b.drop 8) := by
        rw [← List.append_assoc]
        exact hc
      have hlen : (a.take 8 ++ [9]).length = (b.take 8 ++ [9]).length := by
        simp only [List.length_append, List.length_take, List.length_cons,
          List.length_nil]
        omega
      obtain ⟨hpre, hsuf⟩ := List.append_inj hc' hlen
      have htail := ih (a.drop 8) (b.drop 8) (by simp only [List.length_drop]; omega)
        ⟨c, hsuf⟩
      rw [hpre, htail]

/-- The byte-string encoding is prefix-free. -/
theorem encBytes_initSeg {a b : List Nat} (h : initSeg (encBytes a) (encBytes b)) :
    encBytes a = encBytes b := by
  unfold encBytes at h ⊢
  by_cases ha : a = []
  · by_cases hb : b = []
    · rw [if_pos ha, if_pos hb]
    · exfalso
      rw [if_pos ha, if_neg hb] at h
      obtain ⟨c, hc⟩ := h
      injection hc with h1 _
      exact absurd h1 (by decide)
  · by_cases hb : b = []
    · exfalso
      rw [if_neg ha, if_pos hb] at h
      obtain ⟨c, hc⟩ := h
      injection hc with h1 _
      exact absurd h1 (by decide)
    · rw [if_neg ha, if_neg hb] at h ⊢
      obtain ⟨c, hc⟩ := h
      injection hc with _ h2
      rw [encGroups_initSeg (a.length + b.length) a b le_rfl ⟨c, h2⟩]

/-! ## Claim C1, part 2: the float transform is order-preserving.

`fmt.mag` is the IEEE-754 magnitude of a sign-cleared pattern; it is
strictly monotone in the pattern, which makes the `sign-bit set / full
complement` transform of `serialize_f32/f64` order-preserving on finite
normalized patterns. -/

theorem two_zpow_pos (m : Int) : (0:ℚ) < 2 ^ m := by positivity

theorem pow_w_split (fmt : FloatFmt) : (2:Nat) ^ fmt.w = 2 ^ (fmt.w - 1) * 2 := by
  have h : fmt.w - 1 + 1 = fmt.w := by
    rw [FloatFmt.w]
    omega
  have h2 := pow_succ (2:Nat) (fmt.w - 1)
  rw [h] at h2
  exact h2

theorem mag_nonneg (fmt : FloatFmt) (u : Nat) : 0 ≤ fmt.mag u := by
  rw [FloatFmt.mag]
  by_cases h : u / 2 ^ fmt.mb = 0
  · rw [if_pos h]
    positivity
  · rw [if_neg h]
    positivity

theorem mag_pos {fmt : FloatFmt} {u : Nat} (hu : u ≠ 0) : 0 < fmt.mag u := by
  have hbpos : 0 < 2 ^ fmt.mb := Nat.pos_pow_of_pos _ (by omega)
  rw [FloatFmt.mag]
  by_cases h : u / 2 ^ fmt.mb = 0
  · rw [if_pos h]
    have hub : u < 2 ^ fmt.mb := by
      by_contra hge
      push_neg at hge
      have := Nat.div_pos hge hbpos
      omega
    have hm : u % 2 ^ fmt.mb ≠ 0 := by
      rw [Nat.mod_eq_of_lt hub]
      exact hu
    have h1 : (0:ℚ) < ((u % 2 ^ fmt.mb : Nat) : ℚ) := by
      exact_mod_cast Nat.pos_of_ne_zero hm
    exact mul_pos h1 (two_zpow_pos _)
  · rw [if_neg h]
    have h2 : (0:ℚ) < (2:ℚ) ^ fmt.mb := by positivity
    have h3 : (0:ℚ) ≤ ((u % 2 ^ fmt.mb : Nat) : ℚ) := by positivity
    exact mul_pos (by linarith) (two_zpow_pos _)

/-- Strict monotonicity of the magnitude in the sign-cleared pattern. -/
theorem mag_lt_mag {fmt : FloatFmt} {u v : Nat} (huv : u < v) :
    fmt.mag u < fmt.mag v := by
  have hbpos : 0 < 2 ^ fmt.mb := Nat.pos_pow_of_pos _ (by omega)
  have hdu := Nat.div_add_mod u (2 ^ fmt.mb)
  have hdv := Nat.div_add_mod v (2 ^ fmt.mb)
  have hmu : u % 2 ^ fmt.mb < 2 ^ fmt.mb := Nat.mod_lt _ hbpos
  have hmv : v % 2 ^ fmt.mb < 2 ^ fmt.mb := Nat.mod_lt _ hbpos
  have hde : u / 2 ^ fmt.mb ≤ v / 2 ^ fmt.mb := Nat.div_le_div_right (le_of_lt huv)
  have hcastm : ((u % 2 ^ fmt.mb : Nat) : ℚ) < (2:ℚ) ^ fmt.mb := by exact_mod_cast hmu
  have hq0 : (2:ℚ) ≠ 0 := by norm_num
  rw [FloatFmt.mag, FloatFmt.mag]
  rcases eq_or_lt_of_le hde with heq | hlt
  · have hprod : 2 ^ fmt.mb * (u / 2 ^ fmt.mb) = 2 ^ fmt.mb * (v / 2 ^ fmt.mb) := by
      rw [heq]
    have hm : u % 2 ^ fmt.mb < v % 2 ^ fmt.mb := by omega
    have hmQ : ((u % 2 ^ fmt.mb : Nat) : ℚ) < ((v % 2 ^ fmt.mb : Nat) : ℚ) := by
      exact_mod_cast hm
    rw [← heq]
    by_cases he : u / 2 ^ fmt.mb = 0
    · rw [if_pos he, if_pos he]
      exact mul_lt_mul_of_pos_right hmQ (two_zpow_pos _)
    · rw [if_neg he, if_neg he]
      exact mul_lt_mul_of_pos_right (by linarith) (two_zpow_pos _)
  · rw [if_neg (show ¬ v / 2 ^ fmt.mb = 0 from fun h0 => Nat.not_lt_zero _ (h0 ▸ hlt))]
    have hmidlow :
        (2:ℚ) ^ (((u / 2 ^ fmt.mb : Nat) : Int) + 1 - fmt.bias) ≤
          ((2:ℚ) ^ fmt.mb + ((v % 2 ^ fmt.mb : Nat) : ℚ)) *
            (2:ℚ) ^ (((v / 2 ^ fmt.mb : Nat) : Int) - fmt.bias - fmt.mb) := by
      have hltI : ((u / 2 ^ fmt.mb : Nat) : Int) < ((v / 2 ^ fmt.mb : Nat) : Int) := by
        exact_mod_cast hlt
      have hstep1 : (2:ℚ) ^ (((u / 2 ^ fmt.mb : Nat) : Int) + 1 - fmt.bias) ≤
          (2:ℚ) ^ (((v / 2 ^ fmt.mb : Nat) : Int) - fmt.bias) :=
        zpow_le_zpow_right₀ (by norm_num) (by linarith)
      have hstep2 : (2:ℚ) ^ (((v / 2 ^ fmt.mb : Nat) : Int) - fmt.bias) =
          (2:ℚ) ^ fmt.mb *
            (2:ℚ) ^ (((v / 2 ^ fmt.mb : Nat) : Int) - fmt.bias - fmt.mb) := by
        rw [← zpow_natCast (2:ℚ) fmt.mb, ← zpow_add₀ hq0]
        congr 1
        omega
      have hx : (0:ℚ) ≤ ((v % 2 ^ fmt.mb : Nat) : ℚ) := by positivity
      have hz := two_zpow_pos (((v / 2 ^ fmt.mb : Nat) : Int) - fmt.bias - fmt.mb)
      have hstep3 : (2:ℚ) ^ fmt.mb *
            (2:ℚ) ^ (((v / 2 ^ fmt.mb : Nat) : Int) - fmt.bias - fmt.mb) ≤
          ((2:ℚ) ^ fmt.mb + ((v % 2 ^ fmt.mb : Nat) : ℚ)) *
            (2:ℚ) ^ (((v / 2 ^ fmt.mb : Nat) : Int) - fmt.bias - fmt.mb) := by
        nlinarith
      calc (2:ℚ) ^ (((u / 2 ^ fmt.mb : Nat) : Int) + 1 - fmt.bias) ≤ _ := hstep1
        _ = _ := hstep2
        _ ≤ _ := hstep3
    by_cases he : u / 2 ^ fmt.mb = 0
    · rw [if_pos he]
      have hup : ((u % 2 ^ fmt.mb : Nat) : ℚ) * (2:ℚ) ^ ((1:Int) - fmt.bias - fmt.mb) <
          (2:ℚ) ^ (((u / 2 ^ fmt.mb : Nat) : Int) + 1 - fmt.bias) := by
        rw [he]
        have h1 : ((u % 2 ^ fmt.mb : Nat) : ℚ) * (2:ℚ) ^ ((1:Int) - fmt.bias - fmt.mb) <
            (2:ℚ) ^ fmt.mb * (2:ℚ) ^ ((1:Int) - fmt.bias - fmt.mb) :=
          mul_lt_mul_of_pos_right hcastm (two_zpow_pos _)
        have h2 : (2:ℚ) ^ fmt.mb * (2:ℚ) ^ ((1:Int) - fmt.bias - fmt.mb) =
            (2:ℚ) ^ (((0:Nat) : Int) + 1 - fmt.bias) := by
          rw [← zpow_natCast (2:ℚ) fmt.mb, ← zpow_add₀ hq0]
          congr 1
          push_cast
          omega
        calc ((u % 2 ^ fmt.mb : Nat) : ℚ) * (2:ℚ) ^ ((1:Int) - fmt.bias - fmt.mb)
            < _ := h1
          _ = _ := h2
      linarith
    · rw [if_neg he]
      have hup : ((2:ℚ) ^ fmt.mb + ((u % 2 ^ fmt.mb : Nat) : ℚ)) *
          (2:ℚ) ^ (((u / 2 ^ fmt.mb : Nat) : Int) - fmt.bias - fmt.mb) <
          (2:ℚ) ^ (((u / 2 ^ fmt.mb : Nat) : Int) + 1 - fmt.bias) := by
        have h1 : ((2:ℚ) ^ fmt.mb + ((u % 2 ^ fmt.mb : Nat) : ℚ)) <
            (2:ℚ) ^ fmt.mb + (2:ℚ) ^ fmt.mb := by linarith
        have h2 : ((2:ℚ) ^ fmt.mb + ((u % 2 ^ fmt.mb : Nat) : ℚ)) *
            (2:ℚ) ^ (((u / 2 ^ fmt.mb : Nat) : Int) - fmt.bias - fmt.mb) <
            ((2:ℚ) ^ fmt.mb + (2:ℚ) ^ fmt.mb) *
            (2:ℚ) ^ (((u / 2 ^ fmt.mb : Nat) : Int) - fmt.bias - fmt.mb) :=
          mul_lt_mul_of_pos_right h1 (two_zpow_pos _)
        have h4 : (2:ℚ) ^ fmt.mb + (2:ℚ) ^ fmt.mb = (2:ℚ) ^ ((fmt.mb : Int) + 1) := by
          rw [show ((fmt.mb : Int) + 1) = ((fmt.mb + 1 : Nat) : Int) by push_cast; ring,
            zpow_natCast, pow_succ]
          ring
        have h3 : ((2:ℚ) ^ fmt.mb + (2:ℚ) ^ fmt.mb) *
            (2:ℚ) ^ (((u / 2 ^ fmt.mb : Nat) : Int) - fmt.bias - fmt.mb) =
            (2:ℚ) ^ (((u / 2 ^ fmt.mb : Nat) : Int) + 1 - fmt.bias) := by
          rw [h4, ← zpow_add₀ hq0]
          congr 1
          omega
        calc ((2:ℚ) ^ fmt.mb + ((u % 2 ^ fmt.mb : Nat) : ℚ)) *
            (2:ℚ) ^ (((u / 2 ^ fmt.mb : Nat) : Int) - fmt.bias - fmt.mb) < _ := h2
          _ = _ := h3
      linarith

/-- The value of a sign-clear pattern is its magnitude. -/
theorem fVal_of_pos {fmt : FloatFmt} {p : Nat} (hp : p < 2 ^ (fmt.mb + fmt.eb)) :
    fmt.fVal p = fmt.mag p := by
  have hbpos : 0 < 2 ^ fmt.mb := Nat.pos_pow_of_pos _ (by omega)
  have hdiv : p / 2 ^ fmt.mb < 2 ^ fmt.eb := by
    rw [Nat.div_lt_iff_lt_mul hbpos]
    calc p < 2 ^ (fmt.mb + fmt.eb) := hp
      _ = 2 ^ fmt.eb * 2 ^ fmt.mb := by rw [pow_add, Nat.mul_comm]
  rw [FloatFmt.fVal, FloatFmt.mag, FloatFmt.expF, FloatFmt.manF]
  rw [Nat.mod_eq_of_lt hdiv, if_neg (by omega), one_mul]

/-- The value of a sign-set pattern is the negated magnitude of its
sign-cleared counterpart. -/
theorem fVal_of_neg {fmt : FloatFmt} {p : Nat} (h1 : 2 ^ (fmt.mb + fmt.eb) ≤ p)
    (h2 : p < 2 ^ (fmt.mb + fmt.eb + 1)) :
    fmt.fVal p = -fmt.mag (p - 2 ^ (fmt.mb + fmt.eb)) := by
  have hbpos : 0 < 2 ^ fmt.mb := Nat.pos_pow_of_pos _ (by omega)
  have hpow1 : (2:Nat) ^ (fmt.mb + fmt.eb) = 2 ^ fmt.mb * 2 ^ fmt.eb := pow_add 2 _ _
  have hpow2 : (2:Nat) ^ (fmt.mb + fmt.eb + 1) = 2 ^ (fmt.mb + fmt.eb) * 2 :=
    pow_succ 2 _
  have hu : p - 2 ^ (fmt.mb + fmt.eb) < 2 ^ (fmt.mb + fmt.eb) := by omega
  have hsplit : p = 2 ^ fmt.mb * 2 ^ fmt.eb + (p - 2 ^ (fmt.mb + fmt.eb)) := by omega
  have hexp : fmt.expF p = (p - 2 ^ (fmt.mb + fmt.eb)) / 2 ^ fmt.mb := by
    rw [FloatFmt.expF]
    conv_lhs => rw [hsplit]
    rw [Nat.mul_add_div hbpos, Nat.add_mod_left]
    exact Nat.mod_eq_of_lt (by
      rw [Nat.div_lt_iff_lt_mul hbpos]
      calc p - 2 ^ (fmt.mb + fmt.eb) < 2 ^ (fmt.mb + fmt.eb) := hu
        _ = 2 ^ fmt.eb * 2 ^ fmt.mb := by rw [pow_add, Nat.mul_comm])
  have hman : fmt.manF p = (p - 2 ^ (fmt.mb + fmt.eb)) % 2 ^ fmt.mb := by
    rw [FloatFmt.manF]
    conv_lhs => rw [hsplit]
    exact Nat.mul_add_mod _ _ _
  rw [FloatFmt.fVal, FloatFmt.mag, hexp, hman, if_pos h1, neg_one_mul]

/-- A pattern with zero exponent and mantissa fields has value `0`. -/
theorem fVal_zeroP {fmt : FloatFmt} {p : Nat} (hz : fmt.isZeroP p) : fmt.fVal p = 0 := by
  obtain ⟨he, hm⟩ := hz
  rw [FloatFmt.fVal, he, hm]
  simp

theorem isZeroP_two_pow (fmt : FloatFmt) : fmt.isZeroP (2 ^ (fmt.mb + fmt.eb)) := by
  have hbpos : 0 < (2:Nat) ^ fmt.mb := Nat.pos_pow_of_pos _ (by omega)
  constructor
  · rw [FloatFmt.expF, pow_add, Nat.mul_div_cancel_left _ hbpos, Nat.mod_self]
  · rw [FloatFmt.manF, pow_add, Nat.mul_mod_right]

/-- Normalization keeps a finite pattern in range, never produces the
negative-zero pattern, and preserves the value. -/
theorem normalize_props {fmt : FloatFmt} {p : Nat} (hw : p < 2 ^ fmt.w)
    (hf : fmt.isFiniteP p) :
    fmt.normalize p < 2 ^ fmt.w ∧ fmt.normalize p ≠ 2 ^ (fmt.mb + fmt.eb) ∧
      fmt.fVal (fmt.normalize p) = fmt.fVal p := by
  have hnn : ¬ fmt.isNanP p := fun hnan => hf hnan.1
  rw [FloatFmt.normalize, if_neg hnn]
  by_cases hz : fmt.isZeroP p
  · rw [if_pos hz]
    have hCpos : 0 < (2:Nat) ^ (fmt.mb + fmt.eb) := Nat.pos_pow_of_pos _ (by omega)
    have hwpos : 0 < (2:Nat) ^ fmt.w := Nat.pos_pow_of_pos _ (by omega)
    refine ⟨hwpos, by omega, ?_⟩
    rw [fVal_zeroP hz, fVal_zeroP ⟨by simp [FloatFmt.expF], by simp [FloatFmt.manF]⟩]
  · rw [if_neg hz]
    refine ⟨hw, ?_, rfl⟩
    intro hEq
    exact hz (by rw [hEq]; exact isZeroP_two_pow fmt)

/-- The core order correspondence of the float transform, on normalized
patterns. -/
theorem fenc_core_compare {fmt : FloatFmt} {a b : Nat}
    (ha : a < 2 ^ fmt.w) (hb : b < 2 ^ fmt.w)
    (hac : a ≠ 2 ^ (fmt.mb + fmt.eb)) (hbc : b ≠ 2 ^ (fmt.mb + fmt.eb)) :
    compare (if a < 2 ^ (fmt.w - 1) then a ||| 2 ^ (fmt.w - 1) else 2 ^ fmt.w - 1 - a)
      (if b < 2 ^ (fmt.w - 1) then b ||| 2 ^ (fmt.w - 1) else 2 ^ fmt.w - 1 - b) =
      cmpQ (fmt.fVal a) (fmt.fVal b) := by
  have hw1 : fmt.w - 1 = fmt.mb + fmt.eb := by
    rw [FloatFmt.w]
    omega
  have hww : fmt.mb + fmt.eb + 1 = fmt.w := by
    rw [FloatFmt.w]
  have hpow := pow_w_split fmt
  have hCb : (2:Nat) ^ (fmt.mb + fmt.eb) = 2 ^ (fmt.w - 1) := by rw [hw1]
  have hCpos : 0 < (2:Nat) ^ (fmt.w - 1) := Nat.pos_pow_of_pos _ (by omega)
  by_cases hA : a < 2 ^ (fmt.w - 1) <;> by_cases hB : b < 2 ^ (fmt.w - 1)
  · rw [if_pos hA, if_pos hB, lor_two_pow_add hA, lor_two_pow_add hB,
      compare_add_right, fVal_of_pos (by omega), fVal_of_pos (by omega)]
    rcases Nat.lt_trichotomy a b with h | h | h
    · rw [Nat.compare_eq_lt.mpr h, cmpQ, if_pos (mag_lt_mag h)]
    · subst h
      rw [compare_self_nat, cmpQ, if_neg (lt_irrefl _), if_neg (lt_irrefl _)]
    · have hm := @mag_lt_mag fmt b a h
      rw [Nat.compare_eq_gt.mpr h, cmpQ, if_neg (not_lt.mpr (by linarith)),
        if_pos hm]
  · rw [if_pos hA, if_neg hB, lor_two_pow_add hA]
    have hbgt : 2 ^ (fmt.w - 1) < b := by omega
    rw [Nat.compare_eq_gt.mpr (by omega), fVal_of_pos (by omega),
      fVal_of_neg (by omega) (by rw [hww]; exact hb)]
    have hbne : b - 2 ^ (fmt.mb + fmt.eb) ≠ 0 := by omega
    have hposb := @mag_pos fmt _ hbne
    have hnna := mag_nonneg fmt a
    rw [cmpQ, if_neg (not_lt.mpr (by linarith)), if_pos (by linarith)]
  · rw [if_neg hA, if_pos hB, lor_two_pow_add hB]
    have hagt : 2 ^ (fmt.w - 1) < a := by omega
    rw [Nat.compare_eq_lt.mpr (by omega), fVal_of_neg (by omega)
      (by rw [hww]; exact ha), fVal_of_pos (by omega)]
    have hane : a - 2 ^ (fmt.mb + fmt.eb) ≠ 0 := by omega
    have hposa := @mag_pos fmt _ hane
    have hnnb := mag_nonneg fmt b
    rw [cmpQ, if_pos (by linarith)]
  · rw [if_neg hA, if_neg hB]
    have hagt : 2 ^ (fmt.w - 1) < a := by omega
    have hbgt : 2 ^ (fmt.w - 1) < b := by omega
    rw [fVal_of_neg (by omega) (by rw [hww]; exact ha),
      fVal_of_neg (by omega) (by rw [hww]; exact hb)]
    rcases Nat.lt_trichotomy a b with h | h | h
    · have hm := @mag_lt_mag fmt (a - 2 ^ (fmt.mb + fmt.eb)) (b - 2 ^ (fmt.mb + fmt.eb))
        (by omega)
      rw [Nat.compare_eq_gt.mpr (by omega), cmpQ,
        if_neg (not_lt.mpr (by linarith)), if_pos (by linarith)]
    · subst h
      rw [compare_self_nat, cmpQ, if_neg (lt_irrefl _), if_neg (lt_irrefl _)]
    · have hm := @mag_lt_mag fmt (b - 2 ^ (fmt.mb + fmt.eb)) (a - 2 ^ (fmt.mb + fmt.eb))
        (by omega)
      rw [Nat.compare_eq_lt.mpr (by omega), cmpQ, if_pos (by linarith)]

/-- The float transform is order-preserving on in-range finite patterns. -/
theorem fenc_compare {fmt : FloatFmt} {p q : Nat} (hp : p < 2 ^ fmt.w)
    (hq : q < 2 ^ fmt.w) (hfp : fmt.isFiniteP p) (hfq : fmt.isFiniteP q) :
    compare (fmt.fenc p) (fmt.fenc q) = cmpQ (fmt.fVal p) (fmt.fVal q) := by
  obtain ⟨hp1, hp2, hp3⟩ := normalize_props hp hfp
  obtain ⟨hq1, hq2, hq3⟩ := normalize_props hq hfq
  simp only [FloatFmt.fenc]
  rw [← hp3, ← hq3]
  exact fenc_core_compare hp1 hq1 hp2 hq2

theorem fenc_lt {fmt : FloatFmt} {p : Nat} (hnp : fmt.normalize p < 2 ^ fmt.w) :
    fmt.fenc p < 2 ^ fmt.w := by
  have hpow := pow_w_split fmt
  simp only [FloatFmt.fenc]
  by_cases h : fmt.normalize p < 2 ^ (fmt.w - 1)
  · rw [if_pos h, lor_two_pow_add h]
    omega
  · rw [if_neg h]
    omega

/-! ## Claim C1, part 3: per-field correspondence and tuple composition -/

theorem compare_toNat_shift {x y c : Int} (hx : 0 ≤ x + c) (hy : 0 ≤ y + c) :
    compare (x + c).toNat (y + c).toNat = compare x y := by
  rcases lt_trichotomy x y with h | h | h
  · rw [compare_lt_iff_lt.mpr h, Nat.compare_eq_lt.mpr (by omega)]
  · subst h
    rw [compare_self_nat, compare_eq_iff_eq.mpr rfl]
  · rw [compare_gt_iff_gt.mpr h, Nat.compare_eq_gt.mpr (by omega)]

/-- The two's-complement-with-flipped-sign-bit pattern of `serialize_iN` is
the order-preserving offset map `v + 2^(8n-1)`. -/
theorem sint_pattern {n : Nat} (hn : 1 ≤ n) {v : Int}
    (hlo : -(2 ^ (8 * n - 1) : Int) ≤ v) (hhi : v < 2 ^ (8 * n - 1)) :
    (v.emod (2 ^ (8 * n))).toNat ^^^ 2 ^ (8 * n - 1) = (v + 2 ^ (8 * n - 1)).toNat := by
  have hsplit : 8 * n = (8 * n - 1) + 1 := by omega
  have hpowI : (2 : Int) ^ (8 * n) = 2 ^ (8 * n - 1) * 2 := by
    have h := pow_succ (2 : Int) (8 * n - 1)
    rw [← hsplit] at h
    exact h
  have hpowN : (2 : Nat) ^ (8 * n) = 2 ^ (8 * n - 1) * 2 := by
    have h := pow_succ (2 : Nat) (8 * n - 1)
    rw [← hsplit] at h
    exact h
  have hcast : ((2 ^ (8 * n - 1) : Nat) : Int) = (2 : Int) ^ (8 * n - 1) := by
    push_cast
    rfl
  have hcast2 : ((2 ^ (8 * n) : Nat) : Int) = (2 : Int) ^ (8 * n) := by
    push_cast
    rfl
  by_cases h0 : 0 ≤ v
  · have hemod : v.emod (2 ^ (8 * n)) = v := Int.emod_eq_of_lt h0 (by omega)
    rw [hemod]
    have hlt : v.toNat < 2 ^ (8 * n - 1) := by omega
    rw [xor_two_pow_add hlt]
    omega
  · have hemod : v.emod (2 ^ (8 * n)) = v + 2 ^ (8 * n) := by
      have h1 : (v + 2 ^ (8 * n)).emod (2 ^ (8 * n)) = v.emod (2 ^ (8 * n)) := by
        have h2 := Int.add_mul_emod_self_left v ((2 : Int) ^ (8 * n)) 1
        rw [mul_one] at h2
        exact h2
      rw [← h1]
      exact Int.emod_eq_of_lt (by omega) (by omega)
    rw [hemod]
    have hge : 2 ^ (8 * n - 1) ≤ (v + 2 ^ (8 * n)).toNat := by omega
    have hlt2 : (v + 2 ^ (8 * n)).toNat < 2 ^ ((8 * n - 1) + 1) := by
      rw [← hsplit]
      omega
    rw [xor_two_pow_sub hge hlt2]
    omega

theorem sameShape_symm {x y : Field} (h : Field.sameShape x y) :
    Field.sameShape y x := by
  cases x <;> cases y <;> simp_all [Field.sameShape]

/-- Per-field order correspondence: the encoding of one field compares
exactly as the field values do. -/
theorem encodeField_cmp {x y : Field} (hs : Field.sameShape x y)
    (hx : x.valid) (hy : y.valid) :
    lexCmp (encodeField x) (encodeField y) = Field.cmp x y := by
  cases x with
  | uint n v =>
    cases y with
    | uint n' v' =>
      have hnn : n = n' := hs
      subst hnn
      obtain ⟨hn, hv⟩ := hx
      obtain ⟨-, hv'⟩ := hy
      show lexCmp (toBE n (v % 256 ^ n)) (toBE n (v' % 256 ^ n)) = compare v v'
      rw [Nat.mod_eq_of_lt (by rw [pow256_eq]; exact hv),
        Nat.mod_eq_of_lt (by rw [pow256_eq]; exact hv')]
      exact lexCmp_toBE (by rw [pow256_eq]; exact hv) (by rw [pow256_eq]; exact hv')
    | sint n' v' => exact hs.elim
    | flt fmt' q => exact hs.elim
    | bytes w' => exact hs.elim
  | sint n v =>
    cases y with
    | uint n' v' => exact hs.elim
    | sint n' v' =>
      have hnn : n = n' := hs
      subst hnn
      obtain ⟨hn, hlo, hhi⟩ := hx
      obtain ⟨-, hlo', hhi'⟩ := hy
      have h1 := sint_pattern hn hlo hhi
      have h2 := sint_pattern hn hlo' hhi'
      have hsplit : 8 * n = (8 * n - 1) + 1 := by omega
      have hpowN : (2 : Nat) ^ (8 * n) = 2 ^ (8 * n - 1) * 2 := by
        have h3 := pow_succ (2 : Nat) (8 * n - 1)
        rw [← hsplit] at h3
        exact h3
      have hpowI : (2 : Int) ^ (8 * n) = 2 ^ (8 * n - 1) * 2 := by
        have h3 := pow_succ (2 : Int) (8 * n - 1)
        rw [← hsplit] at h3
        exact h3
      have hcast : ((2 ^ (8 * n - 1) : Nat) : Int) = (2 : Int) ^ (8 * n - 1) := by
        push_cast
        rfl
      have hb1 : (v + 2 ^ (8 * n - 1) : Int).toNat < 2 ^ (8 * n) := by omega
      have hb2 : (v' + 2 ^ (8 * n - 1) : Int).toNat < 2 ^ (8 * n) := by omega
      show lexCmp
          (toBE n (((v.emod (2 ^ (8 * n))).toNat ^^^ 2 ^ (8 * n - 1)) % 256 ^ n))
          (toBE n (((v'.emod (2 ^ (8 * n))).toNat ^^^ 2 ^ (8 * n - 1)) % 256 ^ n)) =
          compare v v'
      rw [h1, h2, Nat.mod_eq_of_lt (by rw [pow256_eq]; exact hb1),
        Nat.mod_eq_of_lt (by rw [pow256_eq]; exact hb2),
        lexCmp_toBE (by rw [pow256_eq]; exact hb1) (by rw [pow256_eq]; exact hb2)]
      exact compare_toNat_shift (by omega) (by omega)
    | flt fmt' q => exact hs.elim
    | bytes w' => exact hs.elim
  | flt fmt p =>
    cases y with
    | uint n' v' => exact hs.elim
    | sint n' v' => exact hs.elim
    | flt fmt' q =>
      have hff : fmt = fmt' := hs
      subst hff
      obtain ⟨hfmt, hp, hfp⟩ := hx
      obtain ⟨-, hq, hfq⟩ := hy
      have hdiv : 8 * (fmt.w / 8) = fmt.w := by
        rcases hfmt with h | h <;> subst h <;> decide
      have h256 : (256 : Nat) ^ (fmt.w / 8) = 2 ^ fmt.w := by rw [pow256_eq, hdiv]
      have hb1 : fmt.fenc p < 2 ^ fmt.w := fenc_lt (normalize_props hp hfp).1
      have hb2 : fmt.fenc q < 2 ^ fmt.w := fenc_lt (normalize_props hq hfq).1
      show lexCmp (toBE (fmt.w / 8) (fmt.fenc p % 256 ^ (fmt.w / 8)))
          (toBE (fmt.w / 8) (fmt.fenc q % 256 ^ (fmt.w / 8))) =
          cmpQ (fmt.fVal p) (fmt.fVal q)
      rw [Nat.mod_eq_of_lt (by rw [h256]; exact hb1),
        Nat.mod_eq_of_lt (by rw [h256]; exact hb2),
        lexCmp_toBE (by rw [h256]; exact hb1) (by rw [h256]; exact hb2)]
      exact fenc_compare hp hq hfp hfq
    | bytes w' => exact hs.elim
  | bytes w =>
    cases y with
    | uint n' v' => exact hs.elim
    | sint n' v' => exact hs.elim
    | flt fmt' q => exact hs.elim
    | bytes w' =>
      show lexCmp ((serialize_bytes ⟨[], false⟩ w).output)
          ((serialize_bytes ⟨[], false⟩ w').output) = lexCmp w w'
      rw [serialize_bytes_false [] hx, serialize_bytes_false [] hy]
      show lexCmp (encBytes w) (encBytes w') = lexCmp w w'
      exact lexCmp_encBytes w w'

/-- Per-field prefix-freeness of the encodings. -/
theorem encodeField_initSeg {x y : Field} (hs : Field.sameShape x y)
    (hx : x.valid) (hy : y.valid)
    (h : initSeg (encodeField x) (encodeField y)) : encodeField x = encodeField y := by
  cases x with
  | uint n v =>
    cases y with
    | uint n' v' =>
      have hnn : n = n' := hs
      subst hnn
      refine initSeg_of_length_eq ?_ h
      show (toBE n _).length = (toBE n _).length
      rw [toBE_length, toBE_length]
    | sint n' v' => exact hs.elim
    | flt fmt' q => exact hs.elim
    | bytes w' => exact hs.elim
  | sint n v =>
    cases y with
    | uint n' v' => exact hs.elim
    | sint n' v' =>
      have hnn : n = n' := hs
      subst hnn
      refine initSeg_of_length_eq ?_ h
      show (toBE n _).length = (toBE n _).length
      rw [toBE_length, toBE_length]
    | flt fmt' q => exact hs.elim
    | bytes w' => exact hs.elim
  | flt fmt p =>
    cases y with
    | uint n' v' => exact hs.elim
    | sint n' v' => exact hs.elim
    | flt fmt' q =>
      have hff : fmt = fmt' := hs
      subst hff
      refine initSeg_of_length_eq ?_ h
      show (toBE (fmt.w / 8) _).length = (toBE (fmt.w / 8) _).length
      rw [toBE_length, toBE_length]
    | bytes w' => exact hs.elim
  | bytes w =>
    cases y with
    | uint n' v' => exact hs.elim
    | sint n' v' => exact hs.elim
    | flt fmt' q => exact hs.elim
    | bytes w' =>
      have e1 : encodeField (Field.bytes w) = encBytes w := by
        show (serialize_bytes ⟨[], false⟩ w).output = encBytes w
        rw [serialize_bytes_false [] hx]
        rfl
      have e2 : encodeField (Field.bytes w') = encBytes w' := by
        show (serialize_bytes ⟨[], false⟩ w').output = encBytes w'
        rw [serialize_bytes_false [] hy]
        rfl
      rw [e1, e2] at h ⊢
      exact encBytes_initSeg h

theorem serializeField_false (x : Field) (hx : x.valid) (out : List Nat) :
    serializeField ⟨out, false⟩ x = ⟨out ++ encodeField x, false⟩ := by
  cases x with
  | uint n v => rfl
  | sint n v => rfl
  | flt fmt p => rfl
  | bytes w =>
    have e1 : encodeField (Field.bytes w) = encBytes w := by
      show (serialize_bytes ⟨[], false⟩ w).output = encBytes w
      rw [serialize_bytes_false [] hx]
      rfl
    show serialize_bytes ⟨out, false⟩ w = _
    rw [serialize_bytes_false out hx, e1]

theorem serializeFields_false :
    ∀ (ys : List Field), (∀ a ∈ ys, a.valid) → ∀ out : List Nat,
      serializeFields ⟨out, false⟩ ys = ⟨out ++ encodeFields ys, false⟩ := by
  intro ys
  induction ys with
  | nil =>
    intro _ out
    show (⟨out, false⟩ : SerState) = _
    rw [show encodeFields ([] : List Field) = [] from rfl]
    simp
  | cons z zs ih =>
    intro hvz out
    have hz : z.valid := hvz z (List.mem_cons_self z zs)
    have hzs : ∀ a ∈ zs, a.valid := fun a ha => hvz a (List.mem_cons_of_mem z ha)
    have e2 : encodeFields (z :: zs) = encodeField z ++ encodeFields zs := by
      show (serializeFields ⟨[], false⟩ (z :: zs)).output = _
      rw [show serializeFields ⟨[], false⟩ (z :: zs) =
          serializeFields (serializeField ⟨[], false⟩ z) zs from rfl,
        serializeField_false z hz [], ih hzs ([] ++ encodeField z)]
      simp
    show serializeFields (serializeField ⟨out, false⟩ z) zs = _
    rw [serializeField_false z hz out, ih hzs (out ++ encodeField z), e2]
    simp [List.append_assoc]

theorem encodeFields_cons (x : Field) (xs : List Field) (hvx : x.valid)
    (hvxs : ∀ a ∈ xs, a.valid) :
    encodeFields (x :: xs) = encodeField x ++ encodeFields xs := by
  show (serializeFields ⟨[], false⟩ (x :: xs)).output = _
  rw [show serializeFields ⟨[], false⟩ (x :: xs) =
      serializeFields (serializeField ⟨[], false⟩ x) xs from rfl,
    serializeField_false x hvx [], serializeFields_false xs hvxs ([] ++ encodeField x)]
  simp

/-- **C1.**  For any two same-typed values built from unsigned/signed
integers, finite floats and byte strings — scalars or tuples of such
fields — encoded with flip off, the lexicographic comparison of the
encodings equals the value comparison (numeric for integers and floats,
lexicographic for byte strings, fieldwise for tuples). -/
theorem C1_order_correspondence (xs ys : List Field)
    (hxv : ∀ x ∈ xs, x.valid) (hyv : ∀ y ∈ ys, y.valid)
    (hs : List.Forall₂ Field.sameShape xs ys) :
    lexCmp (encodeFields xs) (encodeFields ys) = fieldsCmp xs ys := by
  revert hxv hyv
  induction hs with
  | nil =>
    intro _ _
    rfl
  | @cons x y xs' ys' hxy htail ih =>
    intro hxv hyv
    have hvx : x.valid := hxv x (List.mem_cons_self x xs')
    have hvy : y.valid := hyv y (List.mem_cons_self y ys')
    have hvxs : ∀ a ∈ xs', a.valid := fun a ha => hxv a (List.mem_cons_of_mem x ha)
    have hvys : ∀ a ∈ ys', a.valid := fun a ha => hyv a (List.mem_cons_of_mem y ha)
    rw [encodeFields_cons x xs' hvx hvxs, encodeFields_cons y ys' hvy hvys]
    have hcmp := encodeField_cmp hxy hvx hvy
    have hRHS : fieldsCmp (x :: xs') (y :: ys') =
        match Field.cmp x y with
        | .eq => fieldsCmp xs' ys'
        | o => o := rfl
    rw [hRHS]
    cases hc : Field.cmp x y with
    | eq =>
      have he : encodeField x = encodeField y := lexCmp_eq_iff.mp (by rw [hcmp, hc])
      rw [he, lexCmp_append_same, ih hvxs hvys]
    | lt =>
      have hlt : lexCmp (encodeField x) (encodeField y) = .lt := by rw [hcmp, hc]
      have hni : ¬ initSeg (encodeField x) (encodeField y) := by
        intro hseg
        have heq2 := encodeField_initSeg hxy hvx hvy hseg
        rw [heq2, lexCmp_self] at hlt
        cases hlt
      rw [lexCmp_append_of_lt hlt hni]
    | gt =>
      have hgt : lexCmp (encodeField x) (encodeField y) = .gt := by rw [hcmp, hc]
      have hni : ¬ initSeg (encodeField y) (encodeField x) := by
        intro hseg
        have heq2 := encodeField_initSeg (sameShape_symm hxy) hvy hvx hseg
        rw [heq2, lexCmp_self] at hgt
        cases hgt
      rw [lexCmp_append_of_gt hgt hni]

/-- Witness for C1 at the concrete tuples `(5, [1,2])` and `(5, [1,3])`. -/
theorem C1_witness :
    (∀ x ∈ [Field.uint 1 5, Field.bytes [1, 2]], x.valid) ∧
    (∀ y ∈ [Field.uint 1 5, Field.bytes [1, 3]], y.valid) ∧
    List.Forall₂ Field.sameShape [Field.uint 1 5, Field.bytes [1, 2]]
      [Field.uint 1 5, Field.bytes [1, 3]] ∧
    lexCmp (encodeFields [Field.uint 1 5, Field.bytes [1, 2]])
        (encodeFields [Field.uint 1 5, Field.bytes [1, 3]]) =
      fieldsCmp [Field.uint 1 5, Field.bytes [1, 2]]
        [Field.uint 1 5, Field.bytes [1, 3]] := by
  have h1 : ∀ x ∈ [Field.uint 1 5, Field.bytes [1, 2]], x.valid := by
    intro x hx
    simp only [List.mem_cons, List.not_mem_nil, or_false] at hx
    rcases hx with rfl | rfl
    · exact ⟨le_refl 1, by norm_num⟩
    · show Bytes [1, 2]
      decide
  have h2 : ∀ y ∈ [Field.uint 1 5, Field.bytes [1, 3]], y.valid := by
    intro y hy
    simp only [List.mem_cons, List.not_mem_nil, or_false] at hy
    rcases hy with rfl | rfl
    · exact ⟨le_refl 1, by norm_num⟩
    · show Bytes [1, 3]
      decide
  have h3 : List.Forall₂ Field.sameShape [Field.uint 1 5, Field.bytes [1, 2]]
      [Field.uint 1 5, Field.bytes [1, 3]] :=
    List.Forall₂.cons rfl (List.Forall₂.cons trivial List.Forall₂.nil)
  exact ⟨h1, h2, h3, C1_order_correspondence _ _ h1 h2 h3⟩

/-! ## Claims C3 and C5: characterizing `decimal_e_m`

`decimal_e_m m sc` produces the ceiling base-100 exponent `e100` of
`m / 10^sc` and the base-100 digits of the stripped-and-repadded mantissa
`m1`; the key arithmetic identity is `2·t = 2·e100 + sc − z + pad` for
`t` the base-100 digit count. -/

theorem countP_pow10 (m : Nat) :
    ∀ n : Nat,
      (((List.range n).map (10 ^ ·)).countP (fun p => decide (p ≤ m)) = n ∧
        (n = 0 ∨ 10 ^ (n - 1) ≤ m)) ∨
      (∃ c, c < n ∧
        ((List.range n).map (10 ^ ·)).countP (fun p => decide (p ≤ m)) = c ∧
        m < 10 ^ c ∧ (c = 0 ∨ 10 ^ (c - 1) ≤ m)) := by
  intro n
  induction n with
  | zero =>
    left
    exact ⟨rfl, Or.inl rfl⟩
  | succ k ih =>
    have hsplit : ((List.range (k + 1)).map (10 ^ ·)).countP (fun p => decide (p ≤ m)) =
        ((List.range k).map (10 ^ ·)).countP (fun p => decide (p ≤ m)) +
          (if 10 ^ k ≤ m then 1 else 0) := by
      rw [List.range_succ, List.map_append, List.countP_append]
      by_cases h : 10 ^ k ≤ m <;> simp [List.countP_cons, h]
    rcases ih with ⟨hcnt, hlow⟩ | ⟨c, hc, hcnt, hup, hlow⟩
    · by_cases h : 10 ^ k ≤ m
      · left
        constructor
        · rw [hsplit, hcnt, if_pos h]
        · right
          simpa using h
      · right
        exact ⟨k, by omega, by rw [hsplit, hcnt, if_neg h]; omega, by omega, hlow⟩
    · have hnot : ¬ 10 ^ k ≤ m := by
        intro hle
        have hmono : (10 : Nat) ^ c ≤ 10 ^ k := Nat.pow_le_pow_right (by omega) (by omega)
        omega
      right
      exact ⟨c, by omega, by rw [hsplit, hcnt, if_neg hnot]; omega, hup, hlow⟩

theorem POW10_eq : POW10 = (List.range 30).map (10 ^ ·) := by decide

/-- `prec` (the `partition_point` on `POW10`) is the decimal digit count. -/
theorem prec_char {m : Nat} (h1 : 1 ≤ m) (h2 : m < 10 ^ 29) :
    1 ≤ POW10.countP (fun p => decide (p ≤ m)) ∧
    POW10.countP (fun p => decide (p ≤ m)) ≤ 29 ∧
    10 ^ (POW10.countP (fun p => decide (p ≤ m)) - 1) ≤ m ∧
    m < 10 ^ (POW10.countP (fun p => decide (p ≤ m))) := by
  rw [POW10_eq]
  rcases countP_pow10 m 30 with ⟨hcnt, hlow⟩ | ⟨c, hc, hcnt, hup, hlow⟩
  · exfalso
    rcases hlow with h30 | hge
    · omega
    · have hmono : (10 : Nat) ^ 29 ≤ 10 ^ (30 - 1) := le_refl _
      omega
  · rw [hcnt]
    have hpow0 : (10 : Nat) ^ 0 = 1 := by norm_num
    have hc1 : 1 ≤ c := by
      by_contra hc0
      push_neg at hc0
      have hz : c = 0 := by omega
      rw [hz, hpow0] at hup
      omega
    have hge : 10 ^ (c - 1) ≤ m := by
      rcases hlow with rfl | h
      · omega
      · exact h
    exact ⟨hc1, by omega, hge, hup⟩

/-- `strip_zeros` divides out all trailing decimal zeros and counts them
off `digit_num`. -/
theorem strip_zeros_spec :
    ∀ (k m dn : Nat), m ≤ k → m ≠ 0 →
      ∃ z, m = (strip_zeros m dn).1 * 10 ^ z ∧ (strip_zeros m dn).2 = dn - z ∧
        (strip_zeros m dn).1 % 10 ≠ 0 ∧ (strip_zeros m dn).1 ≠ 0 := by
  intro k
  induction k with
  | zero =>
    intro m dn hk hm
    exact absurd (by omega : m = 0) hm
  | succ k ih =>
    intro m dn hk hm
    rw [strip_zeros]
    by_cases h : m % 10 = 0 ∧ m ≠ 0
    · rw [if_pos h]
      have hd : m / 10 ≠ 0 := by omega
      obtain ⟨z, h1, h2, h3, h4⟩ := ih (m / 10) (dn - 1) (by omega) hd
      refine ⟨z + 1, ?_, ?_, h3, h4⟩
      · rw [pow_succ, ← mul_assoc, ← h1]
        omega
      · rw [h2]
        omega
    · rw [if_neg h]
      refine ⟨0, by simp, by simp, ?_, hm⟩
      intro h10
      exact hm (by tauto)

theorem digits100_head {m : Nat} (h : m ≠ 0) :
    digits100LE m = m % 100 :: digits100LE (m / 100) := by
  rw [digits100LE, dif_neg h]

theorem digits100_zero : digits100LE 0 = [] := by
  rw [digits100LE, dif_pos rfl]

theorem valD_digits100 : ∀ (k m : Nat), m ≤ k → valD (digits100LE m) = m := by
  intro k
  induction k with
  | zero =>
    intro m hk
    rw [show m = 0 by omega, digits100_zero]
    rfl
  | succ k ih =>
    intro m hk
    by_cases h : m = 0
    · rw [h, digits100_zero]
      rfl
    · rw [digits100_head h]
      show m % 100 + 100 * valD (digits100LE (m / 100)) = m
      rw [ih (m / 100) (by omega)]
      omega

theorem digits100_lt : ∀ (k m : Nat), m ≤ k → ∀ d ∈ digits100LE m, d < 100 := by
  intro k
  induction k with
  | zero =>
    intro m hk d hd
    rw [show m = 0 by omega, digits100_zero] at hd
    simp at hd
  | succ k ih =>
    intro m hk d hd
    by_cases h : m = 0
    · rw [h, digits100_zero] at hd
      simp at hd
    · rw [digits100_head h] at hd
      rcases List.mem_cons.mp hd with rfl | hd2
      · omega
      · exact ih (m / 100) (by omega) d hd2

theorem digits100_len : ∀ (k m : Nat), m ≤ k → m ≠ 0 →
    1 ≤ (digits100LE m).length ∧
    100 ^ ((digits100LE m).length - 1) ≤ m ∧ m < 100 ^ (digits100LE m).length := by
  intro k
  induction k with
  | zero =>
    intro m hk hm
    exact absurd (by omega : m = 0) hm
  | succ k ih =>
    intro m hk hm
    rw [digits100_head hm]
    by_cases h : m / 100 = 0
    · rw [h, digits100_zero]
      have hmlt : m % 100 = m := by omega
      simp only [List.length_cons, List.length_nil]
      norm_num
      omega
    · obtain ⟨hL1, hLlo, hLhi⟩ := ih (m / 100) (by omega) h
      simp only [List.length_cons]
      set L := (digits100LE (m / 100)).length with hLdef
      have e1 : (100 : Nat) ^ L = 100 ^ (L - 1) * 100 := by
        conv_lhs => rw [show L = (L - 1) + 1 by omega]
        exact pow_succ 100 (L - 1)
      have e2 : (100 : Nat) ^ (L + 1) = 100 ^ L * 100 := pow_succ 100 L
      have e3 : L + 1 - 1 = L := by omega
      rw [e3]
      omega

/-- `encSig` in closed form over the big-endian digit list. -/
theorem sigOfBE_snoc :
    ∀ (xs : List Nat) (d : Nat),
      sigOfBE (xs ++ [d]) = xs.map (fun x => 2 * x + 1) ++ [2 * d] := by
  intro xs
  induction xs with
  | nil =>
    intro d
    rfl
  | cons x xs ih =>
    intro d
    cases xs with
    | nil => rfl
    | cons y ys =>
      show (2 * x + 1) :: sigOfBE ((y :: ys) ++ [d]) = _
      rw [ih d]
      rfl

theorem encSig_eq_sigOfBE {m1 : Nat} (h : m1 ≠ 0) :
    encSig m1 = sigOfBE ((digits100LE m1).reverse) := by
  rw [encSig, digits100_head h]
  show ((2 * (m1 % 100) + 1 - 1) ::
      (digits100LE (m1 / 100)).map (fun d => 2 * d + 1)).reverse = _
  rw [show (m1 % 100 :: digits100LE (m1 / 100)).reverse =
      (digits100LE (m1 / 100)).reverse ++ [m1 % 100] by simp]
  rw [sigOfBE_snoc, List.map_reverse]
  simp
  try omega

/-- `e100` is the ceiling of `e10 / 2`. -/
theorem e100_char (e : Int) :
    e ≤ 2 * (if 0 ≤ e then (e + 1).tdiv 2 else e.tdiv 2) ∧
    2 * (if 0 ≤ e then (e + 1).tdiv 2 else e.tdiv 2) ≤ e + 1 := by
  rcases e with k | k
  · rw [if_pos (by exact Int.ofNat_nonneg k)]
    have h1 : ((Int.ofNat k) + 1).tdiv 2 = ((k + 1 : Nat) / 2 : Nat) := rfl
    have h2 : Int.ofNat k = (k : Int) := rfl
    rw [h1, h2]
    omega
  · rw [if_neg (by exact not_le.mpr (Int.negSucc_lt_zero k))]
    have h1 : (Int.negSucc k).tdiv 2 = -(((k + 1 : Nat) / 2 : Nat) : Int) := rfl
    rw [h1, Int.negSucc_eq]
    omega

theorem toI8_id {x : Int} (h1 : -128 ≤ x) (h2 : x < 128) : toI8 x = x := by
  rw [toI8]
  show (x + 128) % 256 - 128 = x
  omega

/-- The full characterization of `decimal_e_m` on a nonzero in-range
mantissa. -/
theorem dem_char (m sc : Nat) (h1 : 1 ≤ m) (h2 : m < 10 ^ 29) (hsc : sc ≤ 28) :
    ∃ (e100 : Int) (z pad : Nat) (mr m1 : Nat),
      decimal_e_m m sc = (e100, sigOfBE ((digits100LE m1).reverse)) ∧
      m = mr * 10 ^ z ∧ mr % 10 ≠ 0 ∧ 1 ≤ mr ∧
      pad ≤ 1 ∧ m1 = mr * 10 ^ pad ∧ m1 % 100 ≠ 0 ∧
      2 * ((digits100LE m1).length : Int) = 2 * e100 + (sc : Int) - z + pad ∧
      -13 ≤ e100 ∧ e100 ≤ 15 := by
  obtain ⟨hp1, hp2, hp3, hp4⟩ := prec_char h1 h2
  rw [decimal_e_m, if_neg (by omega)]
  simp only []
  set prec := POW10.countP (fun p => decide (p ≤ m)) with hprec
  set e10 : Int := (prec : Int) - (sc : Int) with he10
  obtain ⟨hec1, hec2⟩ := e100_char e10
  set e100 : Int := if 0 ≤ e10 then (e10 + 1).tdiv 2 else e10.tdiv 2 with he100
  set dn0 : Nat := if e10 = 2 * e100 then prec else prec + 1 with hdn0
  have hdn0I : (dn0 : Int) = 2 * e100 + (sc : Int) := by
    rw [hdn0]
    by_cases hcase : e10 = 2 * e100
    · rw [if_pos hcase]
      omega
    · rw [if_neg hcase]
      omega
  obtain ⟨z, hz1, hz2, hz3, hz4⟩ := strip_zeros_spec m m dn0 le_rfl (by omega)
  set mr := (strip_zeros m dn0).1 with hmr
  set dnz := (strip_zeros m dn0).2 with hdnz
  -- bounds on z and digits of mr
  have hzlt : z < prec := by
    by_contra hzge
    push_neg at hzge
    have hple : (10 : Nat) ^ prec ≤ 10 ^ z := Nat.pow_le_pow_right (by omega) hzge
    have : 10 ^ z ≤ m := by
      calc (10 : Nat) ^ z ≤ mr * 10 ^ z := Nat.le_mul_of_pos_left _ (by omega)
        _ = m := hz1.symm
    omega
  have hdn0ge : prec ≤ dn0 := by
    rw [hdn0]
    by_cases hcase : e10 = 2 * e100
    · rw [if_pos hcase]
    · rw [if_neg hcase]
      omega
  have hpowa : (10 : Nat) ^ prec = 10 ^ (prec - z) * 10 ^ z := by
    rw [← pow_add, Nat.sub_add_cancel (le_of_lt hzlt)]
  have hpowb : (10 : Nat) ^ (prec - 1) = 10 ^ (prec - 1 - z) * 10 ^ z := by
    rw [← pow_add, Nat.sub_add_cancel (by omega : z ≤ prec - 1)]
  have hzpos : 0 < (10 : Nat) ^ z := Nat.pos_pow_of_pos _ (by omega)
  have hmrhi : mr < 10 ^ (prec - z) := by
    have := hp4
    rw [hz1, hpowa] at this
    exact Nat.lt_of_mul_lt_mul_right this
  have hmrlo : 10 ^ (prec - 1 - z) ≤ mr := by
    have := hp3
    rw [hz1, hpowb] at this
    exact Nat.le_of_mul_le_mul_right this hzpos
  set pad := dnz % 2 with hpad
  set m1 := if dnz % 2 = 1 then mr * 10 else mr with hm1
  have hm1eq : m1 = mr * 10 ^ pad := by
    rw [hm1, hpad]
    by_cases hc : dnz % 2 = 1
    · rw [if_pos hc, hc]
      norm_num
    · rw [if_neg hc, show dnz % 2 = 0 by omega]
      norm_num
  have hm1ne : m1 ≠ 0 := by
    rw [hm1eq]
    have : 0 < (10 : Nat) ^ pad := Nat.pos_pow_of_pos _ (by omega)
    positivity
  have hm1mod : m1 % 100 ≠ 0 := by
    rw [hm1eq, hpad]
    by_cases hc : dnz % 2 = 1
    · rw [hc]
      have : mr * 10 ^ 1 = mr * 10 := by norm_num
      rw [this]
      have h100 : (100 : Nat) = 10 * 10 := by norm_num
      rw [h100, Nat.mul_mod_mul_right]
      omega
    · rw [show dnz % 2 = 0 by omega]
      simp only [pow_zero, Nat.mul_one]
      intro hmod
      have : mr % 10 = 0 := by omega
      exact hz3 this
  -- digit count of m1 in base 10
  have hm1hi : m1 < 10 ^ (prec - z + pad) := by
    rw [hm1eq, pow_add]
    exact Nat.mul_lt_mul_of_lt_of_le hmrhi (le_refl _) (by positivity)
  have hm1lo : 10 ^ (prec - 1 - z + pad) ≤ m1 := by
    rw [hm1eq, pow_add]
    exact Nat.mul_le_mul_right _ hmrlo
  -- base-100 digit count of m1
  obtain ⟨hL1, hLlo, hLhi⟩ := digits100_len m1 m1 le_rfl hm1ne
  set t := (digits100LE m1).length with ht
  have h100pow : ∀ j : Nat, (100 : Nat) ^ j = 10 ^ (2 * j) := by
    intro j
    rw [pow_mul]
    norm_num
  have htlo : 10 ^ (2 * (t - 1)) ≤ m1 := by
    rw [← h100pow]
    exact hLlo
  have hthi : m1 < 10 ^ (2 * t) := by
    rw [← h100pow]
    exact hLhi
  -- relate digit bounds: 2t - 1 ≤ (digits of m1) ≤ 2t
  have hg1 : 2 * (t - 1) < prec - z + pad := by
    by_contra hcon
    push_neg at hcon
    have := Nat.pow_le_pow_right (show 1 ≤ 10 by omega) hcon
    omega
  have hg2 : prec - 1 - z + pad < 2 * t := by
    by_contra hcon
    push_neg at hcon
    have := Nat.pow_le_pow_right (show 1 ≤ 10 by omega) hcon
    omega
  have hkey : 2 * (t : Int) = 2 * e100 + (sc : Int) - z + pad := by
    have hdneq : dnz = dn0 - z := hz2
    have hpadeq : pad = dnz % 2 := hpad
    omega
  refine ⟨e100, z, pad, mr, m1, ?_, hz1, hz3, by omega, by omega, hm1eq, hm1mod, hkey,
    ?_, ?_⟩
  · have he100eq : toI8 e100 = e100 := toI8_id (by omega) (by omega)
    rw [he100eq, encSig_eq_sigOfBE hm1ne]
  · omega
  · omega

/-! ## Claims C3/C5: the significand bytes realize the base-100 fraction
order -/

theorem fracVal_nonneg (ds : List Nat) : 0 ≤ fracVal ds := by
  induction ds with
  | nil => simp [fracVal]
  | cons d rest ih =>
    show 0 ≤ ((d : ℚ) + fracVal rest) / 100
    have hd : (0 : ℚ) ≤ (d : ℚ) := by positivity
    apply div_nonneg (by linarith) (by norm_num)

theorem fracVal_lt_one {ds : List Nat} (h : ∀ d ∈ ds, d < 100) : fracVal ds < 1 := by
  induction ds with
  | nil => norm_num [fracVal]
  | cons d rest ih =>
    show ((d : ℚ) + fracVal rest) / 100 < 1
    have h1 : fracVal rest < 1 := ih (fun x hx => h x (List.mem_cons_of_mem d hx))
    have h2 : (d : ℚ) ≤ 99 := by
      exact_mod_cast Nat.le_of_lt_succ (h d (List.mem_cons_self d rest))
    rw [div_lt_one (by norm_num)]
    linarith

theorem lastNZ_snoc : ∀ (xs : List Nat) (d : Nat), lastNZ (xs ++ [d]) ↔ d ≠ 0 := by
  intro xs
  induction xs with
  | nil => intro d; exact Iff.rfl
  | cons x rest ih =>
    intro d
    cases rest with
    | nil => exact ih d
    | cons y ys => exact ih d

theorem fracVal_pos_of_lastNZ :
    ∀ (ds : List Nat), ds ≠ [] → lastNZ ds → 0 < fracVal ds := by
  intro ds
  induction ds with
  | nil =>
    intro h _
    exact absurd rfl h
  | cons d rest ih =>
    intro _ hl
    show 0 < ((d : ℚ) + fracVal rest) / 100
    cases rest with
    | nil =>
      have hd : d ≠ 0 := hl
      have hd1 : (1 : ℚ) ≤ (d : ℚ) := by exact_mod_cast Nat.pos_of_ne_zero hd
      have h0 : fracVal ([] : List Nat) = 0 := rfl
      apply div_pos (by rw [h0]; linarith) (by norm_num)
    | cons r rest' =>
      have hpos := ih (by simp) hl
      have hd : (0 : ℚ) ≤ (d : ℚ) := by positivity
      apply div_pos (by linarith) (by norm_num)

theorem fracVal_snoc (xs : List Nat) (d : Nat) :
    fracVal (xs ++ [d]) = fracVal xs + (d : ℚ) / 100 ^ (xs.length + 1) := by
  induction xs with
  | nil =>
    show ((d : ℚ) + fracVal ([] : List Nat)) / 100 = fracVal ([] : List Nat) + _
    have h0 : fracVal ([] : List Nat) = 0 := rfl
    rw [h0]
    norm_num
  | cons x rest ih =>
    show ((x : ℚ) + fracVal (rest ++ [d])) / 100 = _
    rw [ih]
    show _ = ((x : ℚ) + fracVal rest) / 100 + (d : ℚ) / 100 ^ (rest.length + 1 + 1)
    rw [pow_succ]
    ring

theorem fracVal_reverse_valD : ∀ (ds : List Nat),
    fracVal ds.reverse = (valD ds : ℚ) / 100 ^ ds.length := by
  intro ds
  induction ds with
  | nil => norm_num [fracVal, valD]
  | cons d rest ih =>
    rw [List.reverse_cons, fracVal_snoc, ih, List.length_reverse]
    show _ = ((valD (d :: rest) : Nat) : ℚ) / 100 ^ (d :: rest).length
    rw [show valD (d :: rest) = d + 100 * valD rest from rfl, List.length_cons]
    push_cast
    rw [pow_succ]
    ring

/-- The base-100 fraction of the big-endian digits of `m`. -/
theorem fracVal_digits (m : Nat) :
    fracVal ((digits100LE m).reverse) = (m : ℚ) / 100 ^ (digits100LE m).length := by
  rw [fracVal_reverse_valD, valD_digits100 m m le_rfl]

theorem lastNZ_digits {m : Nat} (hm : m ≠ 0) (hmod : m % 100 ≠ 0) :
    lastNZ ((digits100LE m).reverse) := by
  rw [digits100_head hm, List.reverse_cons]
  exact (lastNZ_snoc _ _).mpr hmod

theorem digits_reverse_lt {m : Nat} : ∀ d ∈ (digits100LE m).reverse, d < 100 := by
  intro d hd
  exact digits100_lt m m le_rfl d (List.mem_reverse.mp hd)

theorem cmpQ_lt {a b : ℚ} (h : a < b) : cmpQ a b = .lt := by
  rw [cmpQ, if_pos h]

theorem cmpQ_gt {a b : ℚ} (h : b < a) : cmpQ a b = .gt := by
  rw [cmpQ, if_neg (not_lt.mpr (le_of_lt h)), if_pos h]

theorem cmpQ_eq {a b : ℚ} (h : a = b) : cmpQ a b = .eq := by
  subst h
  rw [cmpQ, if_neg (lt_irrefl a), if_neg (lt_irrefl a)]

theorem sigOfBE_head (x : Nat) (xs' : List Nat) :
    ∃ b rest2, sigOfBE (x :: xs') = b :: rest2 ∧ 2 * x ≤ b ∧ b ≤ 2 * x + 1 := by
  cases xs' with
  | nil => exact ⟨2 * x, [], rfl, le_refl _, by omega⟩
  | cons y ys => exact ⟨2 * x + 1, sigOfBE (y :: ys), rfl, by omega, le_refl _⟩

/-- The significand byte strings compare exactly as the base-100 fractions
they denote. -/
theorem sig_lex :
    ∀ (xs ys : List Nat), xs ≠ [] → ys ≠ [] →
      (∀ d ∈ xs, d < 100) → (∀ d ∈ ys, d < 100) →
      lastNZ xs → lastNZ ys →
      lexCmp (sigOfBE xs) (sigOfBE ys) = cmpQ (fracVal xs) (fracVal ys) := by
  intro xs
  induction xs with
  | nil =>
    intro ys h
    exact absurd rfl h
  | cons x xs' ih =>
    intro ys _ hysne hxlt hylt hxl hyl
    cases ys with
    | nil => exact absurd rfl hysne
    | cons y ys' =>
      have hfx1 : fracVal xs' < 1 :=
        fracVal_lt_one (fun d hd => hxlt d (List.mem_cons_of_mem x hd))
      have hfy1 : fracVal ys' < 1 :=
        fracVal_lt_one (fun d hd => hylt d (List.mem_cons_of_mem y hd))
      have hfx0 : 0 ≤ fracVal xs' := fracVal_nonneg xs'
      have hfy0 : 0 ≤ fracVal ys' := fracVal_nonneg ys'
      rcases Nat.lt_trichotomy x y with hxy | hxy | hxy
      · obtain ⟨b1, r1, he1, hb1, hb1n⟩ := sigOfBE_head x xs'
        obtain ⟨b2, r2, he2, hb2, hb2n⟩ := sigOfBE_head y ys'
        rw [he1, he2]
        have hcb : compare b1 b2 = .lt := Nat.compare_eq_lt.mpr (by omega)
        simp only [lexCmp, hcb]
        have hxy1 : (x : ℚ) + 1 ≤ (y : ℚ) := by exact_mod_cast hxy
        rw [cmpQ_lt (show fracVal (x :: xs') < fracVal (y :: ys') from by
          show ((x : ℚ) + fracVal xs') / 100 < ((y : ℚ) + fracVal ys') / 100
          linarith)]
      · subst hxy
        cases xs' with
        | nil =>
          cases ys' with
          | nil =>
            rw [lexCmp_self, cmpQ_eq rfl]
          | cons y2 ys2 =>
            show lexCmp [2 * x] ((2 * x + 1) :: sigOfBE (y2 :: ys2)) = _
            have hcb : compare (2 * x) (2 * x + 1) = .lt := Nat.compare_eq_lt.mpr (by omega)
            simp only [lexCmp, hcb]
            have hpos : 0 < fracVal (y2 :: ys2) := fracVal_pos_of_lastNZ _ (by simp) hyl
            rw [cmpQ_lt (show fracVal [x] < fracVal (x :: y2 :: ys2) from by
              show ((x : ℚ) + fracVal ([] : List Nat)) / 100 <
                ((x : ℚ) + fracVal (y2 :: ys2)) / 100
              have h0 : fracVal ([] : List Nat) = 0 := rfl
              rw [h0]
              linarith)]
        | cons x2 xs2 =>
          cases ys' with
          | nil =>
            show lexCmp ((2 * x + 1) :: sigOfBE (x2 :: xs2)) [2 * x] = _
            have hcb : compare (2 * x + 1) (2 * x) = .gt := Nat.compare_eq_gt.mpr (by omega)
            simp only [lexCmp, hcb]
            have hpos : 0 < fracVal (x2 :: xs2) := fracVal_pos_of_lastNZ _ (by simp) hxl
            rw [cmpQ_gt (show fracVal [x] < fracVal (x :: x2 :: xs2) from by
              show ((x : ℚ) + fracVal ([] : List Nat)) / 100 <
                ((x : ℚ) + fracVal (x2 :: xs2)) / 100
              have h0 : fracVal ([] : List Nat) = 0 := rfl
              rw [h0]
              linarith)]
          | cons y2 ys2 =>
            show lexCmp ((2 * x + 1) :: sigOfBE (x2 :: xs2))
                ((2 * x + 1) :: sigOfBE (y2 :: ys2)) = _
            simp only [lexCmp, compare_self_nat]
            rw [ih (y2 :: ys2) (by simp) (by simp)
              (fun d hd => hxlt d (List.mem_cons_of_mem x hd))
              (fun d hd => hylt d (List.mem_cons_of_mem x hd))
              hxl hyl]
            rcases lt_trichotomy (fracVal (x2 :: xs2)) (fracVal (y2 :: ys2)) with hf | hf | hf
            · rw [cmpQ_lt hf,
                cmpQ_lt (show fracVal (x :: x2 :: xs2) < fracVal (x :: y2 :: ys2) from by
                  show ((x : ℚ) + fracVal (x2 :: xs2)) / 100 <
                    ((x : ℚ) + fracVal (y2 :: ys2)) / 100
                  linarith)]
            · rw [cmpQ_eq hf,
                cmpQ_eq (show fracVal (x :: x2 :: xs2) = fracVal (x :: y2 :: ys2) from by
                  show ((x : ℚ) + fracVal (x2 :: xs2)) / 100 =
                    ((x : ℚ) + fracVal (y2 :: ys2)) / 100
                  rw [hf])]
            · rw [cmpQ_gt hf,
                cmpQ_gt (show fracVal (x :: y2 :: ys2) < fracVal (x :: x2 :: xs2) from by
                  show ((x : ℚ) + fracVal (y2 :: ys2)) / 100 <
                    ((x : ℚ) + fracVal (x2 :: xs2)) / 100
                  linarith)]
      · obtain ⟨b1, r1, he1, hb1, hb1n⟩ := sigOfBE_head x xs'
        obtain ⟨b2, r2, he2, hb2, hb2n⟩ := sigOfBE_head y ys'
        rw [he1, he2]
        have hcb : compare b1 b2 = .gt := Nat.compare_eq_gt.mpr (by omega)
        simp only [lexCmp, hcb]
        have hxy1 : (y : ℚ) + 1 ≤ (x : ℚ) := by exact_mod_cast hxy
        rw [cmpQ_gt (show fracVal (y :: ys') < fracVal (x :: xs') from by
          show ((y : ℚ) + fracVal ys') / 100 < ((x : ℚ) + fracVal xs') / 100
          linarith)]

/-- The complemented significand byte strings compare in the reversed
fraction order. -/
theorem sig_lex_neg :
    ∀ (xs ys : List Nat), xs ≠ [] → ys ≠ [] →
      (∀ d ∈ xs, d < 100) → (∀ d ∈ ys, d < 100) →
      lastNZ xs → lastNZ ys →
      lexCmp ((sigOfBE xs).map notU8) ((sigOfBE ys).map notU8) =
        (cmpQ (fracVal xs) (fracVal ys)).swap := by
  intro xs
  induction xs with
  | nil =>
    intro ys h
    exact absurd rfl h
  | cons x xs' ih =>
    intro ys _ hysne hxlt hylt hxl hyl
    cases ys with
    | nil => exact absurd rfl hysne
    | cons y ys' =>
      have hx100 : x < 100 := hxlt x (List.mem_cons_self x xs')
      have hy100 : y < 100 := hylt y (List.mem_cons_self y ys')
      have hnot : ∀ b : Nat, b ≤ 255 → notU8 b = 255 - b := by
        intro b hb
        rw [notU8, Nat.mod_eq_of_lt (by omega)]
      have hfx1 : fracVal xs' < 1 :=
        fracVal_lt_one (fun d hd => hxlt d (List.mem_cons_of_mem x hd))
      have hfy1 : fracVal ys' < 1 :=
        fracVal_lt_one (fun d hd => hylt d (List.mem_cons_of_mem y hd))
      have hfx0 : 0 ≤ fracVal xs' := fracVal_nonneg xs'
      have hfy0 : 0 ≤ fracVal ys' := fracVal_nonneg ys'
      rcases Nat.lt_trichotomy x y with hxy | hxy | hxy
      · obtain ⟨b1, r1, he1, hb1, hb1n⟩ := sigOfBE_head x xs'
        obtain ⟨b2, r2, he2, hb2, hb2n⟩ := sigOfBE_head y ys'
        rw [he1, he2, List.map_cons, List.map_cons]
        have hcb : compare (notU8 b1) (notU8 b2) = .gt := by
          rw [hnot b1 (by omega), hnot b2 (by omega)]
          exact Nat.compare_eq_gt.mpr (by omega)
        simp only [lexCmp, hcb]
        have hxy1 : (x : ℚ) + 1 ≤ (y : ℚ) := by exact_mod_cast hxy
        rw [cmpQ_lt (show fracVal (x :: xs') < fracVal (y :: ys') from by
          show ((x : ℚ) + fracVal xs') / 100 < ((y : ℚ) + fracVal ys') / 100
          linarith)]
        rfl
      · subst hxy
        cases xs' with
        | nil =>
          cases ys' with
          | nil =>
            rw [lexCmp_self, cmpQ_eq rfl]
            rfl
          | cons y2 ys2 =>
            show lexCmp [notU8 (2 * x)]
                (notU8 (2 * x + 1) :: (sigOfBE (y2 :: ys2)).map notU8) = _
            have hcb : compare (notU8 (2 * x)) (notU8 (2 * x + 1)) = .gt := by
              rw [hnot _ (by omega), hnot _ (by omega)]
              exact Nat.compare_eq_gt.mpr (by omega)
            simp only [lexCmp, hcb]
            have hpos : 0 < fracVal (y2 :: ys2) := fracVal_pos_of_lastNZ _ (by simp) hyl
            rw [cmpQ_lt (show fracVal [x] < fracVal (x :: y2 :: ys2) from by
              show ((x : ℚ) + fracVal ([] : List Nat)) / 100 <
                ((x : ℚ) + fracVal (y2 :: ys2)) / 100
              have h0 : fracVal ([] : List Nat) = 0 := rfl
              rw [h0]
              linarith)]
            rfl
        | cons x2 xs2 =>
          cases ys' with
          | nil =>
            show lexCmp (notU8 (2 * x + 1) :: (sigOfBE (x2 :: xs2)).map notU8)
                [notU8 (2 * x)] = _
            have hcb : compare (notU8 (2 * x + 1)) (notU8 (2 * x)) = .lt := by
              rw [hnot _ (by omega), hnot _ (by omega)]
              exact Nat.compare_eq_lt.mpr (by omega)
            simp only [lexCmp, hcb]
            have hpos : 0 < fracVal (x2 :: xs2) := fracVal_pos_of_lastNZ _ (by simp) hxl
            rw [cmpQ_gt (show fracVal [x] < fracVal (x :: x2 :: xs2) from by
              show ((x : ℚ) + fracVal ([] : List Nat)) / 100 <
                ((x : ℚ) + fracVal (x2 :: xs2)) / 100
              have h0 : fracVal ([] : List Nat) = 0 := rfl
              rw [h0]
              linarith)]
            rfl
          | cons y2 ys2 =>
            show lexCmp (notU8 (2 * x + 1) :: (sigOfBE (x2 :: xs2)).map notU8)
                (notU8 (2 * x + 1) :: (sigOfBE (y2 :: ys2)).map notU8) = _
            simp only [lexCmp, compare_self_nat]
            rw [ih (y2 :: ys2) (by simp) (by simp)
              (fun d hd => hxlt d (List.mem_cons_of_mem x hd))
              (fun d hd => hylt d (List.mem_cons_of_mem x hd))
              hxl hyl]
            rcases lt_trichotomy (fracVal (x2 :: xs2)) (fracVal (y2 :: ys2)) with hf | hf | hf
            · rw [cmpQ_lt hf,
                cmpQ_lt (show fracVal (x :: x2 :: xs2) < fracVal (x :: y2 :: ys2) from by
                  show ((x : ℚ) + fracVal (x2 :: xs2)) / 100 <
                    ((x : ℚ) + fracVal (y2 :: ys2)) / 100
                  linarith)]
            · rw [cmpQ_eq hf,
                cmpQ_eq (show fracVal (x :: x2 :: xs2) = fracVal (x :: y2 :: ys2) from by
                  show ((x : ℚ) + fracVal (x2 :: xs2)) / 100 =
                    ((x : ℚ) + fracVal (y2 :: ys2)) / 100
                  rw [hf])]
            · rw [cmpQ_gt hf,
                cmpQ_gt (show fracVal (x :: y2 :: ys2) < fracVal (x :: x2 :: xs2) from by
                  show ((x : ℚ) + fracVal (y2 :: ys2)) / 100 <
                    ((x : ℚ) + fracVal (x2 :: xs2)) / 100
                  linarith)]
      · obtain ⟨b1, r1, he1, hb1, hb1n⟩ := sigOfBE_head x xs'
        obtain ⟨b2, r2, he2, hb2, hb2n⟩ := sigOfBE_head y ys'
        rw [he1, he2, List.map_cons, List.map_cons]
        have hcb : compare (notU8 b1) (notU8 b2) = .lt := by
          rw [hnot b1 (by omega), hnot b2 (by omega)]
          exact Nat.compare_eq_lt.mpr (by omega)
        simp only [lexCmp, hcb]
        have hxy1 : (y : ℚ) + 1 ≤ (x : ℚ) := by exact_mod_cast hxy
        rw [cmpQ_gt (show fracVal (y :: ys') < fracVal (x :: xs') from by
          show ((y : ℚ) + fracVal ys') / 100 < ((x : ℚ) + fracVal xs') / 100
          linarith)]
        rfl

/-! ## Claims C3/C5: closed forms of the decimal encoding -/

theorem sigOfBE_bytes :
    ∀ (ds : List Nat), (∀ d ∈ ds, d < 100) → ∀ b ∈ sigOfBE ds, b < 256 := by
  intro ds
  induction ds with
  | nil =>
    intro _ b hb
    simp [sigOfBE] at hb
  | cons d rest ih =>
    intro h b hb
    cases rest with
    | nil =>
      have hd : d < 100 := h d (List.mem_cons_self d [])
      simp only [sigOfBE, List.mem_singleton] at hb
      omega
    | cons r rs =>
      have hd : d < 100 := h d (List.mem_cons_self d (r :: rs))
      rcases List.mem_cons.mp hb with rfl | hb2
      · omega
      · exact ih (fun x hx => h x (List.mem_cons_of_mem d hx)) b hb2

theorem flip_notU8 (b : Nat) : flipByte false (notU8 b) = notU8 b := by
  rw [flipByte, notU8]
  simp only [Bool.false_eq_true, if_false]
  omega

/-- The value identity: `m / 10^sc = (m1 / 100^t) · 10^(2·e100)`. -/
theorem dem_value {sc : Nat} {e100 : Int} {z pad mr m1 t : Nat}
    (hm1 : m1 = mr * 10 ^ pad)
    (hkey : 2 * (t : Int) = 2 * e100 + (sc : Int) - z + pad) :
    ((mr * 10 ^ z : Nat) : ℚ) / 10 ^ sc =
      ((m1 : ℚ) / 100 ^ t) * (10 : ℚ) ^ (2 * e100) := by
  have hne : (10 : ℚ) ≠ 0 := by norm_num
  rw [div_mul_eq_mul_div, div_eq_div_iff (by positivity) (by positivity)]
  push_cast [hm1]
  rw [show (100 : ℚ) = 10 ^ (2 : Nat) by norm_num, ← pow_mul]
  rw [show (mr : ℚ) * 10 ^ z * 10 ^ (2 * t) = (mr : ℚ) * 10 ^ (z + 2 * t) by
    rw [pow_add]; ring]
  rw [show (mr : ℚ) * 10 ^ pad * (10 : ℚ) ^ (2 * e100) * 10 ^ sc =
      (mr : ℚ) * 10 ^ (pad + sc) * (10 : ℚ) ^ (2 * e100) by rw [pow_add]; ring]
  rw [← zpow_natCast (10 : ℚ) (z + 2 * t), ← zpow_natCast (10 : ℚ) (pad + sc),
    mul_assoc, ← zpow_add₀ hne]
  have hg : ((z + 2 * t : Nat) : Int) = ((pad + sc : Nat) : Int) + 2 * e100 := by omega
  rw [hg]

/-- The encoding of a positive normalized decimal: header plus significand. -/
theorem encodeDecimal_pos {m : Int} {sc : Nat} (hm : 0 < m)
    (h2 : m.natAbs < 10 ^ 29) (hsc : sc ≤ 28) :
    ∃ (e100 : Int) (z pad mr m1 : Nat),
      decimal_e_m m.natAbs sc = (e100, sigOfBE ((digits100LE m1).reverse)) ∧
      m.natAbs = mr * 10 ^ z ∧ mr % 10 ≠ 0 ∧ 1 ≤ mr ∧
      pad ≤ 1 ∧ m1 = mr * 10 ^ pad ∧ m1 % 100 ≠ 0 ∧
      2 * ((digits100LE m1).length : Int) = 2 * e100 + (sc : Int) - z + pad ∧
      -13 ≤ e100 ∧ e100 ≤ 15 ∧
      encodeDecimal (.Normalized m sc) =
        decHeadPos e100 ++ sigOfBE ((digits100LE m1).reverse) := by
  have h1 : 1 ≤ m.natAbs := by omega
  obtain ⟨e100, z, pad, mr, m1, hdem, hz1, hz3, hmr1, hpad, hm1, hm1c, hkey, helo, hehi⟩ :=
    dem_char m.natAbs sc h1 h2 hsc
  have hm1ne : m1 ≠ 0 := by
    intro h0
    rw [h0] at hm1c
    simp at hm1c
  have hsig : ∀ b ∈ sigOfBE ((digits100LE m1).reverse), b < 256 :=
    sigOfBE_bytes _ (fun d hd => digits_reverse_lt d hd)
  refine ⟨e100, z, pad, mr, m1, hdem, hz1, hz3, hmr1, hpad, hm1, hm1c, hkey, helo, hehi, ?_⟩
  show (serialize_decimal ⟨[], false⟩ (.Normalized m sc)).output = _
  rw [serialize_decimal]
  rw [if_neg (by omega)]
  simp only [hdem]
  rw [if_pos (le_of_lt hm)]
  by_cases hc1 : 11 ≤ e100
  · rw [if_pos hc1]
    have hhead : decHeadPos e100 = [0x22, e100.toNat] := by
      rw [decHeadPos, if_pos hc1]
    have hbyte : u8ofI8 e100 = e100.toNat := by
      rw [u8ofI8]
      show ((e100 % 256).toNat) = e100.toNat
      omega
    simp only [put_u8, put_slice, flipByte, Bool.false_eq_true, if_false]
    rw [bytes_map_mod (fun b hb => hsig b hb)]
    rw [hbyte]
    simp only [List.nil_append, List.cons_append, List.append_assoc]
    rw [Nat.mod_eq_of_lt (by omega : (0x22 : Nat) < 256),
      Nat.mod_eq_of_lt (by omega : e100.toNat < 256), hhead]
    rfl
  · rw [if_neg hc1]
    by_cases hc2 : 0 ≤ e100
    · rw [if_pos hc2]
      have hhead : decHeadPos e100 = [0x17 + e100.toNat] := by
        rw [decHeadPos, if_neg hc1, if_pos hc2]
      simp only [put_u8, put_slice, flipByte, Bool.false_eq_true, if_false]
      rw [bytes_map_mod (fun b hb => hsig b hb)]
      rw [Nat.mod_eq_of_lt (by omega : 0x17 + e100.toNat < 256), hhead]
      rfl
    · rw [if_neg hc2]
      have hhead : decHeadPos e100 = [0x16, (255 + e100).toNat] := by
        rw [decHeadPos, if_neg hc1, if_neg hc2]
      have hbyte : u8ofI8 (notI8 (-e100)) = (255 + e100).toNat := by
        rw [u8ofI8, notI8]
        show ((-(-e100) - 1) % 256).toNat = (255 + e100).toNat
        omega
      simp only [put_u8, put_slice, flipByte, Bool.false_eq_true, if_false]
      rw [bytes_map_mod (fun b hb => hsig b hb)]
      rw [hbyte]
      rw [Nat.mod_eq_of_lt (by omega : (0x16 : Nat) < 256),
        Nat.mod_eq_of_lt (by omega : (255 + e100).toNat < 256), hhead]
      rfl

/-- The encoding of a negative normalized decimal. -/
theorem encodeDecimal_neg {m : Int} {sc : Nat} (hm : m < 0)
    (h2 : m.natAbs < 10 ^ 29) (hsc : sc ≤ 28) :
    ∃ (e100 : Int) (z pad mr m1 : Nat),
      decimal_e_m m.natAbs sc = (e100, sigOfBE ((digits100LE m1).reverse)) ∧
      m.natAbs = mr * 10 ^ z ∧ mr % 10 ≠ 0 ∧ 1 ≤ mr ∧
      pad ≤ 1 ∧ m1 = mr * 10 ^ pad ∧ m1 % 100 ≠ 0 ∧
      2 * ((digits100LE m1).length : Int) = 2 * e100 + (sc : Int) - z + pad ∧
      -13 ≤ e100 ∧ e100 ≤ 15 ∧
      encodeDecimal (.Normalized m sc) =
        decHeadNeg e100 ++ (sigOfBE ((digits100LE m1).reverse)).map notU8 := by
  have h1 : 1 ≤ m.natAbs := by omega
  obtain ⟨e100, z, pad, mr, m1, hdem, hz1, hz3, hmr1, hpad, hm1, hm1c, hkey, helo, hehi⟩ :=
    dem_char m.natAbs sc h1 h2 hsc
  refine ⟨e100, z, pad, mr, m1, hdem, hz1, hz3, hmr1, hpad, hm1, hm1c, hkey, helo, hehi, ?_⟩
  show (serialize_decimal ⟨[], false⟩ (.Normalized m sc)).output = _
  rw [serialize_decimal]
  rw [if_neg (by omega)]
  simp only [hdem]
  rw [if_neg (by omega)]
  have hfold := foldl_put_not_output (sigOfBE ((digits100LE m1).reverse))
  have hmap : (sigOfBE ((digits100LE m1).reverse)).map (fun b => notU8 b % 256) =
      (sigOfBE ((digits100LE m1).reverse)).map notU8 := by
    refine List.map_congr_left fun b _ => ?_
    rw [notU8]
    omega
  by_cases hc1 : 11 ≤ e100
  · rw [if_pos hc1]
    have hhead : decHeadNeg e100 = [0x8, (255 - e100).toNat] := by
      rw [decHeadNeg, if_pos hc1]
    have hbyte : u8ofI8 (notI8 e100) = (255 - e100).toNat := by
      rw [u8ofI8, notI8]
      show ((-e100 - 1) % 256).toNat = (255 - e100).toNat
      omega
    rw [hfold]
    simp only [put_u8, flipByte, Bool.false_eq_true, if_false]
    rw [hmap, hbyte]
    rw [Nat.mod_eq_of_lt (by omega : (0x8 : Nat) < 256),
      Nat.mod_eq_of_lt (by omega : (255 - e100).toNat < 256), hhead]
    rfl
  · rw [if_neg hc1]
    by_cases hc2 : 0 ≤ e100
    · rw [if_pos hc2]
      have hhead : decHeadNeg e100 = [0x13 - e100.toNat] := by
        rw [decHeadNeg, if_neg hc1, if_pos hc2]
      rw [hfold]
      simp only [put_u8, flipByte, Bool.false_eq_true, if_false]
      rw [hmap]
      rw [Nat.mod_eq_of_lt (by omega : 0x13 - e100.toNat < 256), hhead]
      rfl
    · rw [if_neg hc2]
      have hhead : decHeadNeg e100 = [0x14, (-e100).toNat] := by
        rw [decHeadNeg, if_neg hc1, if_neg hc2]
      have hbyte : u8ofI8 (-e100) = (-e100).toNat := by
        rw [u8ofI8]
        show ((-e100) % 256).toNat = (-e100).toNat
        omega
      rw [hfold]
      simp only [put_u8, flipByte, Bool.false_eq_true, if_false]
      rw [hmap, hbyte]
      rw [Nat.mod_eq_of_lt (by omega : (0x14 : Nat) < 256),
        Nat.mod_eq_of_lt (by omega : (-e100).toNat < 256), hhead]
      rfl

/-- The encoding of zero. -/
theorem encodeDecimal_zero (sc : Nat) :
    encodeDecimal (.Normalized 0 sc) = [0x15] := by
  show (serialize_decimal ⟨[], false⟩ (.Normalized 0 sc)).output = _
  rw [serialize_decimal, if_pos rfl]
  rfl

/-! ## C3: header ordering and the decimal total order -/

theorem lexCmp_cons_lt {a b : Nat} (h : a < b) (s1 s2 : List Nat) :
    lexCmp (a :: s1) (b :: s2) = .lt := by
  simp [lexCmp, Nat.compare_eq_lt.mpr h]

theorem lexCmp_cons_gt {a b : Nat} (h : b < a) (s1 s2 : List Nat) :
    lexCmp (a :: s1) (b :: s2) = .gt := by
  simp [lexCmp, Nat.compare_eq_gt.mpr h]

theorem lexCmp_cons_same (a : Nat) (s1 s2 : List Nat) :
    lexCmp (a :: s1) (a :: s2) = lexCmp s1 s2 := by
  simp [lexCmp, compare_self_nat]

theorem cmpQ_neg (a b : ℚ) : cmpQ (-a) (-b) = (cmpQ a b).swap := by
  rcases lt_trichotomy a b with h | h | h
  · rw [cmpQ_lt h, cmpQ_gt (by linarith : -b < -a)]
    rfl
  · rw [cmpQ_eq h, cmpQ_eq (by rw [h])]
    rfl
  · rw [cmpQ_gt h, cmpQ_lt (by linarith : -a < -b)]
    rfl

theorem cmpQ_mul_right {c : ℚ} (hc : 0 < c) (a b : ℚ) :
    cmpQ (a * c) (b * c) = cmpQ a b := by
  rcases lt_trichotomy a b with h | h | h
  · rw [cmpQ_lt h, cmpQ_lt (mul_lt_mul_of_pos_right h hc)]
  · rw [cmpQ_eq h, cmpQ_eq (by rw [h])]
  · rw [cmpQ_gt h, cmpQ_gt (mul_lt_mul_of_pos_right h hc)]

theorem digits_reverse_ne_nil {m : Nat} (hm : m ≠ 0) :
    (digits100LE m).reverse ≠ [] := by
  intro h0
  have hl := (digits100_len m m le_rfl hm).1
  rw [List.reverse_eq_nil_iff] at h0
  rw [h0] at hl
  simp at hl

/-- Positive-decimal headers are ordered by the exponent. -/
theorem decHeadPos_lt {e1 e2 : Int} (h : e1 < e2) (h1 : -13 ≤ e1) (h2 : e2 ≤ 15)
    (s1 s2 : List Nat) :
    lexCmp (decHeadPos e1 ++ s1) (decHeadPos e2 ++ s2) = .lt := by
  rw [decHeadPos, decHeadPos]
  by_cases ha : 11 ≤ e1
  · rw [if_pos ha, if_pos (by omega : 11 ≤ e2)]
    simp only [List.cons_append, List.nil_append]
    rw [lexCmp_cons_same, lexCmp_cons_lt (by omega : e1.toNat < e2.toNat)]
  · rw [if_neg ha]
    by_cases hb : 0 ≤ e1
    · rw [if_pos hb]
      by_cases hc : 11 ≤ e2
      · rw [if_pos hc]
        simp only [List.cons_append, List.nil_append]
        rw [lexCmp_cons_lt (by omega : 0x17 + e1.toNat < 0x22)]
      · rw [if_neg hc, if_pos (by omega : (0:Int) ≤ e2)]
        simp only [List.cons_append, List.nil_append]
        rw [lexCmp_cons_lt (by omega : 0x17 + e1.toNat < 0x17 + e2.toNat)]
    · rw [if_neg hb]
      by_cases hc : 11 ≤ e2
      · rw [if_pos hc]
        simp only [List.cons_append, List.nil_append]
        rw [lexCmp_cons_lt (by omega : (0x16:Nat) < 0x22)]
      · rw [if_neg hc]
        by_cases hd : 0 ≤ e2
        · rw [if_pos hd]
          simp only [List.cons_append, List.nil_append]
          rw [lexCmp_cons_lt (by omega : (0x16:Nat) < 0x17 + e2.toNat)]
        · rw [if_neg hd]
          simp only [List.cons_append, List.nil_append]
          rw [lexCmp_cons_same,
            lexCmp_cons_lt (by omega : (255 + e1).toNat < (255 + e2).toNat)]

/-- Negative-decimal headers are ordered by the reversed exponent. -/
theorem decHeadNeg_lt {e1 e2 : Int} (h : e2 < e1) (h1 : -13 ≤ e2) (h2 : e1 ≤ 15)
    (s1 s2 : List Nat) :
    lexCmp (decHeadNeg e1 ++ s1) (decHeadNeg e2 ++ s2) = .lt := by
  rw [decHeadNeg, decHeadNeg]
  by_cases ha : 11 ≤ e1
  · rw [if_pos ha]
    by_cases hb : 11 ≤ e2
    · rw [if_pos hb]
      simp only [List.cons_append, List.nil_append]
      rw [lexCmp_cons_same,
        lexCmp_cons_lt (by omega : (255 - e1).toNat < (255 - e2).toNat)]
    · rw [if_neg hb]
      by_cases hc : 0 ≤ e2
      · rw [if_pos hc]
        simp only [List.cons_append, List.nil_append]
        rw [lexCmp_cons_lt (by omega : (0x8:Nat) < 0x13 - e2.toNat)]
      · rw [if_neg hc]
        simp only [List.cons_append, List.nil_append]
        rw [lexCmp_cons_lt (by omega : (0x8:Nat) < 0x14)]
  · rw [if_neg ha]
    by_cases hb : 0 ≤ e1
    · rw [if_pos hb]
      by_cases hc : 0 ≤ e2
      · rw [if_neg (by omega : ¬ 11 ≤ e2), if_pos hc]
        simp only [List.cons_append, List.nil_append]
        rw [lexCmp_cons_lt (by omega : 0x13 - e1.toNat < 0x13 - e2.toNat)]
      · rw [if_neg (by omega : ¬ 11 ≤ e2), if_neg hc]
        simp only [List.cons_append, List.nil_append]
        rw [lexCmp_cons_lt (by omega : 0x13 - e1.toNat < 0x14)]
    · rw [if_neg hb, if_neg (by omega : ¬ 11 ≤ e2), if_neg (by omega : ¬ (0:Int) ≤ e2)]
      simp only [List.cons_append, List.nil_append]
      rw [lexCmp_cons_same,
        lexCmp_cons_lt (by omega : (-e1).toNat < (-e2).toNat)]

/-- The base-100 fraction of a nonzero mantissa lies in `[1/100, 1)`. -/
theorem frac_range {m1 : Nat} (hne : m1 ≠ 0) :
    (1 : ℚ) / 100 ≤ (m1 : ℚ) / 100 ^ (digits100LE m1).length ∧
      (m1 : ℚ) / 100 ^ (digits100LE m1).length < 1 := by
  obtain ⟨ht1, hlo, hhi⟩ := digits100_len m1 m1 le_rfl hne
  constructor
  · rw [div_le_div_iff (by norm_num) (by positivity)]
    have hN : (100 : Nat) ^ (digits100LE m1).length ≤ m1 * 100 := by
      calc (100 : Nat) ^ (digits100LE m1).length
          = 100 ^ ((digits100LE m1).length - 1) * 100 := by
            rw [← pow_succ, Nat.sub_add_cancel ht1]
        _ ≤ m1 * 100 := Nat.mul_le_mul_right 100 hlo
    calc (1 : ℚ) * 100 ^ (digits100LE m1).length
        = ((100 ^ (digits100LE m1).length : Nat) : ℚ) := by push_cast; ring
      _ ≤ ((m1 * 100 : Nat) : ℚ) := by exact_mod_cast hN
      _ = (m1 : ℚ) * 100 := by push_cast; ring
  · rw [div_lt_one (by positivity)]
    exact_mod_cast hhi

/-- A smaller base-100 exponent gives a strictly smaller positive value. -/
theorem val_lt_of_exp_lt {e1 e2 : Int} {f1 f2 : ℚ} (he : e1 < e2)
    (hf1 : f1 < 1) (hf2 : (1 : ℚ) / 100 ≤ f2) :
    f1 * (10 : ℚ) ^ (2 * e1) < f2 * (10 : ℚ) ^ (2 * e2) := by
  have hne : (10 : ℚ) ≠ 0 := by norm_num
  have hX1 : (0 : ℚ) < (10 : ℚ) ^ (2 * e1) := by positivity
  have hX2 : (0 : ℚ) < (10 : ℚ) ^ (2 * e2) := by positivity
  have h1 : f1 * (10 : ℚ) ^ (2 * e1) < (10 : ℚ) ^ (2 * e1) :=
    mul_lt_of_lt_one_left hX1 hf1
  have h2 : (10 : ℚ) ^ (2 * e1) ≤ (10 : ℚ) ^ (2 * e2 - 2) :=
    zpow_le_zpow_right₀ (by norm_num) (by omega)
  have hsplit : (10 : ℚ) ^ (2 * e2) = (10 : ℚ) ^ (2 * e2 - 2) * 100 := by
    rw [show 2 * e2 = 2 * e2 - 2 + 2 by ring, zpow_add₀ hne]
    norm_num
  have h3 : (10 : ℚ) ^ (2 * e2 - 2) * 100 ≤ f2 * (10 : ℚ) ^ (2 * e2) * 100 := by
    have h4 := mul_le_mul_of_nonneg_right hf2 (le_of_lt hX2)
    rw [← hsplit]
    linarith
  linarith

/-- Comparing two positive header-plus-significand encodings is comparing
the values `frac · 100^exp`. -/
theorem headSig_cmp_pos {e1 e2 : Int} {n1 n2 : Nat}
    (he1l : -13 ≤ e1) (he1h : e1 ≤ 15) (he2l : -13 ≤ e2) (he2h : e2 ≤ 15)
    (hn1 : n1 % 100 ≠ 0) (hn2 : n2 % 100 ≠ 0) :
    lexCmp (decHeadPos e1 ++ sigOfBE ((digits100LE n1).reverse))
        (decHeadPos e2 ++ sigOfBE ((digits100LE n2).reverse)) =
      cmpQ ((n1 : ℚ) / 100 ^ (digits100LE n1).length * (10 : ℚ) ^ (2 * e1))
        ((n2 : ℚ) / 100 ^ (digits100LE n2).length * (10 : ℚ) ^ (2 * e2)) := by
  have hne1 : n1 ≠ 0 := by
    intro h0
    rw [h0] at hn1
    simp at hn1
  have hne2 : n2 ≠ 0 := by
    intro h0
    rw [h0] at hn2
    simp at hn2
  obtain ⟨hr1a, hr1b⟩ := frac_range hne1
  obtain ⟨hr2a, hr2b⟩ := frac_range hne2
  rcases lt_trichotomy e1 e2 with h | h | h
  · rw [decHeadPos_lt h he1l he2h]
    exact (cmpQ_lt (val_lt_of_exp_lt h hr1b hr2a)).symm
  · subst h
    have hd1 : (digits100LE n1).reverse ≠ [] := digits_reverse_ne_nil hne1
    have hd2 : (digits100LE n2).reverse ≠ [] := digits_reverse_ne_nil hne2
    rw [lexCmp_append_same,
      sig_lex _ _ hd1 hd2 digits_reverse_lt digits_reverse_lt
        (lastNZ_digits hne1 hn1) (lastNZ_digits hne2 hn2),
      fracVal_digits, fracVal_digits]
    exact (cmpQ_mul_right (by positivity) _ _).symm
  · rw [lexCmp_swap, decHeadPos_lt h he2l he1h]
    exact (cmpQ_gt (val_lt_of_exp_lt h hr2b hr1a)).symm

/-- Comparing two negative header-plus-complemented-significand encodings
reverses the comparison of the magnitudes. -/
theorem headSig_cmp_neg {e1 e2 : Int} {n1 n2 : Nat}
    (he1l : -13 ≤ e1) (he1h : e1 ≤ 15) (he2l : -13 ≤ e2) (he2h : e2 ≤ 15)
    (hn1 : n1 % 100 ≠ 0) (hn2 : n2 % 100 ≠ 0) :
    lexCmp (decHeadNeg e1 ++ (sigOfBE ((digits100LE n1).reverse)).map notU8)
        (decHeadNeg e2 ++ (sigOfBE ((digits100LE n2).reverse)).map notU8) =
      (cmpQ ((n1 : ℚ) / 100 ^ (digits100LE n1).length * (10 : ℚ) ^ (2 * e1))
        ((n2 : ℚ) / 100 ^ (digits100LE n2).length * (10 : ℚ) ^ (2 * e2))).swap := by
  have hne1 : n1 ≠ 0 := by
    intro h0
    rw [h0] at hn1
    simp at hn1
  have hne2 : n2 ≠ 0 := by
    intro h0
    rw [h0] at hn2
    simp at hn2
  obtain ⟨hr1a, hr1b⟩ := frac_range hne1
  obtain ⟨hr2a, hr2b⟩ := frac_range hne2
  rcases lt_trichotomy e1 e2 with h | h | h
  · rw [lexCmp_swap, decHeadNeg_lt h he1l he2h,
      cmpQ_lt (val_lt_of_exp_lt h hr1b hr2a)]
  · subst h
    have hd1 : (digits100LE n1).reverse ≠ [] := digits_reverse_ne_nil hne1
    have hd2 : (digits100LE n2).reverse ≠ [] := digits_reverse_ne_nil hne2
    rw [lexCmp_append_same,
      sig_lex_neg _ _ hd1 hd2 digits_reverse_lt digits_reverse_lt
        (lastNZ_digits hne1 hn1) (lastNZ_digits hne2 hn2),
      fracVal_digits, fracVal_digits,
      cmpQ_mul_right (by positivity : (0:ℚ) < (10 : ℚ) ^ (2 * e1))]
  · rw [decHeadNeg_lt h he2l he1h,
      cmpQ_gt (val_lt_of_exp_lt h hr2b hr1a)]
    rfl

theorem decVal_pos {m : Int} (hm : 0 < m) (sc : Nat) : 0 < decVal m sc := by
  rw [decVal]
  apply div_pos
  · exact_mod_cast hm
  · positivity

theorem decVal_negative {m : Int} (hm : m < 0) (sc : Nat) : decVal m sc < 0 := by
  rw [decVal]
  apply div_neg_of_neg_of_pos
  · exact_mod_cast hm
  · positivity

theorem decVal_zero (sc : Nat) : decVal 0 sc = 0 := by
  rw [decVal]
  norm_num

/-- Comparing the encodings of two positive normalized decimals compares
their rational values. -/
theorem encodeDecimal_cmp_pp {m m' : Int} {sc sc' : Nat} (hm : 0 < m) (hm' : 0 < m')
    (h2 : m.natAbs < 10 ^ 29) (h2' : m'.natAbs < 10 ^ 29)
    (hsc : sc ≤ 28) (hsc' : sc' ≤ 28) :
    lexCmp (encodeDecimal (.Normalized m sc)) (encodeDecimal (.Normalized m' sc')) =
      cmpQ (decVal m sc) (decVal m' sc') := by
  obtain ⟨e1, z1, p1, r1, n1, hdem1, hz1, hr1, hrr1, hp1, hn1, hn1c, hk1, hel1, heh1, henc1⟩ :=
    encodeDecimal_pos hm h2 hsc
  obtain ⟨e2, z2, p2, r2, n2, hdem2, hz2, hr2, hrr2, hp2, hn2, hn2c, hk2, hel2, heh2, henc2⟩ :=
    encodeDecimal_pos hm' h2' hsc'
  have hv1 : decVal m sc =
      (n1 : ℚ) / 100 ^ (digits100LE n1).length * (10 : ℚ) ^ (2 * e1) := by
    rw [decVal]
    have hmq : ((m.natAbs : Nat) : ℚ) = (m : ℚ) := by
      rw [Int.cast_natAbs]
      exact_mod_cast abs_of_nonneg (le_of_lt hm)
    rw [← hmq, hz1]
    exact dem_value hn1 hk1
  have hv2 : decVal m' sc' =
      (n2 : ℚ) / 100 ^ (digits100LE n2).length * (10 : ℚ) ^ (2 * e2) := by
    rw [decVal]
    have hmq : ((m'.natAbs : Nat) : ℚ) = (m' : ℚ) := by
      rw [Int.cast_natAbs]
      exact_mod_cast abs_of_nonneg (le_of_lt hm')
    rw [← hmq, hz2]
    exact dem_value hn2 hk2
  rw [henc1, henc2, hv1, hv2]
  exact headSig_cmp_pos hel1 heh1 hel2 heh2 hn1c hn2c

/-- Comparing the encodings of two negative normalized decimals compares
their rational values. -/
theorem encodeDecimal_cmp_nn {m m' : Int} {sc sc' : Nat} (hm : m < 0) (hm' : m' < 0)
    (h2 : m.natAbs < 10 ^ 29) (h2' : m'.natAbs < 10 ^ 29)
    (hsc : sc ≤ 28) (hsc' : sc' ≤ 28) :
    lexCmp (encodeDecimal (.Normalized m sc)) (encodeDecimal (.Normalized m' sc')) =
      cmpQ (decVal m sc) (decVal m' sc') := by
  obtain ⟨e1, z1, p1, r1, n1, hdem1, hz1, hr1, hrr1, hp1, hn1, hn1c, hk1, hel1, heh1, henc1⟩ :=
    encodeDecimal_neg hm h2 hsc
  obtain ⟨e2, z2, p2, r2, n2, hdem2, hz2, hr2, hrr2, hp2, hn2, hn2c, hk2, hel2, heh2, henc2⟩ :=
    encodeDecimal_neg hm' h2' hsc'
  have hv1 : decVal m sc =
      -((n1 : ℚ) / 100 ^ (digits100LE n1).length * (10 : ℚ) ^ (2 * e1)) := by
    rw [decVal]
    have hmq : ((m.natAbs : Nat) : ℚ) = -(m : ℚ) := by
      rw [Int.cast_natAbs]
      exact_mod_cast abs_of_nonpos (le_of_lt hm)
    have hdv := dem_value hn1 hk1
    rw [← hz1, hmq, neg_div] at hdv
    linarith
  have hv2 : decVal m' sc' =
      -((n2 : ℚ) / 100 ^ (digits100LE n2).length * (10 : ℚ) ^ (2 * e2)) := by
    rw [decVal]
    have hmq : ((m'.natAbs : Nat) : ℚ) = -(m' : ℚ) := by
      rw [Int.cast_natAbs]
      exact_mod_cast abs_of_nonpos (le_of_lt hm')
    have hdv := dem_value hn2 hk2
    rw [← hz2, hmq, neg_div] at hdv
    linarith
  rw [henc1, henc2, hv1, hv2, cmpQ_neg]
  exact congrArg Ordering.swap (headSig_cmp_pos hel1 heh1 hel2 heh2 hn1c hn2c) ▸
    headSig_cmp_neg hel1 heh1 hel2 heh2 hn1c hn2c

theorem decHeadPos_head (e : Int) :
    ∃ b r, decHeadPos e = b :: r ∧ 0x16 ≤ b ∧ (e ≤ 15 → b ≤ 0x22) := by
  rw [decHeadPos]
  by_cases hc1 : 11 ≤ e
  · rw [if_pos hc1]
    exact ⟨0x22, _, rfl, by omega, fun _ => by omega⟩
  · rw [if_neg hc1]
    by_cases hc2 : 0 ≤ e
    · rw [if_pos hc2]
      exact ⟨0x17 + e.toNat, _, rfl, by omega, fun _ => by omega⟩
    · rw [if_neg hc2]
      exact ⟨0x16, _, rfl, by omega, fun _ => by omega⟩

theorem decHeadNeg_head (e : Int) :
    ∃ b r, decHeadNeg e = b :: r ∧ 0x8 ≤ b ∧ b ≤ 0x14 := by
  rw [decHeadNeg]
  by_cases hc1 : 11 ≤ e
  · rw [if_pos hc1]
    exact ⟨0x8, _, rfl, by omega, by omega⟩
  · rw [if_neg hc1]
    by_cases hc2 : 0 ≤ e
    · rw [if_pos hc2]
      exact ⟨0x13 - e.toNat, _, rfl, by omega, by omega⟩
    · rw [if_neg hc2]
      exact ⟨0x14, _, rfl, by omega, by omega⟩

/-- The first byte of a normalized decimal encoding classifies its sign. -/
theorem encNorm_head {m : Int} {sc : Nat} (h2 : m.natAbs < 10 ^ 29) (hsc : sc ≤ 28) :
    ∃ b r, encodeDecimal (.Normalized m sc) = b :: r ∧
      ((0 < m ∧ 0x16 ≤ b ∧ b ≤ 0x22) ∨ (m = 0 ∧ b = 0x15) ∨
        (m < 0 ∧ 0x8 ≤ b ∧ b ≤ 0x14)) := by
  rcases lt_trichotomy m 0 with hm | hm | hm
  · obtain ⟨e, z, p, r, n, hdem, _, _, _, _, _, _, _, hel, heh, henc⟩ :=
      encodeDecimal_neg hm h2 hsc
    obtain ⟨b, rr, hh, hb1, hb2⟩ := decHeadNeg_head e
    refine ⟨b, rr ++ (sigOfBE ((digits100LE n).reverse)).map notU8, ?_,
      Or.inr (Or.inr ⟨hm, hb1, hb2⟩)⟩
    rw [henc, hh]
    rfl
  · subst hm
    exact ⟨0x15, [], encodeDecimal_zero sc, Or.inr (Or.inl ⟨rfl, rfl⟩)⟩
  · obtain ⟨e, z, p, r, n, hdem, _, _, _, _, _, _, _, hel, heh, henc⟩ :=
      encodeDecimal_pos hm h2 hsc
    obtain ⟨b, rr, hh, hb1, hb2⟩ := decHeadPos_head e
    refine ⟨b, rr ++ sigOfBE ((digits100LE n).reverse), ?_,
      Or.inl ⟨hm, hb1, hb2 heh⟩⟩
    rw [henc, hh]
    rfl

/-- Comparing the encodings of any two valid normalized decimals compares
their rational values. -/
theorem encodeDecimal_cmp_norm {m m' : Int} {sc sc' : Nat}
    (h2 : m.natAbs < 10 ^ 29) (h2' : m'.natAbs < 10 ^ 29)
    (hsc : sc ≤ 28) (hsc' : sc' ≤ 28) :
    lexCmp (encodeDecimal (.Normalized m sc)) (encodeDecimal (.Normalized m' sc')) =
      cmpQ (decVal m sc) (decVal m' sc') := by
  rcases lt_trichotomy m 0 with hm | hm | hm
  · rcases lt_trichotomy m' 0 with hm' | hm' | hm'
    · exact encodeDecimal_cmp_nn hm hm' h2 h2' hsc hsc'
    · subst hm'
      obtain ⟨b, r, henc, hd⟩ := encNorm_head h2 hsc
      have hb : b < 0x15 := by
        rcases hd with ⟨h0, _⟩ | ⟨h0, _⟩ | ⟨_, _, hb2⟩ <;> omega
      rw [henc, encodeDecimal_zero, lexCmp_cons_lt hb,
        decVal_zero, cmpQ_lt (decVal_negative hm sc)]
    · obtain ⟨b, r, henc, hd⟩ := encNorm_head h2 hsc
      obtain ⟨b', r', henc', hd'⟩ := encNorm_head h2' hsc'
      have hb : b < b' := by
        rcases hd with ⟨h0, _⟩ | ⟨h0, _⟩ | ⟨_, _, hb2⟩ <;>
          rcases hd' with ⟨_, hb1', _⟩ | ⟨h0', _⟩ | ⟨h0', _, _⟩ <;> omega
      rw [henc, henc', lexCmp_cons_lt hb,
        cmpQ_lt (lt_trans (decVal_negative hm sc) (decVal_pos hm' sc'))]
  · subst hm
    rcases lt_trichotomy m' 0 with hm' | hm' | hm'
    · obtain ⟨b', r', henc', hd'⟩ := encNorm_head h2' hsc'
      have hb : b' < 0x15 := by
        rcases hd' with ⟨h0', _⟩ | ⟨h0', _⟩ | ⟨_, _, hb2'⟩ <;> omega
      rw [encodeDecimal_zero, henc', lexCmp_cons_gt hb,
        decVal_zero, cmpQ_gt (decVal_negative hm' sc')]
    · subst hm'
      rw [encodeDecimal_zero, encodeDecimal_zero, lexCmp_self,
        decVal_zero, decVal_zero, cmpQ_eq rfl]
    · obtain ⟨b', r', henc', hd'⟩ := encNorm_head h2' hsc'
      have hb : 0x15 < b' := by
        rcases hd' with ⟨_, hb1', _⟩ | ⟨h0', _⟩ | ⟨h0', _, _⟩ <;> omega
      rw [encodeDecimal_zero, henc', lexCmp_cons_lt hb,
        decVal_zero, cmpQ_lt (decVal_pos hm' sc')]
  · rcases lt_trichotomy m' 0 with hm' | hm' | hm'
    · obtain ⟨b, r, henc, hd⟩ := encNorm_head h2 hsc
      obtain ⟨b', r', henc', hd'⟩ := encNorm_head h2' hsc'
      have hb : b' < b := by
        rcases hd with ⟨_, hb1, _⟩ | ⟨h0, _⟩ | ⟨h0, _, _⟩ <;>
          rcases hd' with ⟨h0', _⟩ | ⟨h0', _⟩ | ⟨_, _, hb2'⟩ <;> omega
      rw [henc, henc', lexCmp_cons_gt hb,
        cmpQ_gt (lt_trans (decVal_negative hm' sc') (decVal_pos hm sc))]
    · subst hm'
      obtain ⟨b, r, henc, hd⟩ := encNorm_head h2 hsc
      have hb : 0x15 < b := by
        rcases hd with ⟨_, hb1, _⟩ | ⟨h0, _⟩ | ⟨h0, _, _⟩ <;> omega
      rw [henc, encodeDecimal_zero, lexCmp_cons_gt hb,
        decVal_zero, cmpQ_gt (decVal_pos hm sc)]
    · exact encodeDecimal_cmp_pp hm hm' h2 h2' hsc hsc'

/-- C3 counterexample: the claimed order places NaN greatest, but NaN's
flag byte 0x06 is the smallest flag, so its encoding sorts below NegInf's
0x07: the byte order disagrees with the claimed value order at (NaN, NegInf). -/
theorem C3_counterexample :
    lexCmp (encodeDecimal .NaN) (encodeDecimal .NegInf) = .lt ∧
      cmpDecimalClaimed .NaN .NegInf = .gt := by
  exact ⟨by decide, rfl⟩

/-- C3 (amended): for all valid decimals, the lexicographic comparison of
the encodings equals the value comparison under the total order
`NaN < NegInf < negatives < Zero < positives < Inf` (NaN least, not
greatest as claimed); within Normalized the order is numeric. -/
theorem C3_amended (x y : Decimal) (hx : x.valid) (hy : y.valid) :
    lexCmp (encodeDecimal x) (encodeDecimal y) = cmpDecimal x y := by
  have hbig : (2 : Nat) ^ 96 < 10 ^ 29 := by norm_num
  cases x with
  | NaN =>
    cases y with
    | NaN => decide
    | NegInf => decide
    | Inf => decide
    | Normalized m' sc' =>
      obtain ⟨b', r', henc', hd'⟩ := encNorm_head (lt_trans hy.1 hbig) hy.2
      have hb : 6 < b' := by
        rcases hd' with ⟨_, h, _⟩ | ⟨_, h⟩ | ⟨_, h, _⟩ <;> omega
      rw [show encodeDecimal .NaN = [6] from rfl, henc']
      show lexCmp (6 :: []) (b' :: r') = .lt
      exact lexCmp_cons_lt hb [] r'
  | NegInf =>
    cases y with
    | NaN => decide
    | NegInf => decide
    | Inf => decide
    | Normalized m' sc' =>
      obtain ⟨b', r', henc', hd'⟩ := encNorm_head (lt_trans hy.1 hbig) hy.2
      have hb : 7 < b' := by
        rcases hd' with ⟨_, h, _⟩ | ⟨_, h⟩ | ⟨_, h, _⟩ <;> omega
      rw [show encodeDecimal .NegInf = [7] from rfl, henc']
      show lexCmp (7 :: []) (b' :: r') = .lt
      exact lexCmp_cons_lt hb [] r'
  | Inf =>
    cases y with
    | NaN => decide
    | NegInf => decide
    | Inf => decide
    | Normalized m' sc' =>
      obtain ⟨b', r', henc', hd'⟩ := encNorm_head (lt_trans hy.1 hbig) hy.2
      have hb : b' < 0x23 := by
        rcases hd' with ⟨_, _, h⟩ | ⟨_, h⟩ | ⟨_, _, h⟩ <;> omega
      rw [show encodeDecimal .Inf = [0x23] from rfl, henc']
      show lexCmp (0x23 :: []) (b' :: r') = .gt
      exact lexCmp_cons_gt hb [] r'
  | Normalized m sc =>
    cases y with
    | NaN =>
      obtain ⟨b, r, henc, hd⟩ := encNorm_head (lt_trans hx.1 hbig) hx.2
      have hb : 6 < b := by
        rcases hd with ⟨_, h, _⟩ | ⟨_, h⟩ | ⟨_, h, _⟩ <;> omega
      rw [henc, show encodeDecimal .NaN = [6] from rfl]
      show lexCmp (b :: r) (6 :: []) = .gt
      exact lexCmp_cons_gt hb r []
    | NegInf =>
      obtain ⟨b, r, henc, hd⟩ := encNorm_head (lt_trans hx.1 hbig) hx.2
      have hb : 7 < b := by
        rcases hd with ⟨_, h, _⟩ | ⟨_, h⟩ | ⟨_, h, _⟩ <;> omega
      rw [henc, show encodeDecimal .NegInf = [7] from rfl]
      show lexCmp (b :: r) (7 :: []) = .gt
      exact lexCmp_cons_gt hb r []
    | Inf =>
      obtain ⟨b, r, henc, hd⟩ := encNorm_head (lt_trans hx.1 hbig) hx.2
      have hb : b < 0x23 := by
        rcases hd with ⟨_, _, h⟩ | ⟨_, h⟩ | ⟨_, _, h⟩ <;> omega
      rw [henc, show encodeDecimal .Inf = [0x23] from rfl]
      show lexCmp (b :: r) (0x23 :: []) = .lt
      exact lexCmp_cons_lt hb r []
    | Normalized m' sc' =>
      show _ = cmpQ (decVal m sc) (decVal m' sc')
      exact encodeDecimal_cmp_norm (lt_trans hx.1 hbig) (lt_trans hy.1 hbig) hx.2 hy.2

/-- Witness for C3's amended theorem at the valid pair (3, Inf). -/
theorem C3_witness :
    lexCmp (encodeDecimal (.Normalized 3 0)) (encodeDecimal .Inf) =
      cmpDecimal (.Normalized 3 0) .Inf :=
  C3_amended (.Normalized 3 0) .Inf (by constructor <;> decide) trivial

/-! ## C5: decoding an encoded normalized decimal -/

/-- The trailing-zero factorization `n = mr · 10^z`, `10 ∤ mr`, is unique. -/
theorem tz_unique {mr mr' z z' : Nat} (h : mr * 10 ^ z = mr' * 10 ^ z')
    (h1 : mr % 10 ≠ 0) (h2 : mr' % 10 ≠ 0) : z = z' ∧ mr = mr' := by
  rcases Nat.lt_trichotomy z z' with hz | hz | hz
  · exfalso
    have hp : 10 ^ z' = 10 ^ z * 10 ^ (z' - z) := by
      rw [← pow_add, Nat.add_sub_cancel' (le_of_lt hz)]
    rw [hp] at h
    have hpos : 0 < 10 ^ z := Nat.pos_pow_of_pos z (by omega)
    have hmr : mr = mr' * 10 ^ (z' - z) := by
      have h3 : mr * 10 ^ z = (mr' * 10 ^ (z' - z)) * 10 ^ z := by
        rw [h]
        ring
      exact Nat.eq_of_mul_eq_mul_right hpos h3
    have hztz : z' - z = (z' - z - 1) + 1 := by omega
    rw [hztz, pow_succ, ← mul_assoc] at hmr
    exact h1 (by omega)
  · refine ⟨hz, ?_⟩
    subst hz
    have hpos : 0 < 10 ^ z := Nat.pos_pow_of_pos z (by omega)
    exact Nat.eq_of_mul_eq_mul_right hpos h
  · exfalso
    have hp : 10 ^ z = 10 ^ z' * 10 ^ (z - z') := by
      rw [← pow_add, Nat.add_sub_cancel' (le_of_lt hz)]
    rw [hp] at h
    have hpos : 0 < 10 ^ z' := Nat.pos_pow_of_pos z' (by omega)
    have hmr : mr' = mr * 10 ^ (z - z') := by
      have h3 : mr' * 10 ^ z' = (mr * 10 ^ (z - z')) * 10 ^ z' := by
        rw [← h]
        ring
      exact Nat.eq_of_mul_eq_mul_right hpos h3
    have hztz : z - z' = (z - z' - 1) + 1 := by omega
    rw [hztz, pow_succ, ← mul_assoc] at hmr
    exact h2 (by omega)

/-- Every nonzero natural has a trailing-zero factorization. -/
theorem tz_exists : ∀ (k n : Nat), n ≤ k → n ≠ 0 →
    ∃ mr z, n = mr * 10 ^ z ∧ mr % 10 ≠ 0 := by
  intro k
  induction k with
  | zero =>
    intro n hk hn
    exact absurd (by omega : n = 0) hn
  | succ k ih =>
    intro n hk hn
    by_cases h10 : n % 10 = 0
    · have hge : 10 ≤ n := by omega
      obtain ⟨mr, z, hz, hmr⟩ := ih (n / 10) (by omega) (by omega)
      refine ⟨mr, z + 1, ?_, hmr⟩
      have : n = n / 10 * 10 := by omega
      rw [this, hz, pow_succ]
      ring
    · exact ⟨n, 0, by rw [pow_zero, mul_one], h10⟩

theorem flipByte_false {b : Nat} (h : b < 256) : flipByte false b = b := by
  rw [flipByte]
  simp only [Bool.false_eq_true, if_false]
  omega

theorem notU8_notU8 {b : Nat} (h : b < 256) : notU8 (notU8 b) = b := by
  rw [notU8, notU8]
  omega

/-- One step of the mantissa loop on a byte written through the sign
wrapper. -/
theorem read_mantissa_step (neg : Bool) (v : Nat) (hv : v < 256) (tail : List Nat)
    (acc len : Int) :
    read_mantissa ⟨(if neg then notU8 v else v) :: tail, false⟩ neg acc len =
      if v &&& 1 = 0 then .ok (acc * 100 + ((v / 2 : Nat) : Int), len + 1) ⟨tail, false⟩
      else read_mantissa ⟨tail, false⟩ neg (acc * 100 + ((v / 2 : Nat) : Int)) (len + 1) := by
  rw [read_mantissa_eq]
  cases neg with
  | false =>
    simp only [Bool.false_eq_true, if_false]
    rw [flipByte_false hv]
  | true =>
    simp only [if_true]
    rw [flip_notU8, notU8_notU8 hv]

/-- The mantissa loop consumes exactly the significand produced by
`sigOfBE` and folds up its digits base 100. -/
theorem read_mantissa_sig :
    ∀ (ds : List Nat), ds ≠ [] → (∀ d ∈ ds, d < 100) →
      ∀ (rest : List Nat) (neg : Bool) (acc len : Int),
      read_mantissa
          ⟨((sigOfBE ds).map (fun v => if neg then notU8 v else v)) ++ rest, false⟩
          neg acc len =
        .ok (ds.foldl (fun (a : Int) (d : Nat) => a * 100 + (d : Int)) acc, len + ds.length)
          ⟨rest, false⟩ := by
  intro ds
  induction ds with
  | nil =>
    intro h
    exact absurd rfl h
  | cons d tl ih =>
    intro _ hlt rest neg acc len
    have hd : d < 100 := hlt d (List.mem_cons_self d tl)
    cases tl with
    | nil =>
      show read_mantissa ⟨(if neg then notU8 (2 * d) else 2 * d) :: rest, false⟩
          neg acc len = _
      rw [read_mantissa_step neg (2 * d) (by omega) rest acc len,
        if_pos (by rw [Nat.and_one_is_mod]; omega : 2 * d &&& 1 = 0)]
      have hx : ((2 * d / 2 : Nat) : Int) = (d : Int) := by
        have : 2 * d / 2 = d := by omega
        rw [this]
      rw [hx]
      rfl
    | cons e tl' =>
      show read_mantissa
          ⟨(if neg then notU8 (2 * d + 1) else 2 * d + 1) ::
            (((sigOfBE (e :: tl')).map (fun v => if neg then notU8 v else v)) ++ rest),
            false⟩ neg acc len = _
      rw [read_mantissa_step neg (2 * d + 1) (by omega) _ acc len,
        if_neg (by rw [Nat.and_one_is_mod]; omega : ¬ (2 * d + 1) &&& 1 = 0)]
      have hx : (((2 * d + 1) / 2 : Nat) : Int) = (d : Int) := by
        have : (2 * d + 1) / 2 = d := by omega
        rw [this]
      rw [hx, ih (by simp) (fun x hx => hlt x (List.mem_cons_of_mem d hx)) rest neg
        (acc * 100 + (d : Int)) (len + 1)]
      have hlen : len + 1 + ((e :: tl').length : Int) = len + ((d :: e :: tl').length : Int) := by
        simp only [List.length_cons]
        push_cast
        ring
      rw [hlen]
      rfl

theorem get_u8_cons (b : Nat) (tail : List Nat) :
    get_u8 ⟨b :: tail, false⟩ = .ok (flipByte false b) ⟨tail, false⟩ := rfl

theorem foldl_rev_val : ∀ (le : List Nat) (acc : Int),
    le.reverse.foldl (fun (a : Int) (d : Nat) => a * 100 + (d : Int)) acc =
      acc * 100 ^ le.length + ((valD le : Nat) : Int) := by
  intro le
  induction le with
  | nil =>
    intro acc
    show acc = acc * 100 ^ 0 + ((valD [] : Nat) : Int)
    show acc = acc * 100 ^ 0 + ((0 : Nat) : Int)
    push_cast
    ring
  | cons d tl ih =>
    intro acc
    rw [List.reverse_cons, List.foldl_append, ih]
    show (acc * 100 ^ tl.length + ((valD tl : Nat) : Int)) * 100 + (d : Int) =
      acc * 100 ^ (d :: tl).length + ((d + 100 * valD tl : Nat) : Int)
    rw [List.length_cons]
    push_cast
    ring

/-- The mantissa loop recovers the mantissa and digit count of an encoded
significand. -/
theorem read_mantissa_digits {n1 : Nat} (hne : n1 ≠ 0) (neg : Bool) (rest : List Nat) :
    read_mantissa
        ⟨((sigOfBE ((digits100LE n1).reverse)).map (fun v => if neg then notU8 v else v))
          ++ rest, false⟩ neg 0 0 =
      .ok ((n1 : Int), ((digits100LE n1).length : Int)) ⟨rest, false⟩ := by
  rw [read_mantissa_sig _ (digits_reverse_ne_nil hne) digits_reverse_lt rest neg 0 0,
    foldl_rev_val, valD_digits100 n1 n1 le_rfl]
  simp only [List.length_reverse, zero_mul, zero_add]

/-- Decoding the mantissa/scale of an encoded normalized decimal produces
the canonical form: trailing zeros move from the mantissa into a smaller
scale as far as the scale allows. -/
theorem decode_mantissa_scale_enc (neg : Bool) {mr z pad sc : Nat} {e100 : Int}
    (hmr : mr % 10 ≠ 0) (hmr1 : 1 ≤ mr) (hpad : pad ≤ 1)
    (hkey : 2 * ((digits100LE (mr * 10 ^ pad)).length : Int) =
      2 * e100 + (sc : Int) - (z : Int) + (pad : Int)) (rest : List Nat) :
    decode_mantissa_scale
        ⟨((sigOfBE ((digits100LE (mr * 10 ^ pad)).reverse)).map
            (fun v => if neg then notU8 v else v)) ++ rest, false⟩ neg e100 =
      .ok (.Normalized
        (if neg then -((mr * 10 ^ (z - min z sc) : Nat) : Int)
          else ((mr * 10 ^ (z - min z sc) : Nat) : Int))
        (sc - min z sc)) ⟨rest, false⟩ := by
  have hne : mr * 10 ^ pad ≠ 0 := by
    have h1 : 0 < 10 ^ pad := Nat.pos_pow_of_pos pad (by omega)
    have h3 : 0 < mr * 10 ^ pad := Nat.mul_pos (by omega) h1
    omega
  rw [decode_mantissa_scale, read_mantissa_digits hne neg rest, DeOut.bind]
  simp only []
  have hsc0 : (((digits100LE (mr * 10 ^ pad)).length : Int) - e100) * 2 =
      (sc : Int) - (z : Int) + (pad : Int) := by omega
  rw [hsc0]
  by_cases hcase : (sc : Int) - (z : Int) + (pad : Int) ≤ 0
  · rw [if_pos hcase]
    have hexp : (-((sc : Int) - (z : Int) + (pad : Int))).toNat = z - sc - pad := by omega
    have hmin : min z sc = sc := by omega
    have hmant : ((mr * 10 ^ pad : Nat) : Int) * 10 ^ (z - sc - pad) =
        ((mr * 10 ^ (z - min z sc) : Nat) : Int) := by
      rw [hmin]
      push_cast
      rw [mul_assoc, ← pow_add]
      have h9 : pad + (z - sc - pad) = z - sc := by omega
      rw [h9]
    rw [hexp, hmant]
    have hsc2 : sc - min z sc = 0 := by omega
    rw [hsc2]
    rfl
  · rw [if_neg hcase]
    have hmin : min z sc = z := by omega
    rcases (by omega : pad = 0 ∨ pad = 1) with hp | hp
    · subst hp
      rw [if_neg (show ¬ ((mr * 10 ^ 0 : Nat) : Int) % 10 = 0 by
        rw [pow_zero, mul_one]; omega)]
      have hm2 : ((mr * 10 ^ (z - min z sc) : Nat) : Int) = ((mr * 10 ^ 0 : Nat) : Int) := by
        rw [hmin, Nat.sub_self]
      rw [hm2]
      have hsc2 : ((sc : Int) - (z : Int) + ((0 : Nat) : Int)).toNat = sc - min z sc := by omega
      rw [hsc2]
    · subst hp
      rw [if_pos (show ((mr * 10 ^ 1 : Nat) : Int) % 10 = 0 by
        rw [pow_one]; push_cast; omega)]
      have hm2 : ((mr * 10 ^ 1 : Nat) : Int) / 10 = ((mr * 10 ^ (z - min z sc) : Nat) : Int) := by
        rw [hmin, Nat.sub_self, pow_zero, mul_one, pow_one]
        push_cast
        exact Int.mul_ediv_cancel _ (by norm_num)
      rw [hm2]
      have hsc2 : ((sc : Int) - (z : Int) + ((1 : Nat) : Int) - 1).toNat = sc - min z sc := by
        omega
      rw [hsc2]

/-- Decoding the encoding of a nonzero normalized decimal yields the
canonical form: with `|m| = mr·10^z` (`10 ∤ mr`), the result is
`± mr·10^(z − u)` at scale `sc − u`, where `u = min z sc`. -/
theorem decimal_decode_encode {m : Int} {sc : Nat} {mr z : Nat} (hm : m ≠ 0)
    (h2 : m.natAbs < 10 ^ 29) (hsc : sc ≤ 28)
    (hsplit : m.natAbs = mr * 10 ^ z) (hmr : mr % 10 ≠ 0) (rest : List Nat) :
    deserialize_decimal ⟨encodeDecimal (.Normalized m sc) ++ rest, false⟩ =
      .ok (.Normalized
        (if 0 ≤ m then ((mr * 10 ^ (z - min z sc) : Nat) : Int)
          else -((mr * 10 ^ (z - min z sc) : Nat) : Int))
        (sc - min z sc)) ⟨rest, false⟩ := by
  rcases lt_trichotomy m 0 with hmneg | h00 | hmpos
  · rw [if_neg (by omega : ¬ (0 : Int) ≤ m)]
    obtain ⟨e100, z', pad, mr', n1, hdem, hz1, hz3, hmr1, hpad, hn1, hn1c, hkey, helo, hehi,
      henc⟩ := encodeDecimal_neg hmneg h2 hsc
    obtain ⟨hzz, hmm⟩ := tz_unique (hsplit.symm.trans hz1) hmr hz3
    subst hzz
    subst hmm
    subst hn1
    have hd := decode_mantissa_scale_enc true hz3 hmr1 hpad hkey rest
    simp only [if_true] at hd
    rw [henc, List.append_assoc]
    by_cases hc1 : 11 ≤ e100
    · have hhead : decHeadNeg e100 = [0x8, (255 - e100).toNat] := by
        rw [decHeadNeg, if_pos hc1]
      rw [hhead]
      simp only [List.cons_append, List.nil_append]
      rw [deserialize_decimal, get_u8_cons,
        flipByte_false (by omega : (0x8 : Nat) < 256), DeOut.bind]
      simp only []
      rw [if_neg (by decide : ¬ (0x8 : Nat) = 0x06),
        if_neg (by decide : ¬ (0x8 : Nat) = 0x07),
        if_pos True.intro]
      rw [get_u8_cons, flipByte_false (by omega : (255 - e100).toNat < 256), DeOut.bind]
      rw [show decide ((0x07 : Nat) ≤ 0x8 ∧ (0x8 : Nat) < 0x15) = true by decide]
      have hA : asI8 (notU8 ((255 - e100).toNat)) = e100 := by
        rw [notU8, asI8, if_pos (by omega : (255 - (255 - e100).toNat % 256) % 256 < 128)]
        omega
      rw [hA, hd]
    · by_cases hc2 : 0 ≤ e100
      · have hhead : decHeadNeg e100 = [0x13 - e100.toNat] := by
          rw [decHeadNeg, if_neg hc1, if_pos hc2]
        rw [hhead]
        simp only [List.cons_append, List.nil_append]
        rw [deserialize_decimal, get_u8_cons,
          flipByte_false (by omega : 0x13 - e100.toNat < 256), DeOut.bind]
        simp only []
        rw [if_neg (by omega : ¬ 0x13 - e100.toNat = 0x06),
          if_neg (by omega : ¬ 0x13 - e100.toNat = 0x07),
          if_neg (by omega : ¬ 0x13 - e100.toNat = 0x08),
          if_pos (by omega : (0x09 : Nat) ≤ 0x13 - e100.toNat ∧ 0x13 - e100.toNat ≤ 0x13)]
        rw [show decide ((0x07 : Nat) ≤ 0x13 - e100.toNat ∧ 0x13 - e100.toNat < 0x15) = true
          from decide_eq_true (by omega)]
        have hE : (0x13 : Int) - ((0x13 - e100.toNat : Nat) : Int) = e100 := by omega
        rw [hE, hd]
      · have hhead : decHeadNeg e100 = [0x14, (-e100).toNat] := by
          rw [decHeadNeg, if_neg hc1, if_neg hc2]
        rw [hhead]
        simp only [List.cons_append, List.nil_append]
        rw [deserialize_decimal, get_u8_cons,
          flipByte_false (by omega : (0x14 : Nat) < 256), DeOut.bind]
        simp only []
        rw [if_neg (by decide : ¬ (0x14 : Nat) = 0x06),
          if_neg (by decide : ¬ (0x14 : Nat) = 0x07),
          if_neg (by decide : ¬ (0x14 : Nat) = 0x08),
          if_neg (by decide : ¬ ((0x09 : Nat) ≤ 0x14 ∧ (0x14 : Nat) ≤ 0x13)),
          if_pos True.intro]
        rw [get_u8_cons, flipByte_false (by omega : (-e100).toNat < 256), DeOut.bind]
        rw [show decide ((0x07 : Nat) ≤ 0x14 ∧ (0x14 : Nat) < 0x15) = true by decide]
        have hA : -(asI8 ((-e100).toNat)) = e100 := by
          rw [asI8, if_pos (by omega : (-e100).toNat % 256 < 128)]
          omega
        rw [hA, hd]
  · exact absurd h00 hm
  · rw [if_pos (le_of_lt hmpos)]
    obtain ⟨e100, z', pad, mr', n1, hdem, hz1, hz3, hmr1, hpad, hn1, hn1c, hkey, helo, hehi,
      henc⟩ := encodeDecimal_pos hmpos h2 hsc
    obtain ⟨hzz, hmm⟩ := tz_unique (hsplit.symm.trans hz1) hmr hz3
    subst hzz
    subst hmm
    subst hn1
    have hd := decode_mantissa_scale_enc false hz3 hmr1 hpad hkey rest
    simp only [Bool.false_eq_true, if_false, List.map_id'] at hd
    rw [henc, List.append_assoc]
    by_cases hc1 : 11 ≤ e100
    · have hhead : decHeadPos e100 = [0x22, e100.toNat] := by
        rw [decHeadPos, if_pos hc1]
      rw [hhead]
      simp only [List.cons_append, List.nil_append]
      rw [deserialize_decimal, get_u8_cons,
        flipByte_false (by omega : (0x22 : Nat) < 256), DeOut.bind]
      simp only []
      rw [if_neg (by decide : ¬ (0x22 : Nat) = 0x06),
        if_neg (by decide : ¬ (0x22 : Nat) = 0x07),
        if_neg (by decide : ¬ (0x22 : Nat) = 0x08),
        if_neg (by decide : ¬ ((0x09 : Nat) ≤ 0x22 ∧ (0x22 : Nat) ≤ 0x13)),
        if_neg (by decide : ¬ (0x22 : Nat) = 0x14),
        if_neg (by decide : ¬ (0x22 : Nat) = 0x15),
        if_neg (by decide : ¬ (0x22 : Nat) = 0x16),
        if_neg (by decide : ¬ ((0x17 : Nat) ≤ 0x22 ∧ (0x22 : Nat) ≤ 0x21)),
        if_pos True.intro]
      rw [get_u8_cons, flipByte_false (by omega : e100.toNat < 256), DeOut.bind]
      rw [show decide ((0x07 : Nat) ≤ 0x22 ∧ (0x22 : Nat) < 0x15) = false by decide]
      have hA : asI8 (e100.toNat) = e100 := by
        rw [asI8, if_pos (by omega : e100.toNat % 256 < 128)]
        omega
      rw [hA, hd]
    · by_cases hc2 : 0 ≤ e100
      · have hhead : decHeadPos e100 = [0x17 + e100.toNat] := by
          rw [decHeadPos, if_neg hc1, if_pos hc2]
        rw [hhead]
        simp only [List.cons_append, List.nil_append]
        rw [deserialize_decimal, get_u8_cons,
          flipByte_false (by omega : 0x17 + e100.toNat < 256), DeOut.bind]
        simp only []
        rw [if_neg (by omega : ¬ 0x17 + e100.toNat = 0x06),
          if_neg (by omega : ¬ 0x17 + e100.toNat = 0x07),
          if_neg (by omega : ¬ 0x17 + e100.toNat = 0x08),
          if_neg (by omega : ¬ ((0x09 : Nat) ≤ 0x17 + e100.toNat ∧ 0x17 + e100.toNat ≤ 0x13)),
          if_neg (by omega : ¬ 0x17 + e100.toNat = 0x14),
          if_neg (by omega : ¬ 0x17 + e100.toNat = 0x15),
          if_neg (by omega : ¬ 0x17 + e100.toNat = 0x16),
          if_pos (by omega : (0x17 : Nat) ≤ 0x17 + e100.toNat ∧ 0x17 + e100.toNat ≤ 0x21)]
        rw [show decide ((0x07 : Nat) ≤ 0x17 + e100.toNat ∧ 0x17 + e100.toNat < 0x15) = false
          from decide_eq_false (by omega)]
        have hE : ((0x17 + e100.toNat : Nat) : Int) - 0x17 = e100 := by omega
        rw [hE, hd]
      · have hhead : decHeadPos e100 = [0x16, (255 + e100).toNat] := by
          rw [decHeadPos, if_neg hc1, if_neg hc2]
        rw [hhead]
        simp only [List.cons_append, List.nil_append]
        rw [deserialize_decimal, get_u8_cons,
          flipByte_false (by omega : (0x16 : Nat) < 256), DeOut.bind]
        simp only []
        rw [if_neg (by decide : ¬ (0x16 : Nat) = 0x06),
          if_neg (by decide : ¬ (0x16 : Nat) = 0x07),
          if_neg (by decide : ¬ (0x16 : Nat) = 0x08),
          if_neg (by decide : ¬ ((0x09 : Nat) ≤ 0x16 ∧ (0x16 : Nat) ≤ 0x13)),
          if_neg (by decide : ¬ (0x16 : Nat) = 0x14),
          if_neg (by decide : ¬ (0x16 : Nat) = 0x15),
          if_pos True.intro]
        rw [get_u8_cons, flipByte_false (by omega : (255 + e100).toNat < 256), DeOut.bind]
        rw [show decide ((0x07 : Nat) ≤ 0x16 ∧ (0x16 : Nat) < 0x15) = false by decide]
        have hA : -(notI8 (asI8 ((255 + e100).toNat))) = e100 := by
          rw [asI8, if_neg (by omega : ¬ (255 + e100).toNat % 256 < 128), notI8]
          omega
        rw [hA, hd]

/-- **C5.** For every valid normalized decimal without base-100-boundary
trailing zeros (mantissa not divisible by 10, or scale 0), deserializing
the serialization gives the decimal back exactly; and a decimal with such
trailing zeros decodes to the canonical form: 100.00 (mantissa 10000,
scale 2) round-trips to 100 (mantissa 100, scale 0). -/
theorem C5_decimal_roundtrip :
    (∀ (m : Int) (sc : Nat), (Decimal.Normalized m sc).valid →
        (¬ (10 : Int) ∣ m ∨ sc = 0) → ∀ rest : List Nat,
        deserialize_decimal ⟨encodeDecimal (.Normalized m sc) ++ rest, false⟩ =
          .ok (.Normalized m sc) ⟨rest, false⟩) ∧
      deserialize_decimal ⟨encodeDecimal (.Normalized 10000 2) ++ [], false⟩ =
        .ok (.Normalized 100 0) ⟨[], false⟩ := by
  have hbig : (2 : Nat) ^ 96 < 10 ^ 29 := by norm_num
  constructor
  · intro m sc hv hcond rest
    by_cases hm0 : m = 0
    · subst hm0
      have hsc0 : sc = 0 := by
        rcases hcond with h | h
        · exact absurd (dvd_zero 10) h
        · exact h
      subst hsc0
      rw [encodeDecimal_zero]
      simp only [List.cons_append, List.nil_append]
      rw [deserialize_decimal, get_u8_cons,
        flipByte_false (by omega : (0x15 : Nat) < 256), DeOut.bind]
      simp only []
      rw [if_neg (by decide : ¬ (0x15 : Nat) = 0x06),
        if_neg (by decide : ¬ (0x15 : Nat) = 0x07),
        if_neg (by decide : ¬ (0x15 : Nat) = 0x08),
        if_neg (by decide : ¬ ((0x09 : Nat) ≤ 0x15 ∧ (0x15 : Nat) ≤ 0x13)),
        if_neg (by decide : ¬ (0x15 : Nat) = 0x14),
        if_pos True.intro]
    · rcases hcond with hnd | hsc0
      · have hmr : m.natAbs % 10 ≠ 0 := by
          intro h
          apply hnd
          have h10 : (10 : Int).natAbs ∣ m.natAbs := by
            show 10 ∣ m.natAbs
            omega
          exact Int.natAbs_dvd_natAbs.mp h10
        have hz : m.natAbs = m.natAbs * 10 ^ 0 := by rw [pow_zero, mul_one]
        have h := decimal_decode_encode hm0 (lt_trans hv.1 hbig) hv.2 hz hmr rest
        rw [h]
        have h2 : m.natAbs * 10 ^ (0 - min 0 sc) = m.natAbs := by
          have h1 : (0 : Nat) - min 0 sc = 0 := by omega
          rw [h1, pow_zero, mul_one]
        have h3 : sc - min 0 sc = sc := by omega
        rw [h2, h3]
        have h4 : (if 0 ≤ m then ((m.natAbs : Nat) : Int) else -((m.natAbs : Nat) : Int)) = m := by
          rcases le_or_lt 0 m with hx | hx
          · rw [if_pos hx]
            omega
          · rw [if_neg (by omega)]
            omega
        rw [h4]
      · subst hsc0
        obtain ⟨mr, z, hzeq, hmrne⟩ := tz_exists m.natAbs m.natAbs le_rfl (by omega)
        have h := decimal_decode_encode hm0 (lt_trans hv.1 hbig) hv.2 hzeq hmrne rest
        rw [h]
        have h2 : mr * 10 ^ (z - min z 0) = m.natAbs := by
          have h1 : min z 0 = 0 := by omega
          rw [h1, Nat.sub_zero, ← hzeq]
        have h3 : (0 : Nat) - min z 0 = 0 := by omega
        rw [h2, h3]
        have h4 : (if 0 ≤ m then ((m.natAbs : Nat) : Int) else -((m.natAbs : Nat) : Int)) = m := by
          rcases le_or_lt 0 m with hx | hx
          · rw [if_pos hx]
            omega
          · rw [if_neg (by omega)]
            omega
        rw [h4]
  · have hz : (10000 : Int).natAbs = 1 * 10 ^ 4 := by norm_num
    have h := decimal_decode_encode (by norm_num : (10000 : Int) ≠ 0)
      (by norm_num : (10000 : Int).natAbs < 10 ^ 29) (by norm_num : (2 : Nat) ≤ 28)
      hz (by norm_num : (1 : Nat) % 10 ≠ 0) []
    rw [h]
    rfl

/-- Witness for C5 at the exactly-round-tripping decimal 125 (scale 0). -/
theorem C5_witness :
    deserialize_decimal ⟨encodeDecimal (.Normalized 125 0) ++ [], false⟩ =
      .ok (.Normalized 125 0) ⟨[], false⟩ :=
  C5_decimal_roundtrip.1 125 0 (by constructor <;> decide) (Or.inr rfl) []

end Memcomparable
